import Mathlib

/-!
Verification of the FTS5 pending-terms hash table (an early snapshot of
ext/fts5 fts5_hash.c).  The C source is shallowly embedded: bytes are
natural numbers below 256, buffers are lists of bytes, C machine integers
become Nat or Int (with explicit reduction modulo 2 ^ 64 where the source
casts between i64 and u64), and every operation is an executable function,
so concrete scenarios from the specification can be evaluated by decide.
-/

namespace Fts5

/-! ### Generic varint codec -/

/-- Modelled from the spec: the generic varint codec (sqlite3PutVarint /
sqlite3GetVarint live in util.c, which is not part of the provided sources;
section 4.1 of the spec fixes the format: unsigned, 1-9 bytes, high bit set
on every byte but the last, 7 data bits per non-terminal byte, and a 9-byte
form whose final byte carries 8 data bits).  digits7be k w lists the k
low-order base-128 digits of w, most significant first. -/
def digits7be : Nat → Nat → List Nat
  | 0, _ => []
  | k + 1, w => (w / 2 ^ (7 * k)) % 128 :: digits7be k w

/-- Modelled from the spec: number of base-128 digits of w, written as a
comparison chain so that it reduces by computation.  It agrees with the
do-while digit count of the C encoder on every value below 2 pow 63, which
covers every argument the encoder passes (always below 2 pow 57). -/
def varintLen7 (w : Nat) : Nat :=
  if w < 2 ^ 7 then 1 else if w < 2 ^ 14 then 2 else if w < 2 ^ 21 then 3
  else if w < 2 ^ 28 then 4 else if w < 2 ^ 35 then 5 else if w < 2 ^ 42 then 6
  else if w < 2 ^ 49 then 7 else if w < 2 ^ 56 then 8 else 9

/-- Modelled from the spec: the 1-9 byte varint encoder.  Values below
2 ^ 56 use the minimal number of 7-bit groups, high bit set on all but the
final byte; larger values use 8 leading 7-bit groups (covering bits 63..8)
followed by one full trailing byte. -/
def sqlite3PutVarint (v : Nat) : List Nat :=
  if v < 128 then [v]
  else if v < 2 ^ 56 then
    ((digits7be (varintLen7 (v / 128)) (v / 128)).map (fun d => d + 128)) ++ [v % 128]
  else
    ((digits7be 8 (v / 256)).map (fun d => d + 128)) ++ [v % 256]

/-- Modelled from the spec: varint decoder loop.  n counts the bytes
consumed so far; after 8 continuation bytes the 9th byte contributes all
8 of its bits.  Returns the decoded value and the number of bytes read. -/
def getVarintAux : Nat → Nat → List Nat → Nat × Nat
  | n, acc, [] => (acc, n)
  | n, acc, b :: bs =>
    if n = 8 then (acc * 256 + b, 9)
    else if b < 128 then (acc * 128 + b, n + 1)
    else getVarintAux (n + 1) (acc * 128 + (b - 128)) bs

/-- Modelled from the spec: varint decoder entry point (value, length). -/
def sqlite3GetVarint (bs : List Nat) : Nat × Nat :=
  getVarintAux 0 0 bs

/-- Reduction of a signed 64-bit value to its unsigned representation,
modelling the C cast from i64 to u64 at varint call sites. -/
def toU64 (i : Int) : Nat := (i % (2 ^ 64 : Int)).toNat

/-- Reinterpretation of an unsigned 64-bit value as a signed one,
modelling the C cast from u64 back to i64 on the decode side. -/
def toI64 (n : Nat) : Int := if n < 2 ^ 63 then (n : Int) else (n : Int) - 2 ^ 64

/-! ### Fixed-width 4-byte varint (fts5Put4ByteVarint / fts5Get4ByteVarint) -/

/-- The fixed-width 4-byte varint writer from the source: byte j holds
0x80 or-ed with the unsigned-char truncation of iVal shifted right by
21, 14, 7 bits, and the final byte is iVal masked to 7 bits.  For x below
256 the C expression 0x80 or x equals 128 + x % 128, which is the form
used here. -/
def fts5Put4ByteVarint (v : Nat) : List Nat :=
  [128 + (v / 2 ^ 21) % 128, 128 + (v / 2 ^ 14) % 128, 128 + (v / 2 ^ 7) % 128, v % 128]

/-- The fixed-width 4-byte varint reader from the source: it masks the
first three bytes to 7 bits, adds the fourth byte in full, and also
reports the natural varint length of the decoded value (1, 2, 3 or 4
depending on its magnitude, exactly as the mask chain in the C does). -/
def fts5Get4ByteVarint (a : List Nat) : Nat × Nat :=
  let v := (a.getD 0 0 % 128) * 2 ^ 21 + (a.getD 1 0 % 128) * 2 ^ 14
      + (a.getD 2 0 % 128) * 2 ^ 7 + a.getD 3 0
  (v, if v < 2 ^ 7 then 1 else if v < 2 ^ 14 then 2 else if v < 2 ^ 21 then 3 else 4)

/-! ### Data model of fts5_hash.c -/

/-- Result code: the two codes this module produces. -/
inductive Rc where
  | OK : Rc
  | NOMEM : Rc
deriving DecidableEq, Repr

/-- Allocation oracle for a single call, resolving the nondeterminism of
sqlite3_malloc and sqlite3_realloc: whether the slot-array resize, the
new-entry allocation and the payload reallocation succeed. -/
structure MemOracle where
  resizeOk : Bool
  entryOk : Bool
  growOk : Bool
deriving DecidableEq, Repr

/-- Oracle under which every allocation succeeds. -/
def allOk : MemOracle := ⟨true, true, true⟩

/-- Size in bytes of the Fts5HashEntry struct header on an LP64 machine
(two pointers, three int, two int, one i64, padded).  Offsets stored in the
C entry are absolute from the struct start; the model stores offsets
relative to the start of the data area (the byte after the key's nul), so
hdrSz only enters the byte-accounting quantities nData and pnByte, whose
invariants are independent of its concrete value. -/
def hdrSz : Nat := 48

/-- The Fts5HashEntry object.  zKey holds the key bytes without the nul
terminator; entryData holds the doclist bytes that follow the terminator
in the C allocation; iSzPoslist is the offset inside entryData of the
4-byte poslist-size slot of the current document (C stores it absolute,
shifted here by hdrSz + key length + 1); the 4 reserved bytes are
represented as zeros, standing in for the uninitialised heap bytes the C
reserves, which are always overwritten before being read. -/
structure Fts5HashEntry where
  zKey : List Nat
  entryData : List Nat
  iSzPoslist : Nat
  nAlloc : Nat
  iCol : Int
  iPos : Int
  iRowid : Int
deriving DecidableEq, Repr

/-- Value of the C field nData: total bytes of data including the struct
header, the key and its terminator, and the doclist bytes. -/
def nData (e : Fts5HashEntry) : Nat := hdrSz + e.zKey.length + 1 + e.entryData.length

/-- Overwrite bytes of l starting at offset off (the in-place write used to
back-patch a 4-byte size slot). -/
def writeBytesAt (l : List Nat) (off : Nat) (bs : List Nat) : List Nat :=
  l.take off ++ bs ++ l.drop (off + bs.length)

/-- Doclist bytes of an entry with the final poslist-size slot filled in,
as sqlite3Fts5HashQuery, sqlite3Fts5HashScanEntry and sqlite3Fts5HashIterate
all do (fts5Put4ByteVarint of nData - iSzPoslist - 4 at offset iSzPoslist)
before exposing the bytes.  The C writes these bytes into the shared entry;
since every reader recomputes the identical patch before reading, keeping
the stored form unpatched and patching at observation points is
observationally equivalent. -/
def patchedData (e : Fts5HashEntry) : List Nat :=
  writeBytesAt e.entryData e.iSzPoslist
    (fts5Put4ByteVarint (e.entryData.length - e.iSzPoslist - 4))

/-- The Fts5Hash table.  pnByte is the value of the externally-owned byte
counter (the C stores a pointer to it; the model carries the integer,
taking its initial value to be zero as claim P4 assumes).  aSlot is the
slot array, each slot a bucket chain with the most recently inserted entry
first.  pScan is the pScanNext-linked list of the current ordered scan. -/
structure Fts5Hash where
  pnByte : Int
  nEntry : Nat
  nSlot : Nat
  pScan : List Fts5HashEntry
  aSlot : List (List Fts5HashEntry)
deriving DecidableEq, Repr

/-- Promotion of a byte read through a signed char to the unsigned int
domain, as happens in the hash mixing expression (p is const char star). -/
def cSext (b : Nat) : Nat := if b < 128 then b else 2 ^ 32 - 256 + b

/-- The hash function fts5HashKey: h seeded with 13, mixed over the key
bytes from the last towards the first as h = (h shl 3) xor h xor byte in
unsigned int arithmetic, reduced modulo the slot count. -/
def fts5HashKey (nSlot : Nat) (p : List Nat) : Nat :=
  (p.foldr (fun b h => ((h * 8) % 2 ^ 32) ^^^ h ^^^ cSext b) 13) % nSlot

/-- Fresh table with n slots (the constructor uses 1024; the slot count is
a parameter here so that claim P7 can compare different initial counts). -/
def fts5HashNewN (n : Nat) : Fts5Hash :=
  { pnByte := 0, nEntry := 0, nSlot := n, pScan := [], aSlot := List.replicate n [] }

/-- sqlite3Fts5HashNew with its fixed initial slot count of 1024. -/
def sqlite3Fts5HashNew : Fts5Hash := fts5HashNewN 1024

/-- sqlite3Fts5HashClear: free every entry and null the slots. -/
def sqlite3Fts5HashClear (h : Fts5Hash) : Fts5Hash :=
  { h with aSlot := List.replicate h.nSlot [], nEntry := 0 }

/-- Insertion of an entry at the head of its chain in a slot array with
nSlot slots (the rehash step of fts5HashResize). -/
def slotInsert (slots : List (List Fts5HashEntry)) (nSlot : Nat) (e : Fts5HashEntry) :
    List (List Fts5HashEntry) :=
  let i := fts5HashKey nSlot e.zKey
  slots.set i (e :: slots.getD i [])

/-- fts5HashResize: on allocation success, double the slot count and
re-insert every entry (taken slot by slot, chain front to back, exactly the
order of the C loops) into the new array; on failure return SQLITE_NOMEM
with the table untouched. -/
def fts5HashResize (ok : Bool) (h : Fts5Hash) : Rc × Fts5Hash :=
  if ok then
    let nNew := 2 * h.nSlot
    let slots := h.aSlot.flatten.foldl (fun acc e => slotInsert acc nNew e)
        (List.replicate nNew [])
    (Rc.OK, { h with nSlot := nNew, aSlot := slots })
  else (Rc.NOMEM, h)

/-- The lookup condition of the write and query loops: memcmp of the first
nToken stored bytes against the token, plus a nul at position nToken.  The
stored image of a key is its bytes followed by the terminator, so the two
C conditions amount to the checks below; for nul-free tokens this is exact
byte-for-byte C behaviour. -/
def keyMatch (zKey tok : List Nat) : Bool :=
  ((zKey ++ [0]).take tok.length == tok) && ((zKey ++ [0]).getD tok.length 0 == 0)

/-- Walk of a bucket chain for a token (the for loop over pHashNext). -/
def chainFind (chain : List Fts5HashEntry) (tok : List Nat) : Option Fts5HashEntry :=
  chain.find? (fun p => keyMatch p.zKey tok)

/-- Replacement of the first entry of a chain that matches the token (the
pointer-relink loop after sqlite3_realloc, plus all in-place updates made
through the found entry). -/
def chainSetFirst (tok : List Nat) (e2 : Fts5HashEntry) :
    List Fts5HashEntry → List Fts5HashEntry
  | [] => []
  | e :: rest =>
    if keyMatch e.zKey tok then e2 :: rest else e :: chainSetFirst tok e2 rest

/-- Creation of a new hash entry as in sqlite3Fts5HashWrite lines 206-229:
allocation of max(128, header + key + 1 + 64) bytes, key copied and
nul-terminated, absolute rowid appended as a varint, 4 bytes reserved for
the poslist size, cursors zeroed except iRowid. -/
def newEntry (tok : List Nat) (iRowid : Int) : Fts5HashEntry :=
  let rv := sqlite3PutVarint (toU64 iRowid)
  { zKey := tok,
    entryData := rv ++ [0, 0, 0, 0],
    iSzPoslist := rv.length,
    nAlloc := max 128 (hdrSz + tok.length + 1 + 64),
    iCol := 0, iPos := 0, iRowid := iRowid }

/-- The append phase of sqlite3Fts5HashWrite (lines 255-281): on a rowid
change, back-patch the previous poslist-size slot, append the rowid delta
and reserve a new slot, resetting the column and position cursors; then,
for a non-negative column, append a 0x01 column marker and the column
number when the column changed, and the biased position delta. -/
def entryAppend (e : Fts5HashEntry) (iRowid iCol iPos : Int) : Fts5HashEntry :=
  let e1 :=
    if iRowid ≠ e.iRowid then
      let d1 := writeBytesAt e.entryData e.iSzPoslist
          (fts5Put4ByteVarint (e.entryData.length - e.iSzPoslist - 4))
      let d2 := d1 ++ sqlite3PutVarint (toU64 (iRowid - e.iRowid))
      { e with entryData := d2 ++ [0, 0, 0, 0],
               iSzPoslist := d2.length,
               iCol := 0, iPos := 0, iRowid := iRowid }
    else e
  if 0 ≤ iCol then
    let e2 :=
      if iCol ≠ e1.iCol then
        { e1 with entryData := e1.entryData ++ [1] ++ sqlite3PutVarint (toU64 iCol),
                  iCol := iCol, iPos := 0 }
      else e1
    { e2 with entryData := e2.entryData ++ sqlite3PutVarint (toU64 (iPos - e2.iPos + 2)),
              iPos := iPos }
  else e1

/-- One successful write step as seen by the entry of the written term:
grow when fewer than 22 tail bytes remain, then append.  This is the
grow-and-append tail of a successful write, factored per entry. -/
def termStep (e : Fts5HashEntry) (iRowid iCol iPos : Int) : Fts5HashEntry :=
  entryAppend (if e.nAlloc - nData e < 22 then { e with nAlloc := 2 * e.nAlloc } else e)
    iRowid iCol iPos

/-- Sum of the nData fields over a list of entries, in the byte-counter
domain. -/
def sumNData (es : List Fts5HashEntry) : Int :=
  (es.map (fun e => (nData e : Int))).sum

/-- Bucket lookup of a token in the table (the shared loop of write and
query). -/
def hashLookup (h : Fts5Hash) (tok : List Nat) : Option Fts5HashEntry :=
  chainFind (h.aSlot.getD (fts5HashKey h.nSlot tok) []) tok

/-- Common tail of sqlite3Fts5HashWrite (lines 241-285) for an entry p that
is already linked into chain iHash: ensure at least 22 free tail bytes
(doubling nAlloc via realloc, which on failure leaves everything as it
was), perform the append, and add the net nData change (plus nIncr0, the
size of a freshly created entry) to the external byte counter. -/
def fts5WriteTail (h : Fts5Hash) (iHash : Nat) (tok : List Nat) (p : Fts5HashEntry)
    (iRowid iCol iPos : Int) (growOk : Bool) (nIncr0 : Int) : Rc × Fts5Hash :=
  let step (pG : Fts5HashEntry) : Rc × Fts5Hash :=
    let p2 := entryAppend pG iRowid iCol iPos
    (Rc.OK,
      { h with aSlot := h.aSlot.set iHash (chainSetFirst tok p2 (h.aSlot.getD iHash [])),
               pnByte := h.pnByte + (nIncr0 - (nData pG : Int) + (nData p2 : Int)) })
  if p.nAlloc - nData p < 22 then
    if growOk then step { p with nAlloc := 2 * p.nAlloc }
    else (Rc.NOMEM, h)
  else step p

/-- sqlite3Fts5HashWrite.  Locate the token's entry in its bucket; if
absent, first resize when nEntry * 2 is at least nSlot (recomputing the
bucket), then allocate and link a fresh entry; finally run the common
grow-and-append tail.  Returns SQLITE_NOMEM from whichever allocation the
oracle fails, with exactly the partial state the C leaves behind. -/
def sqlite3Fts5HashWrite (o : MemOracle) (h : Fts5Hash) (iRowid : Int)
    (iCol iPos : Int) (tok : List Nat) : Rc × Fts5Hash :=
  let iHash := fts5HashKey h.nSlot tok
  match chainFind (h.aSlot.getD iHash []) tok with
  | some p => fts5WriteTail h iHash tok p iRowid iCol iPos o.growOk 0
  | none =>
    let rh :=
      if 2 * h.nEntry ≥ h.nSlot then fts5HashResize o.resizeOk h else (Rc.OK, h)
    if rh.1 = Rc.NOMEM then (Rc.NOMEM, rh.2)
    else if o.entryOk then
      let h1 := rh.2
      let iHash1 := fts5HashKey h1.nSlot tok
      let p := newEntry tok iRowid
      let h2 := { h1 with
          aSlot := h1.aSlot.set iHash1 (p :: h1.aSlot.getD iHash1 []),
          nEntry := h1.nEntry + 1 }
      fts5WriteTail h2 iHash1 tok p iRowid iCol iPos o.growOk ((nData p : Int))
    else (Rc.NOMEM, rh.2)

/-- sqlite3Fts5HashQuery: bucket lookup; on a hit, back-patch the final
poslist size and return the doclist bytes (the data following the key and
its terminator); on a miss return nothing. -/
def sqlite3Fts5HashQuery (h : Fts5Hash) (tok : List Nat) : Option (List Nat) :=
  (chainFind (h.aSlot.getD (fts5HashKey h.nSlot tok) []) tok).map patchedData

/-- First-difference comparison of the merge loop, on the nul-terminated
images of two keys: scan while bytes agree, then the larger byte loses.
For distinct nul-free keys the scan always terminates at a difference
inside both images; the fallthrough cases (one or both images exhausted,
which for the C means reading past the allocation of equal keys) return
false. -/
def padGtBytes : List Nat → List Nat → Bool
  | a :: as, b :: bs => if a = b then padGtBytes as bs else b < a
  | _, _ => false

/-- Comparator of fts5HashEntryMerge: true when the first entry's key is
strictly larger, so the second must be emitted first. -/
def entryKeyGt (e1 e2 : Fts5HashEntry) : Bool :=
  padGtBytes (e1.zKey ++ [0]) (e2.zKey ++ [0])

/-- Merge loop with explicit fuel (structural recursion so that concrete
scans evaluate inside the kernel); the fuel argument is always called with
the sum of the list lengths, which the loop never exhausts. -/
def mergeGo : Nat → List Fts5HashEntry → List Fts5HashEntry → List Fts5HashEntry
  | _, [], l2 => l2
  | _, e1 :: t1, [] => e1 :: t1
  | 0, l1, l2 => l1 ++ l2
  | f + 1, e1 :: t1, e2 :: t2 =>
    if entryKeyGt e1 e2 then e2 :: mergeGo f (e1 :: t1) t2
    else e1 :: mergeGo f t1 (e2 :: t2)

/-- fts5HashEntryMerge: merge two key-sorted entry lists, taking from the
second list exactly when the first list's head key is strictly larger. -/
def fts5HashEntryMerge (l1 l2 : List Fts5HashEntry) : List Fts5HashEntry :=
  mergeGo (l1.length + l2.length) l1 l2

/-- The filter of fts5HashEntrySort: no query term, or the first nTerm
stored bytes equal the query term (memcmp over the nul-terminated key
image; exact for nul-free query terms). -/
def fts5TermMatch (pTerm : Option (List Nat)) (zKey : List Nat) : Bool :=
  match pTerm with
  | none => true
  | some t => (zKey ++ [0]).take t.length == t

/-- One round of the binary-lifting merge: starting from slot 0, merge the
incoming list with each occupied slot (clearing it) and deposit the result
in the first free slot.  The C uses a fixed array of 32 slots, enough for
any entry count below 2 pow 32; the model lets the slot list grow, which
coincides with the C on every reachable table. -/
def slotPush (ap : List (List Fts5HashEntry)) (e : List Fts5HashEntry) :
    List (List Fts5HashEntry) :=
  match ap with
  | [] => [e]
  | [] :: rest => e :: rest
  | (x :: xs) :: rest => [] :: slotPush rest (fts5HashEntryMerge e (x :: xs))

/-- The sorting core of fts5HashEntrySort: feed every entry matching the
query prefix (slots in index order, chains front to back) through the
merge slots as a singleton, then fold the slots together from index 0
upwards with pList as the left operand. -/
def sortEntries (pTerm : Option (List Nat)) (entries : List Fts5HashEntry) :
    List Fts5HashEntry :=
  ((entries.filter (fun e => fts5TermMatch pTerm e.zKey)).foldl
      (fun ap e => slotPush ap [e]) []).foldl
    (fun acc l => fts5HashEntryMerge acc l) []

/-- fts5HashEntrySort: allocate the merge-slot array (the oracle's
failure yields SQLITE_NOMEM with a null sorted list and the table
untouched), build the sorted list, and zero nEntry. -/
def fts5HashEntrySort (ok : Bool) (h : Fts5Hash) (pTerm : Option (List Nat)) :
    Rc × List Fts5HashEntry × Fts5Hash :=
  if ok then
    (Rc.OK, sortEntries pTerm h.aSlot.flatten, { h with nEntry := 0 })
  else (Rc.NOMEM, [], h)

/-- sqlite3Fts5HashScanInit: run the sort and store the result in pScan.
The C function returns void, so the SQLITE_NOMEM result code of the sort
is discarded; on failure pScan is simply the null list. -/
def sqlite3Fts5HashScanInit (ok : Bool) (h : Fts5Hash) (pTerm : Option (List Nat)) :
    Fts5Hash :=
  match fts5HashEntrySort ok h pTerm with
  | (_, l, h1) => { h1 with pScan := l }

/-- sqlite3Fts5HashScanNext: advance pScan along pScanNext when non-null. -/
def sqlite3Fts5HashScanNext (h : Fts5Hash) : Fts5Hash :=
  { h with pScan := h.pScan.tail }

/-- sqlite3Fts5HashScanEof: true when pScan is null. -/
def sqlite3Fts5HashScanEof (h : Fts5Hash) : Bool := h.pScan.isEmpty

/-- sqlite3Fts5HashScanEntry: on a live cursor, back-patch the current
entry's final poslist size and return the key and doclist views; at eof
all outputs are null. -/
def sqlite3Fts5HashScanEntry (h : Fts5Hash) : Option (List Nat × List Nat) :=
  match h.pScan with
  | [] => none
  | p :: _ => some (p.zKey, patchedData p)

/-- Events emitted by sqlite3Fts5HashIterate to its sink: the xTerm,
xEntry and xTermDone callbacks.  The sink is assumed to keep returning
SQLITE_OK (no claim concerns sink-abort behaviour). -/
inductive IterEvent where
  | termKey : List Nat → IterEvent
  | doc : Int → List Nat → IterEvent
  | termDone : IterEvent
deriving DecidableEq, Repr

/-- The xEntry loop of sqlite3Fts5HashIterate over one entry's patched
doclist: read the rowid delta varint, accumulate the rowid in wrapping
64-bit arithmetic (iRowid is an i64 and iDelta a reinterpreted u64 in the
C), read the
4-byte poslist size (which also yields the natural varint length), and
hand the callback the byte range starting nVarint bytes before the end of
the size field and extending over the poslist.  Fuel (at least the byte
length) makes the loop total; on well-formed doclists it never runs out. -/
def iterLoop : Nat → Int → List Nat → List IterEvent
  | _, _, [] => []
  | 0, _, _ :: _ => []
  | fuel + 1, iRowid, b :: bs =>
    let dv := sqlite3GetVarint (b :: bs)
    let r := toI64 (toU64 (iRowid + (dv.1 : Int)))
    let bs1 := (b :: bs).drop dv.2
    let g4 := fts5Get4ByteVarint bs1
    IterEvent.doc r ((bs1.drop (4 - g4.2)).take (g4.2 + g4.1))
      :: iterLoop fuel r (bs1.drop (4 + g4.1))

/-- Callback trace for a single entry during iterate: xTerm with the key,
the xEntry events over the back-patched doclist, then xTermDone. -/
def entryEvents (p : Fts5HashEntry) : List IterEvent :=
  IterEvent.termKey p.zKey
    :: (iterLoop (patchedData p).length 0 (patchedData p) ++ [IterEvent.termDone])

/-- sqlite3Fts5HashIterate: sort every entry (no prefix), null the slot
array, and emit the callback trace while freeing the entries.  On sort
allocation failure the SQLITE_NOMEM is returned (unlike scan-init, the
return code is propagated here). -/
def sqlite3Fts5HashIterate (ok : Bool) (h : Fts5Hash) :
    Rc × List IterEvent × Fts5Hash :=
  match fts5HashEntrySort ok h none with
  | (Rc.NOMEM, _, h1) => (Rc.NOMEM, [], h1)
  | (Rc.OK, pList, h1) =>
    (Rc.OK, (pList.map entryEvents).flatten,
      { h1 with aSlot := List.replicate h1.nSlot [] })

/-! ### Write sequences and reference encodings -/

/-- One call to write: term bytes plus the rowid, column, position triple. -/
structure WriteRec where
  term : List Nat
  rowid : Int
  col : Int
  pos : Int
deriving DecidableEq, Repr

/-- One write under the all-allocations-succeed oracle. -/
def writeStep (h : Fts5Hash) (r : WriteRec) : Fts5Hash :=
  (sqlite3Fts5HashWrite allOk h r.rowid r.col r.pos r.term).2

/-- A whole write sequence under the all-allocations-succeed oracle. -/
def runWrites (h : Fts5Hash) (S : List WriteRec) : Fts5Hash :=
  S.foldl writeStep h

/-- Entry obtained by replaying all writes of one term, in order: the
first record creates the entry, every record (the first included) then
runs the grow-and-append step. -/
def entryFold (tok : List Nat) : List WriteRec → Option Fts5HashEntry
  | [] => none
  | r :: rest =>
    some (rest.foldl (fun e x => termStep e x.rowid x.col x.pos)
      (termStep (newEntry tok r.rowid) r.rowid r.col r.pos))

/-- Validity of a term: non-empty (the spec requires at least one byte)
and made of nul-free bytes. -/
def termValid (t : List Nat) : Bool :=
  !t.isEmpty && t.all (fun b => 0 < b && b < 256)

/-- Machine-width bounds on one record: the rowid comfortably inside i64
(so signed deltas exist), column and position inside i32, and a
non-negative position whenever the column is non-negative (a negative
position cannot be produced by a tokenizer and would break the +2 bias). -/
def recBounds (r : WriteRec) : Bool :=
  decide (-(2 ^ 62 : Int) ≤ r.rowid) && decide (r.rowid < 2 ^ 62) &&
  decide (r.col < 2 ^ 31) && decide (r.pos < 2 ^ 31) &&
  (decide (r.col < 0) || decide (0 ≤ r.pos))

/-- Monotonicity of the remaining records of one term, relative to the
cursor left by the records already seen: R is the open rowid, del records
whether the open document is a deletion marker, C and P are the column and
position cursors.  A record on the open rowid must not follow a deletion,
must carry a non-negative, non-decreasing column, and a strictly larger
position when the column is unchanged; a record on a new rowid must be
strictly larger. -/
def termSeqOkFrom : Int → Bool → Int → Int → List WriteRec → Bool
  | _, _, _, _, [] => true
  | R, del, C, P, r :: rest =>
    recBounds r &&
    (if r.rowid = R then
      !del && decide (0 ≤ r.col) && decide (C ≤ r.col) &&
      (if r.col = C then decide (P < r.pos) else true) &&
      termSeqOkFrom R false r.col r.pos rest
    else
      decide (R < r.rowid) &&
      (if 0 ≤ r.col then termSeqOkFrom r.rowid false r.col r.pos rest
       else termSeqOkFrom r.rowid true 0 0 rest))

/-- Monotonicity of the whole record list of one term. -/
def termSeqOk : List WriteRec → Bool
  | [] => true
  | r :: rest =>
    recBounds r &&
    (if 0 ≤ r.col then termSeqOkFrom r.rowid false r.col r.pos rest
     else termSeqOkFrom r.rowid true 0 0 rest)

/-- Validity of a write sequence: every term well-formed and every
per-term subsequence monotone in the sense of termSeqOk. -/
def validSeq (S : List WriteRec) : Bool :=
  S.all (fun r => termValid r.term) &&
  (S.map (fun r => r.term)).all
    (fun t => termSeqOk (S.filter (fun r => r.term == t)))

/-- A decoded position list: column and position pairs. -/
abbrev PosList := List (Int × Int)

/-- A decoded document: rowid and its position list (empty for a deletion
marker). -/
abbrev Doc := Int × PosList

/-- Grouping step: a record on the open rowid extends the open position
list (deletion markers contribute nothing); a record on a new rowid closes
the open document. -/
def docStep : (List Doc × Int × PosList) → WriteRec → (List Doc × Int × PosList)
  | (closed, R, pl), r =>
    if r.rowid = R then
      (closed, R, pl ++ (if 0 ≤ r.col then [(r.col, r.pos)] else []))
    else
      (closed ++ [(R, pl)], r.rowid, if 0 ≤ r.col then [(r.col, r.pos)] else [])

/-- Grouping state of a record list: closed documents plus the open one. -/
def docsState : List WriteRec → Option (List Doc × Int × PosList)
  | [] => none
  | r :: rest =>
    some (rest.foldl docStep ([], r.rowid, if 0 ≤ r.col then [(r.col, r.pos)] else []))

/-- The documents encoded by a record list, in order: consecutive records
of equal rowid form one document. -/
def docsOf (recs : List WriteRec) : List Doc :=
  match docsState recs with
  | none => []
  | some (closed, R, pl) => closed ++ [(R, pl)]

/-- Reference position-list encoder, following the write code: a column
change emits 0x01 and the column number, resetting the position cursor;
every pair emits the biased position delta. -/
def encPoslist : Int → Int → PosList → List Nat
  | _, _, [] => []
  | C, P, (c, p) :: rest =>
    if c = C then sqlite3PutVarint (toU64 (p - P + 2)) ++ encPoslist c p rest
    else [1] ++ sqlite3PutVarint (toU64 c) ++ sqlite3PutVarint (toU64 (p + 2))
      ++ encPoslist c p rest

/-- Rowid delta of a document block: absolute for the first block, the
difference to the previous rowid afterwards, reduced to u64. -/
def encBlockDelta (prev : Option Int) (R : Int) : Nat :=
  match prev with
  | none => toU64 R
  | some q => toU64 (R - q)

/-- Reference doclist encoder: per document, the rowid delta varint, the
4-byte poslist size, then the poslist bytes.  This is the layout the code
actually produces (the size field precedes the poslist bytes). -/
def encDocs : Option Int → List Doc → List Nat
  | _, [] => []
  | prev, (R, pl) :: rest =>
    sqlite3PutVarint (encBlockDelta prev R)
      ++ fts5Put4ByteVarint (encPoslist 0 0 pl).length
      ++ encPoslist 0 0 pl
      ++ encDocs (some R) rest

/-- Column and position cursor after encoding a position list. -/
def plCursor : Int → Int → PosList → Int × Int
  | C, P, [] => (C, P)
  | _, _, (c, p) :: rest => plCursor c p rest

/-! ### Decoders (the inverse of the section 4.2 encoding rules) -/

/-- Position-list decoder: value 1 is a column marker followed by the
column number (position cursor reset), values of at least 2 are biased
position deltas; value 0 (the disk terminator) never occurs in memory and
is rejected.  Fuel at least the byte length makes the loop total. -/
def decodePlAux : Nat → Int → Int → List Nat → Option PosList
  | _, _, _, [] => some []
  | 0, _, _, _ :: _ => none
  | fuel + 1, C, P, b :: bs =>
    let dv := sqlite3GetVarint (b :: bs)
    let bs1 := (b :: bs).drop dv.2
    if dv.1 = 1 then
      let cv := sqlite3GetVarint bs1
      decodePlAux fuel (cv.1 : Int) 0 (bs1.drop cv.2)
    else if 2 ≤ dv.1 then
      (decodePlAux fuel C (P + (dv.1 : Int) - 2) bs1).map
        (fun l => (C, P + (dv.1 : Int) - 2) :: l)
    else none

/-- Position-list decoder from the initial cursor. -/
def decodePoslist (bs : List Nat) : Option PosList :=
  decodePlAux bs.length 0 0 bs

/-- Doclist decoder: per block, the rowid delta varint (absolute i64 for
the first block, signed accumulation afterwards), the 4-byte poslist size,
then that many poslist bytes. -/
def decodeDlAux : Nat → Option Int → List Nat → Option (List Doc)
  | _, _, [] => some []
  | 0, _, _ :: _ => none
  | fuel + 1, prev, b :: bs =>
    let dv := sqlite3GetVarint (b :: bs)
    let R := match prev with
      | none => toI64 dv.1
      | some q => q + (dv.1 : Int)
    let bs1 := (b :: bs).drop dv.2
    let g4 := fts5Get4ByteVarint bs1
    if 4 + g4.1 ≤ bs1.length then
      match decodePoslist ((bs1.drop 4).take g4.1) with
      | none => none
      | some pl =>
        (decodeDlAux fuel (some R) ((bs1.drop 4).drop g4.1)).map
          (fun ds => (R, pl) :: ds)
    else none

/-- Doclist decoder entry point. -/
def decodeDoclist (bs : List Nat) : Option (List Doc) :=
  decodeDlAux bs.length none bs

/-! ### Statements of the claims as written (for counterexamples) -/

/-- Non-decreasing adjacency check over a list of integers. -/
def boolChainLe : List Int → Bool
  | [] => true
  | [_] => true
  | a :: b :: rest => decide (a ≤ b) && boolChainLe (b :: rest)

/-- Strictly increasing adjacency check over a list of integers. -/
def boolChainLt : List Int → Bool
  | [] => true
  | [_] => true
  | a :: b :: rest => decide (a < b) && boolChainLt (b :: rest)

/-- The monotonicity invariants exactly as claim C1 states them: per term,
rowids non-decreasing; per rowid, columns non-decreasing; per rowid and
column, positions strictly increasing. -/
def specMonotone (S : List WriteRec) : Bool :=
  S.all fun r =>
    let tr := S.filter (fun x => x.term == r.term)
    boolChainLe (tr.map (fun x => x.rowid)) &&
    boolChainLe ((tr.filter (fun x => x.rowid == r.rowid)).map (fun x => x.col)) &&
    boolChainLt
      ((tr.filter (fun x => x.rowid == r.rowid && x.col == r.col)).map (fun x => x.pos))

/-- The per-term document grouping claim C1 describes: every
negative-column write contributes a document block of its own with an
empty poslist, while consecutive same-rowid non-negative writes share a
block. -/
def docsOfSpecAux : Option (Int × PosList) → List WriteRec → List Doc
  | acc, [] => (match acc with | none => [] | some d => [d])
  | acc, r :: rest =>
    match acc with
    | none =>
      if 0 ≤ r.col then docsOfSpecAux (some (r.rowid, [(r.col, r.pos)])) rest
      else (r.rowid, []) :: docsOfSpecAux none rest
    | some (R, pl) =>
      if 0 ≤ r.col then
        if r.rowid = R then docsOfSpecAux (some (R, pl ++ [(r.col, r.pos)])) rest
        else (R, pl) :: docsOfSpecAux (some (r.rowid, [(r.col, r.pos)])) rest
      else (R, pl) :: (r.rowid, []) :: docsOfSpecAux none rest

/-- Drives docsOfSpecAux from the empty state. -/
def docsOfSpec (recs : List WriteRec) : List Doc := docsOfSpecAux none recs

/-- The doclist layout exactly as claim C3 states it: per document, the
rowid delta varint, then the poslist bytes, then the 4-byte size. -/
def encDocsSpecC3 : Option Int → List Doc → List Nat
  | _, [] => []
  | prev, (R, pl) :: rest =>
    sqlite3PutVarint (encBlockDelta prev R)
      ++ encPoslist 0 0 pl
      ++ fts5Put4ByteVarint (encPoslist 0 0 pl).length
      ++ encDocsSpecC3 (some R) rest

/-! ### Invariants and reference predicates used by the theorems -/

/-- Rowid-delta value of the still-open document block: absolute when no
block is closed yet, difference to the last closed block's rowid
otherwise. -/
def openDelta (closed : List Doc) (R : Int) : Nat :=
  match closed.getLast? with
  | none => toU64 R
  | some d => toU64 (R - d.1)

/-- Correspondence between the grouping state of the records written so
far under one term and the physical entry: the cursors agree, the data is
the encoding of the closed documents followed by the open block with a
still-unpatched (zeroed) size slot, and iSzPoslist addresses that slot. -/
def EntryMatches (tok : List Nat) (st : List Doc × Int × PosList)
    (e : Fts5HashEntry) : Prop :=
  e.zKey = tok
  ∧ e.iRowid = st.2.1
  ∧ (e.iCol, e.iPos) = plCursor 0 0 st.2.2
  ∧ e.entryData
      = encDocs none st.1 ++ sqlite3PutVarint (openDelta st.1 st.2.1)
        ++ [0, 0, 0, 0] ++ encPoslist 0 0 st.2.2
  ∧ e.iSzPoslist
      = (encDocs none st.1).length + (sqlite3PutVarint (openDelta st.1 st.2.1)).length

/-- Well-formedness of a position list for decoding, relative to the
column and position cursors: positions are i32-sized and non-negative,
repeats of the current column advance the position, and column changes
carry a non-negative i32 column. -/
def plOk : Int → Int → PosList → Bool
  | _, _, [] => true
  | C, P, (c, p) :: rest =>
    decide (0 ≤ p) && decide (p < 2 ^ 31) &&
    (if c = C then decide (P ≤ p) else decide (0 ≤ c) && decide (c < 2 ^ 31)) &&
    plOk c p rest

/-- Well-formedness of a document list for decoding: rowids comfortably
inside i64 and strictly increasing, each position list well formed and its
encoding small enough for the 4-byte size field. -/
def docsOk : Option Int → List Doc → Bool
  | _, [] => true
  | prev, (R, pl) :: rest =>
    decide (-(2 ^ 62 : Int) ≤ R) && decide (R < 2 ^ 62) &&
    (match prev with
      | none => true
      | some q => decide (q < R)) &&
    plOk 0 0 pl && decide ((encPoslist 0 0 pl).length < 2 ^ 28) &&
    docsOk (some R) rest

/-- Structural invariant of the hash table: a positive slot count matched
by the array length, every entry stored in the chain its key hashes to
with a valid (non-empty, nul-free, byte-sized) key, and pairwise distinct
keys. -/
def TableInv (h : Fts5Hash) : Prop :=
  0 < h.nSlot ∧ h.aSlot.length = h.nSlot
  ∧ (∀ i, i < h.aSlot.length →
      ∀ e ∈ h.aSlot.getD i [], termValid e.zKey = true ∧ fts5HashKey h.nSlot e.zKey = i)
  ∧ (h.aSlot.flatten.map (fun e => e.zKey)).Nodup

/-- Refinement relation between a processed write sequence and the table:
the structural invariant holds, looking up any valid token yields exactly
the entry obtained by replaying that token's records, and every stored key
was written. -/
def Refines (S : List WriteRec) (h : Fts5Hash) : Prop :=
  TableInv h
  ∧ (∀ tok, termValid tok = true →
      hashLookup h tok = entryFold tok (S.filter (fun r => r.term == tok)))
  ∧ (∀ e ∈ h.aSlot.flatten, ∃ r ∈ S, r.term = e.zKey)

/-- Strict key order on entries induced by the merge comparator (the
second key is strictly larger). -/
def entryLt (a b : Fts5HashEntry) : Prop := entryKeyGt b a = true

/-- Plain unsigned-byte lexicographic order on byte strings, the order
claim P2 speaks about: the first differing byte decides and a strict
prefix sorts first. -/
def lexLtB : List Nat → List Nat → Bool
  | [], [] => false
  | [], _ :: _ => true
  | _ :: _, [] => false
  | a :: as, b :: bs => if a = b then lexLtB as bs else decide (a < b)

/-- Pool of entries with valid, pairwise distinct keys (the environment in
which the merge sort runs). -/
def PoolOk (pool : List Fts5HashEntry) : Prop :=
  (∀ e ∈ pool, termValid e.zKey = true)
  ∧ (pool.map (fun e => e.zKey)).Nodup

/-- Keys announced by the xTerm callbacks of an iterate trace. -/
def traceTerms : List IterEvent → List (List Nat)
  | [] => []
  | IterEvent.termKey t :: rest => t :: traceTerms rest
  | IterEvent.doc _ _ :: rest => traceTerms rest
  | IterEvent.termDone :: rest => traceTerms rest

/-! ### Concrete fixtures used by counterexamples and witnesses -/

/-- Table holding one entry, key "a", from write(rowid 5, col 0, pos 3). -/
def demoH1 : Fts5Hash := (sqlite3Fts5HashWrite allOk (fts5HashNewN 4) 5 0 3 [97]).2

/-- Table holding one entry, key "a", from write(rowid 1, col 0, pos 0). -/
def demoH2 : Fts5Hash := (sqlite3Fts5HashWrite allOk (fts5HashNewN 4) 1 0 0 [97]).2

/-- Two deletion-marker writes for the same term and rowid with strictly
increasing positions: monotone in the exact sense of claim C1, yet merged
into a single document block by the code. -/
def demoDelRecs : List WriteRec :=
  [{ term := [116], rowid := 5, col := -1, pos := 0 },
   { term := [116], rowid := 5, col := -1, pos := 1 }]

/-! ### Round-trip lemmas for the codecs -/

theorem varintLen7_pos (w : Nat) : 0 < varintLen7 w := by
  unfold varintLen7
  split_ifs <;> omega

theorem lt_two_pow_varintLen7 (w : Nat) (hw : w < 2 ^ 56) :
    w < 2 ^ (7 * varintLen7 w) := by
  unfold varintLen7
  split_ifs <;> norm_num <;> omega

theorem varintLen7_le (w k : Nat) (hk : 0 < k) (hk9 : k ≤ 9) (hw : w < 2 ^ (7 * k)) :
    varintLen7 w ≤ k := by
  unfold varintLen7
  interval_cases k <;> split_ifs <;> norm_num at hw ⊢ <;> omega

theorem digits7be_length (k w : Nat) : (digits7be k w).length = k := by
  induction k generalizing w with
  | zero => simp [digits7be]
  | succ k ih => simp [digits7be, ih]

theorem getVarintAux_digits (k : Nat) : ∀ (w acc n : Nat) (rest : List Nat),
    n + k ≤ 8 →
    getVarintAux n acc ((digits7be k w).map (fun d => d + 128) ++ rest)
      = getVarintAux (n + k) (acc * 2 ^ (7 * k) + w % 2 ^ (7 * k)) rest := by
  induction k with
  | zero =>
    intro w acc n rest hn
    simp [digits7be, Nat.mod_one]
  | succ k ih =>
    intro w acc n rest hn
    simp only [digits7be, List.map_cons, List.cons_append, getVarintAux, List.append_eq]
    have hn8 : ¬ n = 8 := by omega
    have hge : ¬ ((w / 2 ^ (7 * k)) % 128 + 128 < 128) := by
      have := Nat.mod_lt (w / 2 ^ (7 * k)) (y := 128) (by omega)
      omega
    simp only [hn8, if_false, hge]
    have harith : acc * 128 + ((w / 2 ^ (7 * k)) % 128 + 128 - 128)
        = acc * 128 + (w / 2 ^ (7 * k)) % 128 := by omega
    rw [harith]
    rw [ih w (acc * 128 + (w / 2 ^ (7 * k)) % 128) (n + 1) rest (by omega)]
    have e1 : n + 1 + k = n + (k + 1) := by omega
    have e2 : (acc * 128 + (w / 2 ^ (7 * k)) % 128) * 2 ^ (7 * k) + w % 2 ^ (7 * k)
        = acc * 2 ^ (7 * (k + 1)) + w % 2 ^ (7 * (k + 1)) := by
      rw [show (2 : Nat) ^ (7 * (k + 1)) = 2 ^ (7 * k) * 128 by ring, Nat.mod_mul]
      ring
    rw [e1, e2]

theorem putVarint_length_le (v : Nat) : (sqlite3PutVarint v).length ≤ 9 := by
  unfold sqlite3PutVarint
  split
  · simp
  · split
    · simp only [List.length_append, List.length_map, List.length_cons, List.length_nil,
        digits7be_length]
      have h1 : v / 128 < 2 ^ (7 * 7) := by
        apply Nat.div_lt_of_lt_mul
        calc v < 2 ^ 56 := by omega
          _ = 2 ^ (7 * 7) * 128 := by norm_num
      have := varintLen7_le (v / 128) 7 (by omega) (by omega) h1
      omega
    · simp [digits7be_length]

theorem putVarint_length_pos (v : Nat) : 0 < (sqlite3PutVarint v).length := by
  unfold sqlite3PutVarint
  split
  · simp
  · split <;> simp

/-- Round trip for the generic varint: decoding an encoding followed by any
trailing bytes returns the value and the encoded length. -/
theorem getVarint_put (v : Nat) (rest : List Nat) (hv : v < 2 ^ 64) :
    sqlite3GetVarint (sqlite3PutVarint v ++ rest)
      = (v, (sqlite3PutVarint v).length) := by
  unfold sqlite3GetVarint sqlite3PutVarint
  split
  · rename_i h
    simp [getVarintAux, h]
  · split
    · rename_i h128 h56
      have hlt : v / 128 < 2 ^ (7 * varintLen7 (v / 128)) := by
        apply lt_two_pow_varintLen7
        omega
      have hle : varintLen7 (v / 128) ≤ 7 := by
        apply varintLen7_le _ 7 (by omega) (by omega)
        apply Nat.div_lt_of_lt_mul
        calc v < 2 ^ 56 := by omega
          _ = 2 ^ (7 * 7) * 128 := by norm_num
      rw [List.append_assoc]
      rw [getVarintAux_digits (varintLen7 (v / 128)) (v / 128) 0 0 _ (by omega)]
      rw [Nat.mod_eq_of_lt hlt]
      have hne8 : ¬ (0 + varintLen7 (v / 128) = 8) := by omega
      have hm : v % 128 < 128 := Nat.mod_lt _ (by omega)
      simp only [List.singleton_append, getVarintAux, hne8, if_false, hm, if_true,
        Prod.mk.injEq]
      refine ⟨?_, ?_⟩
      · have := Nat.div_add_mod v 128
        omega
      · simp [digits7be_length]
    · rename_i h128 h56
      have hlt : v / 256 < 2 ^ (7 * 8) := by
        apply Nat.div_lt_of_lt_mul
        calc v < 2 ^ 64 := hv
          _ = 2 ^ (7 * 8) * 256 := by norm_num
      rw [List.append_assoc]
      rw [getVarintAux_digits 8 (v / 256) 0 0 _ (by omega)]
      rw [Nat.mod_eq_of_lt hlt]
      have h9 : getVarintAux (0 + 8) (0 * 2 ^ (7 * 8) + v / 256) ([v % 256] ++ rest)
          = ((0 * 2 ^ (7 * 8) + v / 256) * 256 + v % 256, 9) := by
        simp [getVarintAux]
      rw [h9]
      have hval : (0 * 2 ^ (7 * 8) + v / 256) * 256 + v % 256 = v := by
        simp only [Nat.zero_mul, Nat.zero_add]
        omega
      rw [hval]
      have hlen : (((digits7be 8 (v / 256)).map (fun d => d + 128)) ++ [v % 256]).length = 9 := by
        simp [digits7be_length]
      rw [hlen]

theorem varintLen7_one (w : Nat) (h : w < 128) : varintLen7 w = 1 := by
  unfold varintLen7
  rw [if_pos (by omega)]

theorem varintLen7_two (w : Nat) (h1 : 128 ≤ w) (h2 : w < 2 ^ 14) : varintLen7 w = 2 := by
  unfold varintLen7
  rw [if_neg (by omega), if_pos (by omega)]

theorem varintLen7_three (w : Nat) (h1 : 2 ^ 14 ≤ w) (h2 : w < 2 ^ 21) : varintLen7 w = 3 := by
  unfold varintLen7
  rw [if_neg (by omega), if_neg (by omega), if_pos (by omega)]

theorem putVarint_one (v : Nat) (h : v < 2 ^ 7) : sqlite3PutVarint v = [v] := by
  unfold sqlite3PutVarint
  rw [if_pos (by omega)]

theorem putVarint_two (v : Nat) (h1 : 2 ^ 7 ≤ v) (h2 : v < 2 ^ 14) :
    sqlite3PutVarint v = [(v / 2 ^ 7) % 128 + 128, v % 128] := by
  unfold sqlite3PutVarint
  rw [if_neg (by omega), if_pos (by omega), varintLen7_one _ (by omega)]
  simp only [digits7be, Nat.mul_zero, pow_zero, Nat.div_one, List.map_cons, List.map_nil,
    List.cons_append, List.nil_append]
  norm_num

theorem putVarint_three (v : Nat) (h1 : 2 ^ 14 ≤ v) (h2 : v < 2 ^ 21) :
    sqlite3PutVarint v
      = [(v / 2 ^ 14) % 128 + 128, (v / 2 ^ 7) % 128 + 128, v % 128] := by
  unfold sqlite3PutVarint
  rw [if_neg (by omega), if_pos (by omega), varintLen7_two _ (by omega) (by omega)]
  simp only [digits7be, List.map_cons, List.map_nil, List.cons_append, List.nil_append]
  norm_num [Nat.div_div_eq_div_mul]

theorem putVarint_four (v : Nat) (h1 : 2 ^ 21 ≤ v) (h2 : v < 2 ^ 28) :
    sqlite3PutVarint v
      = [(v / 2 ^ 21) % 128 + 128, (v / 2 ^ 14) % 128 + 128, (v / 2 ^ 7) % 128 + 128,
          v % 128] := by
  unfold sqlite3PutVarint
  rw [if_neg (by omega), if_pos (by omega), varintLen7_three _ (by omega) (by omega)]
  simp only [digits7be, List.map_cons, List.map_nil, List.cons_append, List.nil_append]
  norm_num [Nat.div_div_eq_div_mul]

theorem put4_get4 (v : Nat) (hv : v < 2 ^ 28) :
    fts5Get4ByteVarint (fts5Put4ByteVarint v)
      = (v, if v < 2 ^ 7 then 1 else if v < 2 ^ 14 then 2 else if v < 2 ^ 21 then 3
            else 4) := by
  unfold fts5Get4ByteVarint fts5Put4ByteVarint
  simp only [List.getD_cons_zero, List.getD_cons_succ]
  have e : (128 + v / 2 ^ 21 % 128) % 128 * 2 ^ 21 + (128 + v / 2 ^ 14 % 128) % 128 * 2 ^ 14
      + (128 + v / 2 ^ 7 % 128) % 128 * 2 ^ 7 + v % 128 = v := by
    have h1 : (128 + v / 2 ^ 21 % 128) % 128 = v / 2 ^ 21 % 128 := by omega
    have h2 : (128 + v / 2 ^ 14 % 128) % 128 = v / 2 ^ 14 % 128 := by omega
    have h3 : (128 + v / 2 ^ 7 % 128) % 128 = v / 2 ^ 7 % 128 := by omega
    rw [h1, h2, h3]
    norm_num
    omega
  simp only [e]

theorem putVarint_length_cases (v : Nat) (hv : v < 2 ^ 28) :
    (sqlite3PutVarint v).length
      = (if v < 2 ^ 7 then 1 else if v < 2 ^ 14 then 2 else if v < 2 ^ 21 then 3
          else 4) := by
  by_cases h1 : v < 2 ^ 7
  · rw [putVarint_one v h1]
    simp only [List.length_cons, List.length_nil]
    split_ifs <;> omega
  · by_cases h2 : v < 2 ^ 14
    · rw [putVarint_two v (by omega) h2]
      simp only [List.length_cons, List.length_nil]
      split_ifs <;> omega
    · by_cases h3 : v < 2 ^ 21
      · rw [putVarint_three v (by omega) h3]
        simp only [List.length_cons, List.length_nil]
        split_ifs <;> omega
      · rw [putVarint_four v (by omega) hv]
        simp only [List.length_cons, List.length_nil]
        split_ifs <;> omega

theorem put4_suffix (v : Nat) (hv : v < 2 ^ 28) :
    (fts5Put4ByteVarint v).drop (4 - (sqlite3PutVarint v).length) = sqlite3PutVarint v := by
  by_cases h1 : v < 2 ^ 7
  · rw [putVarint_one v h1]
    simp only [fts5Put4ByteVarint, List.length_cons, List.length_nil]
    norm_num
    omega
  · by_cases h2 : v < 2 ^ 14
    · rw [putVarint_two v (by omega) h2]
      simp only [fts5Put4ByteVarint, List.length_cons, List.length_nil]
      norm_num
      omega
    · by_cases h3 : v < 2 ^ 21
      · rw [putVarint_three v (by omega) h3]
        simp only [fts5Put4ByteVarint, List.length_cons, List.length_nil]
        norm_num
        omega
      · rw [putVarint_four v (by omega) hv]
        simp only [fts5Put4ByteVarint, List.length_cons, List.length_nil]
        norm_num
        omega

end Fts5

namespace Fts5

/-! ### Frame lemmas for the scan operations -/

theorem scanInit_frame (ok : Bool) (h : Fts5Hash) (pTerm : Option (List Nat)) :
    (sqlite3Fts5HashScanInit ok h pTerm).aSlot = h.aSlot
    ∧ (sqlite3Fts5HashScanInit ok h pTerm).pnByte = h.pnByte
    ∧ (sqlite3Fts5HashScanInit ok h pTerm).nSlot = h.nSlot := by
  cases ok
  · exact ⟨rfl, rfl, rfl⟩
  · exact ⟨rfl, rfl, rfl⟩

theorem scanNext_frame (h : Fts5Hash) :
    (sqlite3Fts5HashScanNext h).aSlot = h.aSlot
    ∧ (sqlite3Fts5HashScanNext h).pnByte = h.pnByte
    ∧ (sqlite3Fts5HashScanNext h).nSlot = h.nSlot
    ∧ (sqlite3Fts5HashScanNext h).nEntry = h.nEntry := by
  exact ⟨rfl, rfl, rfl, rfl⟩

theorem query_congr (h1 h2 : Fts5Hash) (ha : h1.aSlot = h2.aSlot)
    (hn : h1.nSlot = h2.nSlot) (t : List Nat) :
    sqlite3Fts5HashQuery h1 t = sqlite3Fts5HashQuery h2 t := by
  unfold sqlite3Fts5HashQuery
  rw [ha, hn]

theorem scanNext_iterate_frame (k : Nat) (h : Fts5Hash) :
    (sqlite3Fts5HashScanNext^[k] h).aSlot = h.aSlot
    ∧ (sqlite3Fts5HashScanNext^[k] h).pnByte = h.pnByte
    ∧ (sqlite3Fts5HashScanNext^[k] h).nSlot = h.nSlot
    ∧ (sqlite3Fts5HashScanNext^[k] h).nEntry = h.nEntry := by
  induction k generalizing h with
  | zero => exact ⟨rfl, rfl, rfl, rfl⟩
  | succ k ih =>
    rw [Function.iterate_succ_apply]
    exact ih (sqlite3Fts5HashScanNext h)

end Fts5

namespace Fts5

/-! ### Claim theorems: codec (C10) -/

/-- C10: for every value v below 2 pow 28, the fixed-width 4-byte encoding
round-trips through fts5Get4ByteVarint back to v; the natural length the
decoder reports follows the 1/2/3/4 magnitude thresholds and equals the
length of the generic varint encoding of v; and the last n bytes of the
4-byte form are byte-for-byte the generic varint encoding of v. -/
theorem claim_C10 (v : Nat) (hv : v < 2 ^ 28) :
    fts5Get4ByteVarint (fts5Put4ByteVarint v) = (v, (sqlite3PutVarint v).length)
    ∧ (fts5Get4ByteVarint (fts5Put4ByteVarint v)).2
        = (if v < 2 ^ 7 then 1 else if v < 2 ^ 14 then 2 else if v < 2 ^ 21 then 3
            else 4)
    ∧ (fts5Put4ByteVarint v).drop (4 - (fts5Get4ByteVarint (fts5Put4ByteVarint v)).2)
        = sqlite3PutVarint v := by
  have h1 := put4_get4 v hv
  have h2 := putVarint_length_cases v hv
  have h3 := put4_suffix v hv
  refine ⟨?_, ?_, ?_⟩
  · rw [h1, h2]
  · rw [h1]
  · rw [h1]
    show (fts5Put4ByteVarint v).drop
        (4 - (if v < 2 ^ 7 then 1 else if v < 2 ^ 14 then 2 else if v < 2 ^ 21 then 3
            else 4)) = sqlite3PutVarint v
    rw [← h2]
    exact h3

/-- Witness for C10 at v = 300. -/
theorem claim_C10_witness :
    (300 : Nat) < 2 ^ 28
    ∧ (fts5Get4ByteVarint (fts5Put4ByteVarint 300) = (300, (sqlite3PutVarint 300).length)
      ∧ (fts5Get4ByteVarint (fts5Put4ByteVarint 300)).2
          = (if (300 : Nat) < 2 ^ 7 then 1 else if (300 : Nat) < 2 ^ 14 then 2
              else if (300 : Nat) < 2 ^ 21 then 3 else 4)
      ∧ (fts5Put4ByteVarint 300).drop (4 - (fts5Get4ByteVarint (fts5Put4ByteVarint 300)).2)
          = sqlite3PutVarint 300) :=
  ⟨by norm_num, claim_C10 300 (by norm_num)⟩

/-! ### Claim theorems: error and frame behaviour of the scan (C7, C8) -/

/-- C7: evaluation of the code at the failing input.  demoH1 holds one
entry; when the merge-slot allocation inside scan-init fails, the caller
is handed no error code (the function returns void): the cursor is simply
left empty, so scan-eof is immediately true even though the table is not
empty, and the slot array is untouched.  Under a successful allocation the
same scan is non-empty.  The SQLITE_NOMEM produced by fts5HashEntrySort is
discarded by sqlite3Fts5HashScanInit, contradicting the claim that it is
propagated. -/
theorem claim_C7_code_bug :
    sqlite3Fts5HashScanEof (sqlite3Fts5HashScanInit false demoH1 none) = true
    ∧ sqlite3Fts5HashScanEof (sqlite3Fts5HashScanInit true demoH1 none) = false
    ∧ (sqlite3Fts5HashScanInit false demoH1 none).aSlot = demoH1.aSlot
    ∧ demoH1.nEntry = 1 := by decide

/-- Counterexample for C8 as stated: a successful scan-init does change
the entry count; fts5HashEntrySort zeroes nEntry even in cursor mode, so
after scan-init on a one-entry table the count reads 0, not 1. -/
theorem claim_C8_cex :
    demoH1.nEntry = 1 ∧ (sqlite3Fts5HashScanInit true demoH1 none).nEntry = 0 := by
  decide

/-- C8 as amended: a cursor-mode scan (scan-init followed by any number of
scan-next steps, with scan-entry a pure observation) frees no entry and
leaves the slot array, byte counter and slot count unchanged, so every
entry remains reachable in its hash-slot chain and point-query returns the
same result as before the scan; the one exception is the entry count,
which scan-init resets to zero. -/
theorem claim_C8_amended (h : Fts5Hash) (pTerm : Option (List Nat)) (k : Nat) :
    ((sqlite3Fts5HashScanNext^[k]) (sqlite3Fts5HashScanInit true h pTerm)).aSlot = h.aSlot
    ∧ ((sqlite3Fts5HashScanNext^[k]) (sqlite3Fts5HashScanInit true h pTerm)).pnByte
        = h.pnByte
    ∧ ((sqlite3Fts5HashScanNext^[k]) (sqlite3Fts5HashScanInit true h pTerm)).nSlot
        = h.nSlot
    ∧ ((sqlite3Fts5HashScanNext^[k]) (sqlite3Fts5HashScanInit true h pTerm)).nEntry = 0
    ∧ ∀ t, sqlite3Fts5HashQuery ((sqlite3Fts5HashScanNext^[k])
          (sqlite3Fts5HashScanInit true h pTerm)) t = sqlite3Fts5HashQuery h t := by
  obtain ⟨ha, hb, hc⟩ := scanInit_frame true h pTerm
  obtain ⟨ia, ib, ic, id⟩ := scanNext_iterate_frame k (sqlite3Fts5HashScanInit true h pTerm)
  have hEntry : (sqlite3Fts5HashScanInit true h pTerm).nEntry = 0 := rfl
  refine ⟨ia.trans ha, ib.trans hb, ic.trans hc, id.trans hEntry, fun t => ?_⟩
  exact query_congr _ _ (ia.trans ha) (ic.trans hc) t

/-! ### Counterexamples for the layout claims (C3, C4) and round trip (C1) -/

/-- Counterexample for C3 as stated: the doclist handed out by point-query
for the single write (rowid 5, col 0, pos 3) follows the layout
rowid-delta, 4-byte size, poslist (the encDocs form), and differs from the
layout the claim describes (rowid-delta, poslist, then the size field). -/
theorem claim_C3_cex :
    sqlite3Fts5HashQuery demoH1 [97] = some (encDocs none [(5, [(0, 3)])])
    ∧ encDocs none [(5, [(0, 3)])] = [5, 128, 128, 128, 1, 5]
    ∧ encDocsSpecC3 none [(5, [(0, 3)])] = [5, 5, 128, 128, 128, 1]
    ∧ sqlite3Fts5HashQuery demoH1 [97] ≠ some (encDocsSpecC3 none [(5, [(0, 3)])]) := by
  decide

/-- Counterexample for C4 as stated: for the single write (rowid 1, col 0,
pos 0) the byte range passed to xEntry is the 1-byte natural varint of the
poslist size followed by the poslist, 2 bytes in all, not the 4-byte
fixed-width form the claim requires. -/
theorem claim_C4_cex :
    (sqlite3Fts5HashIterate true demoH2).2.1
      = [IterEvent.termKey [97], IterEvent.doc 1 [1, 2], IterEvent.termDone]
    ∧ ([1, 2] : List Nat) ≠ fts5Put4ByteVarint 1 ++ [2] := by decide

/-- Counterexample for C1 as stated: two deletion-marker writes on the
same term and rowid with strictly increasing positions satisfy the
monotonicity invariants exactly as the claim states them, yet the code
merges them into one empty-poslist document block, while the claim's
decode relation expects one block per negative-column write. -/
theorem claim_C1_cex :
    specMonotone demoDelRecs = true
    ∧ decodeDoclist
        ((sqlite3Fts5HashQuery (runWrites (fts5HashNewN 4) demoDelRecs) [116]).getD [])
        = some [(5, [])]
    ∧ docsOfSpec demoDelRecs = [(5, []), (5, [])]
    ∧ decodeDoclist
        ((sqlite3Fts5HashQuery (runWrites (fts5HashNewN 4) demoDelRecs) [116]).getD [])
        ≠ some (docsOfSpec demoDelRecs) := by decide

end Fts5

namespace Fts5

/-! ### Structural lemmas about the slot array -/

theorem fts5HashKey_lt (nSlot : Nat) (hn : 0 < nSlot) (p : List Nat) :
    fts5HashKey nSlot p < nSlot := by
  unfold fts5HashKey
  exact Nat.mod_lt _ hn

theorem slotInsert_length (slots : List (List Fts5HashEntry)) (n : Nat)
    (e : Fts5HashEntry) : (slotInsert slots n e).length = slots.length := by
  unfold slotInsert
  exact List.length_set slots _ _

theorem foldl_slotInsert_length (n : Nat) (es : List Fts5HashEntry) :
    ∀ acc : List (List Fts5HashEntry),
    (es.foldl (fun a e => slotInsert a n e) acc).length = acc.length := by
  induction es with
  | nil => intro acc; rfl
  | cons e es ih =>
    intro acc
    rw [List.foldl_cons, ih (slotInsert acc n e), slotInsert_length]

theorem flatten_set_cons_perm (e : Fts5HashEntry) :
    ∀ (slots : List (List Fts5HashEntry)) (i : Nat), i < slots.length →
    ((slots.set i (e :: slots.getD i [])).flatten).Perm (e :: slots.flatten) := by
  intro slots
  induction slots with
  | nil => intro i hi; simp at hi
  | cons c rest ih =>
    intro i hi
    cases i with
    | zero => simp
    | succ i =>
      have hi2 : i < rest.length := by simpa using hi
      show (c ++ (rest.set i (e :: rest.getD i [])).flatten).Perm
          (e :: (c ++ rest.flatten))
      exact ((ih i hi2).append_left c).trans List.perm_middle

theorem slotInsert_flatten_perm (slots : List (List Fts5HashEntry)) (n : Nat)
    (hn : 0 < n) (hlen : slots.length = n) (e : Fts5HashEntry) :
    ((slotInsert slots n e).flatten).Perm (e :: slots.flatten) := by
  unfold slotInsert
  exact flatten_set_cons_perm e slots _ (by rw [hlen]; exact fts5HashKey_lt n hn _)

theorem rehash_perm (n : Nat) (hn : 0 < n) (es : List Fts5HashEntry) :
    ∀ acc : List (List Fts5HashEntry), acc.length = n →
    ((es.foldl (fun a e => slotInsert a n e) acc).flatten).Perm (es ++ acc.flatten) := by
  induction es with
  | nil => intro acc hacc; simp
  | cons e es ih =>
    intro acc hacc
    rw [List.foldl_cons]
    have h1 := ih (slotInsert acc n e) (by rw [slotInsert_length]; exact hacc)
    have h2 := (slotInsert_flatten_perm acc n hn hacc e).append_left es
    have h3 : (es ++ (e :: acc.flatten)).Perm (e :: (es ++ acc.flatten)) :=
      List.perm_middle
    exact h1.trans (h2.trans h3)

theorem resize_frame (ok : Bool) (h : Fts5Hash) (hn : 0 < h.nSlot)
    (hlen : h.aSlot.length = h.nSlot) :
    (fts5HashResize ok h).2.pnByte = h.pnByte
    ∧ (fts5HashResize ok h).2.nEntry = h.nEntry
    ∧ (fts5HashResize ok h).2.pScan = h.pScan
    ∧ ((fts5HashResize ok h).2.aSlot.flatten).Perm h.aSlot.flatten
    ∧ (fts5HashResize ok h).2.aSlot.length = (fts5HashResize ok h).2.nSlot
    ∧ 0 < (fts5HashResize ok h).2.nSlot := by
  cases ok with
  | false => exact ⟨rfl, rfl, rfl, List.Perm.refl _, hlen, hn⟩
  | true =>
    refine ⟨rfl, rfl, rfl, ?_, ?_, ?_⟩
    · have := rehash_perm (2 * h.nSlot) (by omega) h.aSlot.flatten
        (List.replicate (2 * h.nSlot) []) (by simp)
      simpa using this
    · show (h.aSlot.flatten.foldl (fun a e => slotInsert a (2 * h.nSlot) e)
          (List.replicate (2 * h.nSlot) [])).length = 2 * h.nSlot
      rw [foldl_slotInsert_length]
      simp
    · show 0 < 2 * h.nSlot
      omega

end Fts5

namespace Fts5

/-! ### OOM atomicity of write (C6) -/

theorem newEntry_entryData_length (tok : List Nat) (iRowid : Int) :
    (newEntry tok iRowid).entryData.length
      = (sqlite3PutVarint (toU64 iRowid)).length + 4 := by
  unfold newEntry
  simp

theorem newEntry_has_space (tok : List Nat) (iRowid : Int) :
    ¬ ((newEntry tok iRowid).nAlloc - nData (newEntry tok iRowid) < 22) := by
  have hv := putVarint_length_le (toU64 iRowid)
  have hd := newEntry_entryData_length tok iRowid
  have hkey : (newEntry tok iRowid).zKey = tok := rfl
  have hall : (newEntry tok iRowid).nAlloc = max 128 (hdrSz + tok.length + 1 + 64) := rfl
  unfold nData
  rw [hd, hkey, hall]
  unfold hdrSz
  omega

theorem writeTail_nomem (h : Fts5Hash) (iHash : Nat) (tok : List Nat)
    (p : Fts5HashEntry) (iRowid iCol iPos : Int) (growOk : Bool) (nIncr0 : Int)
    (hErr : (fts5WriteTail h iHash tok p iRowid iCol iPos growOk nIncr0).1 = Rc.NOMEM) :
    (fts5WriteTail h iHash tok p iRowid iCol iPos growOk nIncr0).2 = h
    ∧ growOk = false ∧ p.nAlloc - nData p < 22 := by
  unfold fts5WriteTail at hErr ⊢
  by_cases hCap : p.nAlloc - nData p < 22
  · cases growOk with
    | false => simp [hCap]
    | true => simp [hCap] at hErr
  · simp [hCap] at hErr

theorem write_nomem_frame (o : MemOracle) (h : Fts5Hash) (iRowid iCol iPos : Int)
    (tok : List Nat) (hn : 0 < h.nSlot) (hlen : h.aSlot.length = h.nSlot)
    (hErr : (sqlite3Fts5HashWrite o h iRowid iCol iPos tok).1 = Rc.NOMEM) :
    (sqlite3Fts5HashWrite o h iRowid iCol iPos tok).2.pnByte = h.pnByte
    ∧ (sqlite3Fts5HashWrite o h iRowid iCol iPos tok).2.nEntry = h.nEntry
    ∧ (sqlite3Fts5HashWrite o h iRowid iCol iPos tok).2.pScan = h.pScan
    ∧ ((sqlite3Fts5HashWrite o h iRowid iCol iPos tok).2.aSlot.flatten).Perm
        h.aSlot.flatten := by
  unfold sqlite3Fts5HashWrite at hErr ⊢
  cases hFind : chainFind (h.aSlot.getD (fts5HashKey h.nSlot tok) []) tok with
  | some p =>
    simp only [hFind] at hErr ⊢
    have hw := writeTail_nomem h _ tok p iRowid iCol iPos o.growOk 0 hErr
    rw [hw.1]
    exact ⟨rfl, rfl, rfl, List.Perm.refl _⟩
  | none =>
    simp only [hFind] at hErr ⊢
    have hfr : (if 2 * h.nEntry ≥ h.nSlot then fts5HashResize o.resizeOk h
          else (Rc.OK, h)).2.pnByte = h.pnByte
        ∧ (if 2 * h.nEntry ≥ h.nSlot then fts5HashResize o.resizeOk h
            else (Rc.OK, h)).2.nEntry = h.nEntry
        ∧ (if 2 * h.nEntry ≥ h.nSlot then fts5HashResize o.resizeOk h
            else (Rc.OK, h)).2.pScan = h.pScan
        ∧ ((if 2 * h.nEntry ≥ h.nSlot then fts5HashResize o.resizeOk h
            else (Rc.OK, h)).2.aSlot.flatten).Perm h.aSlot.flatten := by
      split
      · obtain ⟨f1, f2, f3, f4, _, _⟩ := resize_frame o.resizeOk h hn hlen
        exact ⟨f1, f2, f3, f4⟩
      · exact ⟨rfl, rfl, rfl, List.Perm.refl _⟩
    by_cases hnm : (if 2 * h.nEntry ≥ h.nSlot then fts5HashResize o.resizeOk h
        else (Rc.OK, h)).1 = Rc.NOMEM
    · rw [if_pos hnm]
      exact hfr
    · rw [if_neg hnm] at hErr ⊢
      cases hEok : o.entryOk with
      | false =>
        simp only [hEok, if_false] at hErr ⊢
        exact hfr
      | true =>
        simp only [hEok, if_true] at hErr ⊢
        exfalso
        have hw := writeTail_nomem _ _ tok (newEntry tok iRowid) iRowid iCol iPos
          o.growOk ((nData (newEntry tok iRowid) : Int)) hErr
        exact newEntry_has_space tok iRowid hw.2.2

end Fts5

namespace Fts5

/-! ### Characterisation of a successful write -/

theorem keyMatch_self (tok : List Nat) : keyMatch tok tok = true := by
  unfold keyMatch
  have h1 : (tok ++ [0]).take tok.length = tok := List.take_left tok [0]
  have h2 : (tok ++ [0]).getD tok.length 0 = 0 := by
    unfold List.getD
    rw [List.get?_append_right (Nat.le_refl _)]
    simp
  rw [h1, h2]
  simp

theorem sumNData_cons (e : Fts5HashEntry) (l : List Fts5HashEntry) :
    sumNData (e :: l) = (nData e : Int) + sumNData l := by
  simp [sumNData]

theorem sumNData_append (l1 l2 : List Fts5HashEntry) :
    sumNData (l1 ++ l2) = sumNData l1 + sumNData l2 := by
  simp [sumNData]

theorem sumNData_perm (l1 l2 : List Fts5HashEntry) (hp : l1.Perm l2) :
    sumNData l1 = sumNData l2 := by
  unfold sumNData
  exact (hp.map _).sum_eq

theorem chainSetFirst_sum (tok : List Nat) (e2 : Fts5HashEntry) :
    ∀ (chain : List Fts5HashEntry) (p : Fts5HashEntry),
    chainFind chain tok = some p →
    sumNData (chainSetFirst tok e2 chain)
      = sumNData chain - (nData p : Int) + (nData e2 : Int) := by
  intro chain
  induction chain with
  | nil => intro p hp; simp [chainFind] at hp
  | cons c rest ih =>
    intro p hp
    unfold chainFind at hp
    rw [List.find?_cons] at hp
    by_cases hc : keyMatch c.zKey tok
    · rw [hc] at hp
      simp at hp
      unfold chainSetFirst
      rw [if_pos hc, sumNData_cons, sumNData_cons, ← hp]
      ring
    · rw [Bool.not_eq_true] at hc
      rw [hc] at hp
      unfold chainSetFirst
      rw [if_neg (by simp [hc]), sumNData_cons, sumNData_cons,
        ih p (by unfold chainFind; exact hp)]
      ring

theorem flatten_sum_set :
    ∀ (slots : List (List Fts5HashEntry)) (i : Nat), i < slots.length →
    ∀ c' : List Fts5HashEntry,
    sumNData ((slots.set i c').flatten)
      = sumNData slots.flatten - sumNData (slots.getD i []) + sumNData c' := by
  intro slots
  induction slots with
  | nil => intro i hi; simp at hi
  | cons c rest ih =>
    intro i hi c'
    cases i with
    | zero =>
      show sumNData (c' ++ rest.flatten)
        = sumNData (c ++ rest.flatten) - sumNData c + sumNData c'
      rw [sumNData_append, sumNData_append]
      ring
    | succ i =>
      show sumNData (c ++ (rest.set i c').flatten)
        = sumNData (c ++ rest.flatten) - sumNData (rest.getD i []) + sumNData c'
      rw [sumNData_append, sumNData_append, ih i (by simpa using hi) c']
      ring

theorem writeTail_true_eq (h : Fts5Hash) (iHash : Nat) (tok : List Nat)
    (p : Fts5HashEntry) (iRowid iCol iPos : Int) (nIncr0 : Int) :
    fts5WriteTail h iHash tok p iRowid iCol iPos true nIncr0
      = (Rc.OK, { h with
          aSlot := h.aSlot.set iHash (chainSetFirst tok (termStep p iRowid iCol iPos)
            (h.aSlot.getD iHash [])),
          pnByte := h.pnByte + (nIncr0 - (nData p : Int)
            + (nData (termStep p iRowid iCol iPos) : Int)) }) := by
  unfold fts5WriteTail termStep
  by_cases hCap : p.nAlloc - nData p < 22
  · rw [if_pos hCap, if_pos hCap]
    exact rfl
  · rw [if_neg hCap, if_neg hCap]

theorem write_allOk_found (h : Fts5Hash) (r : WriteRec) (p : Fts5HashEntry)
    (hFind : hashLookup h r.term = some p) :
    writeStep h r = { h with
      aSlot := h.aSlot.set (fts5HashKey h.nSlot r.term)
        (chainSetFirst r.term (termStep p r.rowid r.col r.pos)
          (h.aSlot.getD (fts5HashKey h.nSlot r.term) [])),
      pnByte := h.pnByte + ((nData (termStep p r.rowid r.col r.pos) : Int)
        - (nData p : Int)) } := by
  unfold writeStep sqlite3Fts5HashWrite
  unfold hashLookup at hFind
  simp only [hFind]
  rw [show allOk.growOk = true from rfl, writeTail_true_eq]
  congr 1
  ring

end Fts5

namespace Fts5

theorem getD_set_self (l : List (List Fts5HashEntry)) (i : Nat) (hi : i < l.length)
    (a : List Fts5HashEntry) : (l.set i a).getD i [] = a := by
  unfold List.getD
  rw [List.get?_eq_getElem?, List.getElem?_set_eq_of_lt a hi]
  rfl

theorem chainSetFirst_head_match (tok : List Nat) (e2 p : Fts5HashEntry)
    (chain : List Fts5HashEntry) (hm : keyMatch p.zKey tok = true) :
    chainSetFirst tok e2 (p :: chain) = e2 :: chain := by
  unfold chainSetFirst
  rw [if_pos hm]

theorem write_allOk_new (h : Fts5Hash) (r : WriteRec) (hn : 0 < h.nSlot)
    (hlen : h.aSlot.length = h.nSlot) (hFind : hashLookup h r.term = none) :
    ∃ h1 : Fts5Hash,
      (h1.aSlot.flatten.Perm h.aSlot.flatten ∧ h1.pnByte = h.pnByte
        ∧ h1.nEntry = h.nEntry ∧ h1.pScan = h.pScan ∧ 0 < h1.nSlot
        ∧ h1.aSlot.length = h1.nSlot)
      ∧ writeStep h r = { h1 with
          aSlot := h1.aSlot.set (fts5HashKey h1.nSlot r.term)
            (termStep (newEntry r.term r.rowid) r.rowid r.col r.pos
              :: h1.aSlot.getD (fts5HashKey h1.nSlot r.term) []),
          nEntry := h1.nEntry + 1,
          pnByte := h1.pnByte
            + (nData (termStep (newEntry r.term r.rowid) r.rowid r.col r.pos) : Int) } := by
  unfold writeStep sqlite3Fts5HashWrite
  unfold hashLookup at hFind
  simp only [hFind]
  have hfr : ((if 2 * h.nEntry ≥ h.nSlot then fts5HashResize allOk.resizeOk h
        else (Rc.OK, h)).2.aSlot.flatten.Perm h.aSlot.flatten
      ∧ (if 2 * h.nEntry ≥ h.nSlot then fts5HashResize allOk.resizeOk h
          else (Rc.OK, h)).2.pnByte = h.pnByte
      ∧ (if 2 * h.nEntry ≥ h.nSlot then fts5HashResize allOk.resizeOk h
          else (Rc.OK, h)).2.nEntry = h.nEntry
      ∧ (if 2 * h.nEntry ≥ h.nSlot then fts5HashResize allOk.resizeOk h
          else (Rc.OK, h)).2.pScan = h.pScan
      ∧ 0 < (if 2 * h.nEntry ≥ h.nSlot then fts5HashResize allOk.resizeOk h
          else (Rc.OK, h)).2.nSlot
      ∧ (if 2 * h.nEntry ≥ h.nSlot then fts5HashResize allOk.resizeOk h
          else (Rc.OK, h)).2.aSlot.length
        = (if 2 * h.nEntry ≥ h.nSlot then fts5HashResize allOk.resizeOk h
          else (Rc.OK, h)).2.nSlot) := by
    split
    · obtain ⟨f1, f2, f3, f4, f5, f6⟩ := resize_frame _ h hn hlen
      exact ⟨f4, f1, f2, f3, f6, f5⟩
    · exact ⟨List.Perm.refl _, rfl, rfl, rfl, hn, hlen⟩
  have hrc : (if 2 * h.nEntry ≥ h.nSlot then fts5HashResize allOk.resizeOk h
      else (Rc.OK, h)).1 = Rc.OK := by
    split
    · rfl
    · rfl
  refine ⟨(if 2 * h.nEntry ≥ h.nSlot then fts5HashResize allOk.resizeOk h
      else (Rc.OK, h)).2, hfr, ?_⟩
  set h1 := (if 2 * h.nEntry ≥ h.nSlot then fts5HashResize allOk.resizeOk h
      else (Rc.OK, h)).2 with hh1
  rw [if_neg (by rw [hrc]; intro hcon; cases hcon)]
  rw [show allOk.entryOk = true from rfl, if_pos rfl]
  rw [show allOk.growOk = true from rfl]
  rw [writeTail_true_eq]
  have hkeylt : fts5HashKey h1.nSlot r.term < h1.aSlot.length := by
    rw [hfr.2.2.2.2.2]
    exact fts5HashKey_lt _ hfr.2.2.2.2.1 _
  have hgd : ((h1.aSlot.set (fts5HashKey h1.nSlot r.term)
      (newEntry r.term r.rowid :: h1.aSlot.getD (fts5HashKey h1.nSlot r.term) [])).getD
        (fts5HashKey h1.nSlot r.term) [])
      = newEntry r.term r.rowid :: h1.aSlot.getD (fts5HashKey h1.nSlot r.term) [] :=
    getD_set_self _ _ hkeylt _
  simp only
  rw [hgd]
  rw [chainSetFirst_head_match r.term _ _ _ (by
    show keyMatch (newEntry r.term r.rowid).zKey r.term = true
    exact keyMatch_self r.term)]
  rw [List.set_set]
  congr 1
  ring

end Fts5

namespace Fts5

/-! ### Byte accounting (C5) -/

theorem writeStep_byteInv (h : Fts5Hash) (r : WriteRec) (hn : 0 < h.nSlot)
    (hlen : h.aSlot.length = h.nSlot)
    (hb : h.pnByte = sumNData h.aSlot.flatten) :
    0 < (writeStep h r).nSlot
    ∧ (writeStep h r).aSlot.length = (writeStep h r).nSlot
    ∧ (writeStep h r).pnByte = sumNData (writeStep h r).aSlot.flatten := by
  cases hFind : hashLookup h r.term with
  | some p =>
    rw [write_allOk_found h r p hFind]
    have hkeylt : fts5HashKey h.nSlot r.term < h.aSlot.length := by
      rw [hlen]
      exact fts5HashKey_lt _ hn _
    refine ⟨hn, ?_, ?_⟩
    · simp [hlen]
    · show h.pnByte + _ = sumNData ((h.aSlot.set (fts5HashKey h.nSlot r.term) _).flatten)
      rw [flatten_sum_set h.aSlot _ hkeylt,
        chainSetFirst_sum r.term _ _ p (by unfold hashLookup at hFind; exact hFind), hb]
      ring
  | none =>
    obtain ⟨h1, ⟨hperm, hpb, hne, hps, hn1, hlen1⟩, heq⟩ :=
      write_allOk_new h r hn hlen hFind
    rw [heq]
    have hkeylt : fts5HashKey h1.nSlot r.term < h1.aSlot.length := by
      rw [hlen1]
      exact fts5HashKey_lt _ hn1 _
    refine ⟨hn1, ?_, ?_⟩
    · simp [hlen1]
    · show h1.pnByte + _ = sumNData ((h1.aSlot.set (fts5HashKey h1.nSlot r.term) _).flatten)
      rw [flatten_sum_set h1.aSlot _ hkeylt, sumNData_cons, hpb, hb,
        sumNData_perm _ _ hperm]
      ring

theorem runWrites_byteInv (S : List WriteRec) : ∀ h : Fts5Hash,
    0 < h.nSlot → h.aSlot.length = h.nSlot → h.pnByte = sumNData h.aSlot.flatten →
    0 < (runWrites h S).nSlot
    ∧ (runWrites h S).aSlot.length = (runWrites h S).nSlot
    ∧ (runWrites h S).pnByte = sumNData (runWrites h S).aSlot.flatten := by
  induction S with
  | nil => intro h a b c; exact ⟨a, b, c⟩
  | cons r S ih =>
    intro h a b c
    obtain ⟨x, y, z⟩ := writeStep_byteInv h r a b c
    exact ih (writeStep h r) x y z

end Fts5

namespace Fts5

/-! ### Claim theorems C5 and C6 -/

/-- C5: after any sequence of successful writes on a freshly created
accumulator (every allocation succeeding, no intervening clear, iterate or
scan), the externally-registered byte counter, initially zero, equals the
sum over all live entries of the entry's length field nData. -/
theorem claim_C5 (n : Nat) (hn : 0 < n) (S : List WriteRec) :
    (runWrites (fts5HashNewN n) S).pnByte
      = sumNData (runWrites (fts5HashNewN n) S).aSlot.flatten :=
  (runWrites_byteInv S (fts5HashNewN n) hn (by simp [fts5HashNewN])
    (by simp [fts5HashNewN, sumNData])).2.2

/-- Witness for C5: the spec's two-docs-one-term scenario on a 4-slot
table. -/
theorem claim_C5_witness :
    0 < 4
    ∧ (runWrites (fts5HashNewN 4)
        [{ term := [99, 97, 116], rowid := 1, col := 0, pos := 0 },
         { term := [99, 97, 116], rowid := 1, col := 0, pos := 4 },
         { term := [99, 97, 116], rowid := 3, col := 0, pos := 2 }]).pnByte
      = sumNData (runWrites (fts5HashNewN 4)
        [{ term := [99, 97, 116], rowid := 1, col := 0, pos := 0 },
         { term := [99, 97, 116], rowid := 1, col := 0, pos := 4 },
         { term := [99, 97, 116], rowid := 3, col := 0, pos := 2 }]).aSlot.flatten :=
  ⟨by decide, claim_C5 4 (by decide) _⟩

/-- C6: a write call that returns SQLITE_NOMEM (from slot-array resize,
new-entry allocation or payload reallocation) has no externally visible
effect: the byte counter, the entry count, the scan cursor and the
multiset of entries (hence every pre-existing entry's key, payload bytes
and cursor fields) are unchanged, so the requested write did not happen.
The stated exception for a newly created entry whose payload could not be
grown is vacuous: a fresh entry always has at least 51 free tail bytes, so
its first grow cannot occur within the creating call. -/
theorem claim_C6 (o : MemOracle) (h : Fts5Hash) (iRowid iCol iPos : Int)
    (tok : List Nat) (hn : 0 < h.nSlot) (hlen : h.aSlot.length = h.nSlot)
    (hErr : (sqlite3Fts5HashWrite o h iRowid iCol iPos tok).1 = Rc.NOMEM) :
    (sqlite3Fts5HashWrite o h iRowid iCol iPos tok).2.pnByte = h.pnByte
    ∧ (sqlite3Fts5HashWrite o h iRowid iCol iPos tok).2.nEntry = h.nEntry
    ∧ (sqlite3Fts5HashWrite o h iRowid iCol iPos tok).2.pScan = h.pScan
    ∧ ((sqlite3Fts5HashWrite o h iRowid iCol iPos tok).2.aSlot.flatten).Perm
        h.aSlot.flatten :=
  write_nomem_frame o h iRowid iCol iPos tok hn hlen hErr

/-- Witness for C6: a fresh 4-slot table, new-entry allocation failing. -/
theorem claim_C6_witness :
    (0 < (fts5HashNewN 4).nSlot
      ∧ (fts5HashNewN 4).aSlot.length = (fts5HashNewN 4).nSlot
      ∧ (sqlite3Fts5HashWrite ⟨true, false, true⟩ (fts5HashNewN 4) 1 0 0 [97]).1
          = Rc.NOMEM)
    ∧ ((sqlite3Fts5HashWrite ⟨true, false, true⟩ (fts5HashNewN 4) 1 0 0 [97]).2.pnByte
        = (fts5HashNewN 4).pnByte
      ∧ (sqlite3Fts5HashWrite ⟨true, false, true⟩ (fts5HashNewN 4) 1 0 0 [97]).2.nEntry
          = (fts5HashNewN 4).nEntry
      ∧ (sqlite3Fts5HashWrite ⟨true, false, true⟩ (fts5HashNewN 4) 1 0 0 [97]).2.pScan
          = (fts5HashNewN 4).pScan
      ∧ ((sqlite3Fts5HashWrite ⟨true, false, true⟩
            (fts5HashNewN 4) 1 0 0 [97]).2.aSlot.flatten).Perm
          (fts5HashNewN 4).aSlot.flatten) :=
  ⟨⟨by decide, by decide, by decide⟩,
    claim_C6 ⟨true, false, true⟩ (fts5HashNewN 4) 1 0 0 [97] (by decide) (by decide)
      (by decide)⟩

end Fts5

namespace Fts5

/-! ### Encoding characterisation of the per-term entry (towards C1/C3) -/

theorem plCursor_snoc (pl : PosList) : ∀ (C P c p : Int),
    plCursor C P (pl ++ [(c, p)]) = (c, p) := by
  induction pl with
  | nil => intro C P c p; rfl
  | cons x rest ih =>
    intro C P c p
    obtain ⟨cx, px⟩ := x
    exact ih cx px c p

theorem encPoslist_snoc (pl : PosList) : ∀ (C P c p : Int),
    encPoslist C P (pl ++ [(c, p)])
      = encPoslist C P pl
        ++ (if c = (plCursor C P pl).1
            then sqlite3PutVarint (toU64 (p - (plCursor C P pl).2 + 2))
            else [1] ++ sqlite3PutVarint (toU64 c) ++ sqlite3PutVarint (toU64 (p + 2))) := by
  induction pl with
  | nil =>
    intro C P c p
    show encPoslist C P [(c, p)] = _
    simp only [encPoslist, plCursor]
    split
    · simp
    · simp
  | cons x rest ih =>
    intro C P c p
    obtain ⟨cx, px⟩ := x
    show encPoslist C P ((cx, px) :: (rest ++ [(c, p)])) = _
    simp only [encPoslist, plCursor]
    split
    · rw [ih cx px c p]
      simp [List.append_assoc]
    · rw [ih cx px c p]
      simp [List.append_assoc]

theorem encDocs_snoc_gen (closed : List Doc) : ∀ (prev : Option Int) (R : Int)
    (pl : PosList),
    encDocs prev (closed ++ [(R, pl)])
      = encDocs prev closed
        ++ sqlite3PutVarint (encBlockDelta
            (match closed.getLast? with
              | none => prev
              | some d => some d.1) R)
        ++ fts5Put4ByteVarint (encPoslist 0 0 pl).length
        ++ encPoslist 0 0 pl := by
  induction closed with
  | nil =>
    intro prev R pl
    show encDocs prev [(R, pl)] = _
    simp [encDocs]
  | cons x rest ih =>
    intro prev R pl
    obtain ⟨Rx, plx⟩ := x
    show encDocs prev ((Rx, plx) :: (rest ++ [(R, pl)])) = _
    simp only [encDocs]
    rw [ih (some Rx) R pl]
    cases rest with
    | nil => simp [List.append_assoc]
    | cons y ys =>
      obtain ⟨d, hd⟩ : ∃ d, (y :: ys).getLast? = some d := by
        cases hgl : (y :: ys).getLast? with
        | none => simp at hgl
        | some d => exact ⟨d, rfl⟩
      rw [List.getLast?_cons_cons, hd]
      simp [List.append_assoc]

theorem openDelta_eq (closed : List Doc) (R : Int) :
    openDelta closed R
      = encBlockDelta
          (match closed.getLast? with
            | none => none
            | some d => some d.1) R := by
  unfold openDelta
  cases closed.getLast? with
  | none => rfl
  | some d => rfl

theorem encDocs_snoc (closed : List Doc) (R : Int) (pl : PosList) :
    encDocs none (closed ++ [(R, pl)])
      = encDocs none closed ++ sqlite3PutVarint (openDelta closed R)
        ++ fts5Put4ByteVarint (encPoslist 0 0 pl).length ++ encPoslist 0 0 pl := by
  rw [encDocs_snoc_gen, openDelta_eq]

theorem openDelta_snoc (closed : List Doc) (R : Int) (pl : PosList) (R2 : Int) :
    openDelta (closed ++ [(R, pl)]) R2 = toU64 (R2 - R) := by
  unfold openDelta
  rw [List.getLast?_concat]

theorem writeBytesAt_exact (pre mid post bs : List Nat) (hlen : bs.length = mid.length) :
    writeBytesAt (pre ++ mid ++ post) pre.length bs = pre ++ bs ++ post := by
  unfold writeBytesAt
  have h1 : List.take pre.length (pre ++ mid ++ post) = pre := by
    rw [List.append_assoc, List.take_left]
  have h2 : List.drop (pre.length + bs.length) (pre ++ mid ++ post) = post := by
    rw [hlen, show pre.length + mid.length = (pre ++ mid).length by simp, List.drop_left]
  rw [h1, h2]

theorem entryAppend_zKey (e : Fts5HashEntry) (a b c : Int) :
    (entryAppend e a b c).zKey = e.zKey := by
  simp only [entryAppend]
  split_ifs <;> rfl

theorem termStep_zKey (e : Fts5HashEntry) (a b c : Int) :
    (termStep e a b c).zKey = e.zKey := by
  unfold termStep
  rw [entryAppend_zKey]
  split_ifs <;> rfl

end Fts5

namespace Fts5

theorem entryAppend_eq_sameRow_sameCol (e : Fts5HashEntry) (a b c : Int)
    (h1 : a = e.iRowid) (h2 : 0 ≤ b) (h3 : b = e.iCol) :
    entryAppend e a b c
      = { e with entryData := e.entryData ++ sqlite3PutVarint (toU64 (c - e.iPos + 2)),
                 iPos := c } := by
  unfold entryAppend
  dsimp only
  split_ifs <;> first
    | rfl
    | (exfalso; simp_all)
    | simp [List.append_assoc]

theorem entryAppend_eq_sameRow_newCol (e : Fts5HashEntry) (a b c : Int)
    (h1 : a = e.iRowid) (h2 : 0 ≤ b) (h3 : ¬ b = e.iCol) :
    entryAppend e a b c
      = { e with entryData := e.entryData ++ [1] ++ sqlite3PutVarint (toU64 b)
                   ++ sqlite3PutVarint (toU64 (c - 0 + 2)),
                 iCol := b, iPos := c } := by
  unfold entryAppend
  dsimp only
  split_ifs <;> first
    | rfl
    | (exfalso; simp_all)
    | simp [List.append_assoc]

theorem entryAppend_eq_sameRow_del (e : Fts5HashEntry) (a b c : Int)
    (h1 : a = e.iRowid) (h2 : ¬ 0 ≤ b) :
    entryAppend e a b c = e := by
  unfold entryAppend
  dsimp only
  split_ifs <;> first
    | rfl
    | (exfalso; simp_all)
    | simp [List.append_assoc]

theorem entryAppend_eq_newRow_del (e : Fts5HashEntry) (a b c : Int)
    (h1 : ¬ a = e.iRowid) (h2 : ¬ 0 ≤ b) :
    entryAppend e a b c
      = { e with
          entryData := writeBytesAt e.entryData e.iSzPoslist
              (fts5Put4ByteVarint (e.entryData.length - e.iSzPoslist - 4))
            ++ sqlite3PutVarint (toU64 (a - e.iRowid)) ++ [0, 0, 0, 0],
          iSzPoslist := (writeBytesAt e.entryData e.iSzPoslist
              (fts5Put4ByteVarint (e.entryData.length - e.iSzPoslist - 4))
            ++ sqlite3PutVarint (toU64 (a - e.iRowid))).length,
          iCol := 0, iPos := 0, iRowid := a } := by
  unfold entryAppend
  dsimp only
  split_ifs <;> first
    | rfl
    | (exfalso; simp_all)
    | simp [List.append_assoc]

theorem entryAppend_eq_newRow_colZero (e : Fts5HashEntry) (a b c : Int)
    (h1 : ¬ a = e.iRowid) (h2 : 0 ≤ b) (h3 : b = 0) :
    entryAppend e a b c
      = { e with
          entryData := writeBytesAt e.entryData e.iSzPoslist
              (fts5Put4ByteVarint (e.entryData.length - e.iSzPoslist - 4))
            ++ sqlite3PutVarint (toU64 (a - e.iRowid)) ++ [0, 0, 0, 0]
            ++ sqlite3PutVarint (toU64 (c - 0 + 2)),
          iSzPoslist := (writeBytesAt e.entryData e.iSzPoslist
              (fts5Put4ByteVarint (e.entryData.length - e.iSzPoslist - 4))
            ++ sqlite3PutVarint (toU64 (a - e.iRowid))).length,
          iCol := 0, iPos := c, iRowid := a } := by
  unfold entryAppend
  dsimp only
  split_ifs <;> first
    | rfl
    | (exfalso; simp_all)
    | simp [List.append_assoc]

theorem entryAppend_eq_newRow_colPos (e : Fts5HashEntry) (a b c : Int)
    (h1 : ¬ a = e.iRowid) (h2 : 0 ≤ b) (h3 : ¬ b = 0) :
    entryAppend e a b c
      = { e with
          entryData := writeBytesAt e.entryData e.iSzPoslist
              (fts5Put4ByteVarint (e.entryData.length - e.iSzPoslist - 4))
            ++ sqlite3PutVarint (toU64 (a - e.iRowid)) ++ [0, 0, 0, 0]
            ++ [1] ++ sqlite3PutVarint (toU64 b)
            ++ sqlite3PutVarint (toU64 (c - 0 + 2)),
          iSzPoslist := (writeBytesAt e.entryData e.iSzPoslist
              (fts5Put4ByteVarint (e.entryData.length - e.iSzPoslist - 4))
            ++ sqlite3PutVarint (toU64 (a - e.iRowid))).length,
          iCol := b, iPos := c, iRowid := a } := by
  unfold entryAppend
  dsimp only
  split_ifs <;> first
    | rfl
    | (exfalso; simp_all)
    | simp [List.append_assoc]

theorem docStep_eq_same (closed : List Doc) (R : Int) (pl : PosList) (r : WriteRec)
    (h1 : r.rowid = R) :
    docStep (closed, R, pl) r
      = (closed, R, pl ++ (if 0 ≤ r.col then [(r.col, r.pos)] else [])) := by
  unfold docStep
  dsimp only
  rw [if_pos h1]

theorem docStep_eq_new (closed : List Doc) (R : Int) (pl : PosList) (r : WriteRec)
    (h1 : ¬ r.rowid = R) :
    docStep (closed, R, pl) r
      = (closed ++ [(R, pl)], r.rowid, if 0 ≤ r.col then [(r.col, r.pos)] else []) := by
  unfold docStep
  dsimp only
  rw [if_neg h1]

theorem entryAppend_matches (tok : List Nat) (closed : List Doc) (R : Int)
    (pl : PosList) (e : Fts5HashEntry) (r : WriteRec)
    (hm : EntryMatches tok (closed, R, pl) e) :
    EntryMatches tok (docStep (closed, R, pl) r)
      (entryAppend e r.rowid r.col r.pos) := by
  obtain ⟨hk, hR, hCP, hD, hSz⟩ := hm
  dsimp only at hR hCP hD hSz
  have hC : e.iCol = (plCursor 0 0 pl).1 := by rw [← hCP]
  have hP : e.iPos = (plCursor 0 0 pl).2 := by rw [← hCP]
  by_cases hrow : r.rowid = R
  · rw [docStep_eq_same closed R pl r hrow]
    have hre : r.rowid = e.iRowid := by rw [hR, hrow]
    by_cases hcol : (0 : Int) ≤ r.col
    · rw [if_pos hcol]
      by_cases hcc : r.col = e.iCol
      · rw [entryAppend_eq_sameRow_sameCol e _ _ _ hre hcol hcc]
        refine ⟨hk, hR, ?_, ?_, hSz⟩
        · show (e.iCol, r.pos) = plCursor 0 0 (pl ++ [(r.col, r.pos)])
          rw [plCursor_snoc, hcc]
        · show e.entryData ++ _ = _
          rw [hD, encPoslist_snoc, if_pos (by rw [← hC, hcc]), hP]
          simp [List.append_assoc]
      · rw [entryAppend_eq_sameRow_newCol e _ _ _ hre hcol hcc]
        refine ⟨hk, hR, ?_, ?_, hSz⟩
        · show (r.col, r.pos) = plCursor 0 0 (pl ++ [(r.col, r.pos)])
          rw [plCursor_snoc]
        · show e.entryData ++ _ ++ _ ++ _ = _
          rw [hD, encPoslist_snoc, if_neg (by rw [← hC]; exact hcc)]
          simp only [show r.pos - 0 + 2 = r.pos + 2 by ring]
          simp [List.append_assoc]
    · rw [if_neg hcol, entryAppend_eq_sameRow_del e _ _ _ hre hcol, List.append_nil]
      exact ⟨hk, hR, hCP, hD, hSz⟩
  · rw [docStep_eq_new closed R pl r hrow]
    have hre : ¬ r.rowid = e.iRowid := by rw [hR]; exact hrow
    have hpatch : writeBytesAt e.entryData e.iSzPoslist
        (fts5Put4ByteVarint (e.entryData.length - e.iSzPoslist - 4))
        = encDocs none (closed ++ [(R, pl)]) := by
      have hlenD : e.entryData.length - e.iSzPoslist - 4 = (encPoslist 0 0 pl).length := by
        rw [hD, hSz]
        simp only [List.length_append, List.length_cons, List.length_nil]
        omega
      rw [hlenD, hD, hSz]
      rw [show (encDocs none closed).length
            + (sqlite3PutVarint (openDelta closed R)).length
          = (encDocs none closed ++ sqlite3PutVarint (openDelta closed R)).length by simp]
      rw [writeBytesAt_exact _ _ _ _ (by simp [fts5Put4ByteVarint])]
      rw [encDocs_snoc]
    have hdelta : toU64 (r.rowid - e.iRowid) = openDelta (closed ++ [(R, pl)]) r.rowid := by
      rw [openDelta_snoc, hR]
    by_cases hcol : (0 : Int) ≤ r.col
    · rw [if_pos hcol]
      by_cases hcc : r.col = (0 : Int)
      · rw [entryAppend_eq_newRow_colZero e _ _ _ hre hcol hcc]
        refine ⟨hk, rfl, ?_, ?_, ?_⟩
        · show ((0 : Int), r.pos) = plCursor 0 0 [(r.col, r.pos)]
          rw [show plCursor 0 0 [(r.col, r.pos)] = (r.col, r.pos) from rfl, hcc]
        · dsimp only
          rw [hpatch, hdelta]
          simp only [encPoslist, if_pos hcc, List.append_nil]
        · dsimp only
          rw [hpatch, hdelta]
          simp [List.length_append]
      · rw [entryAppend_eq_newRow_colPos e _ _ _ hre hcol hcc]
        refine ⟨hk, rfl, ?_, ?_, ?_⟩
        · show (r.col, r.pos) = plCursor 0 0 [(r.col, r.pos)]
          rfl
        · dsimp only
          rw [hpatch, hdelta]
          simp only [encPoslist, if_neg hcc, List.append_nil]
          have h2 : r.pos - 0 + 2 = r.pos + 2 := by ring
          rw [h2]
          simp [List.append_assoc]
        · dsimp only
          rw [hpatch, hdelta]
          simp [List.length_append]
    · rw [if_neg hcol, entryAppend_eq_newRow_del e _ _ _ hre hcol]
      refine ⟨hk, rfl, ?_, ?_, ?_⟩
      · show ((0 : Int), (0 : Int)) = plCursor 0 0 []
        rfl
      · dsimp only
        rw [hpatch, hdelta]
        simp [encPoslist]
      · dsimp only
        rw [hpatch, hdelta]
        simp [List.length_append]

theorem matches_nAlloc (tok : List Nat) (st : List Doc × Int × PosList)
    (e : Fts5HashEntry) (n : Nat) (hm : EntryMatches tok st e) :
    EntryMatches tok st { e with nAlloc := n } :=
  hm

theorem termStep_matches (tok : List Nat) (st : List Doc × Int × PosList)
    (e : Fts5HashEntry) (r : WriteRec) (hm : EntryMatches tok st e) :
    EntryMatches tok (docStep st r) (termStep e r.rowid r.col r.pos) := by
  obtain ⟨closed, R, pl⟩ := st
  unfold termStep
  split_ifs with hg
  · exact entryAppend_matches tok closed R pl _ r (matches_nAlloc tok _ e _ hm)
  · exact entryAppend_matches tok closed R pl e r hm

theorem foldl_termStep_matches (tok : List Nat) (recs : List WriteRec) :
    ∀ (st : List Doc × Int × PosList) (e : Fts5HashEntry), EntryMatches tok st e →
    EntryMatches tok (recs.foldl docStep st)
      (recs.foldl (fun e x => termStep e x.rowid x.col x.pos) e) := by
  induction recs with
  | nil => intro st e h; exact h
  | cons r rest ih =>
    intro st e h
    exact ih _ _ (termStep_matches tok st e r h)

theorem newEntry_matches (tok : List Nat) (R : Int) :
    EntryMatches tok ([], R, []) (newEntry tok R) := by
  refine ⟨rfl, rfl, rfl, ?_, ?_⟩
  · show sqlite3PutVarint (toU64 R) ++ [0, 0, 0, 0]
      = encDocs none [] ++ sqlite3PutVarint (openDelta [] R) ++ [0, 0, 0, 0]
        ++ encPoslist 0 0 []
    simp [encDocs, openDelta, encPoslist]
  · show (sqlite3PutVarint (toU64 R)).length
      = (encDocs none []).length + (sqlite3PutVarint (openDelta [] R)).length
    simp [encDocs, openDelta]

theorem entryFold_matches (tok : List Nat) (r : WriteRec) (rest : List WriteRec) :
    EntryMatches tok
      (rest.foldl docStep ([], r.rowid, if 0 ≤ r.col then [(r.col, r.pos)] else []))
      (rest.foldl (fun e x => termStep e x.rowid x.col x.pos)
        (termStep (newEntry tok r.rowid) r.rowid r.col r.pos)) := by
  apply foldl_termStep_matches
  have h := termStep_matches tok ([], r.rowid, []) (newEntry tok r.rowid) r
    (newEntry_matches tok r.rowid)
  rw [docStep_eq_same _ _ _ _ rfl, List.nil_append] at h
  exact h

/-! ### Hash-table refinement: placement, lookup and the write induction -/

theorem keyMatch_cons (a : Nat) (k : List Nat) (b : Nat) (tok : List Nat) :
    keyMatch (a :: k) (b :: tok) = ((a == b) && keyMatch k tok) := by
  unfold keyMatch
  by_cases hab : a = b
  · subst hab
    simp [List.cons_append, List.take_succ_cons, List.getD_cons_succ, Bool.and_assoc]
  · simp [List.cons_append, List.take_succ_cons, hab, Bool.and_assoc]

theorem keyMatch_eq_iff : ∀ (k tok : List Nat),
    (∀ b ∈ k, 0 < b) → (∀ b ∈ tok, 0 < b) →
    (keyMatch k tok = true ↔ k = tok) := by
  intro k
  induction k with
  | nil =>
    intro tok hk ht
    cases tok with
    | nil => simp [keyMatch]
    | cons b t =>
      constructor
      · intro h
        exfalso
        have h1 : (([] : List Nat) ++ [0]).take (b :: t).length == b :: t := by
          unfold keyMatch at h
          exact (Bool.and_eq_true_iff.mp h).1
        have h2 : [0].take (t.length + 1) = [0] := by
          rw [List.take_of_length_le]
          simp
        rw [List.nil_append, show (b :: t).length = t.length + 1 from rfl, h2] at h1
        have h3 : ([0] : List Nat) = b :: t := by simpa using h1
        have hb := ht b (by simp)
        cases h3
        omega
      · intro h
        cases h
  | cons a k ih =>
    intro tok hk ht
    cases tok with
    | nil =>
      constructor
      · intro h
        exfalso
        have h2 : ((a :: k) ++ [0]).getD 0 0 == 0 := by
          unfold keyMatch at h
          exact (Bool.and_eq_true_iff.mp h).2
        have ha := hk a (by simp)
        have : a = 0 := by simpa using h2
        omega
      · intro h
        cases h
    | cons b t =>
      rw [keyMatch_cons]
      constructor
      · intro h
        obtain ⟨h1, h2⟩ := Bool.and_eq_true_iff.mp h
        have hab : a = b := by simpa using h1
        have := (ih t (fun x hx => hk x (by simp [hx]))
          (fun x hx => ht x (by simp [hx]))).mp h2
        rw [hab, this]
      · intro h
        injection h with h1 h2
        rw [h1, (ih t (fun x hx => hk x (by simp [hx]))
          (fun x hx => ht x (by simp [hx]))).mpr h2]
        simp

theorem termValid_pos (t : List Nat) (h : termValid t = true) : ∀ b ∈ t, 0 < b := by
  intro b hb
  unfold termValid at h
  obtain ⟨h1, h2⟩ := Bool.and_eq_true_iff.mp h
  have h3 := List.all_eq_true.mp h2 b hb
  obtain ⟨h4, h5⟩ := Bool.and_eq_true_iff.mp h3
  simpa using h4

theorem keyMatch_iff (k tok : List Nat) (hk : termValid k = true)
    (ht : termValid tok = true) : keyMatch k tok = true ↔ k = tok :=
  keyMatch_eq_iff k tok (termValid_pos k hk) (termValid_pos tok ht)

theorem getD_set_ne (l : List (List Fts5HashEntry)) (i j : Nat) (c : List Fts5HashEntry)
    (hne : i ≠ j) : (l.set i c).getD j [] = l.getD j [] := by
  unfold List.getD
  rw [List.get?_eq_getElem?, List.get?_eq_getElem?, List.getElem?_set_ne hne]

theorem mem_flatten_getD (l : List (List Fts5HashEntry)) (e : Fts5HashEntry) :
    e ∈ l.flatten ↔ ∃ i, i < l.length ∧ e ∈ l.getD i [] := by
  constructor
  · intro h
    obtain ⟨c, hc, hec⟩ := List.mem_flatten.mp h
    obtain ⟨⟨i, hi⟩, hgi⟩ := List.mem_iff_get.mp hc
    refine ⟨i, hi, ?_⟩
    unfold List.getD
    rw [List.get?_eq_getElem?, List.getElem?_eq_getElem hi]
    show e ∈ l.get ⟨i, hi⟩
    rw [hgi]
    exact hec
  · intro ⟨i, hi, hei⟩
    apply List.mem_flatten.mpr
    refine ⟨l.getD i [], ?_, hei⟩
    unfold List.getD
    rw [List.get?_eq_getElem?, List.getElem?_eq_getElem hi]
    exact List.getElem_mem hi

theorem flatten_set_decomp (l : List (List Fts5HashEntry)) (i : Nat)
    (hi : i < l.length) :
    ∃ A B, l.flatten = A ++ l.getD i [] ++ B
      ∧ ∀ c, (l.set i c).flatten = A ++ c ++ B := by
  induction l generalizing i with
  | nil => cases hi
  | cons x xs ih =>
    cases i with
    | zero =>
      refine ⟨[], xs.flatten, ?_, ?_⟩
      · simp [List.getD]
      · intro c
        simp
    | succ j =>
      obtain ⟨A, B, h1, h2⟩ := ih j (by simpa using hi)
      refine ⟨x ++ A, B, ?_, ?_⟩
      · show x ++ xs.flatten = (x ++ A) ++ (x :: xs).getD (j + 1) [] ++ B
        rw [List.getD_cons_succ]
        rw [h1]
        simp [List.append_assoc]
      · intro c
        show x ++ (xs.set j c).flatten = (x ++ A) ++ c ++ B
        rw [h2 c]
        simp [List.append_assoc]

theorem chainFind_decomp (chain : List Fts5HashEntry) (tok : List Nat)
    (p : Fts5HashEntry) (h : chainFind chain tok = some p) :
    ∃ pre post, chain = pre ++ p :: post
      ∧ (∀ q ∈ pre, keyMatch q.zKey tok = false)
      ∧ keyMatch p.zKey tok = true
      ∧ ∀ e2, chainSetFirst tok e2 chain = pre ++ e2 :: post := by
  induction chain with
  | nil => cases h
  | cons x rest ih =>
    unfold chainFind at h
    cases hx : keyMatch x.zKey tok with
    | false =>
      have hx2 : ¬ (fun q : Fts5HashEntry => keyMatch q.zKey tok) x = true := by
        simp only [hx]
        intro hcon
        cases hcon
      rw [@List.find?_cons_of_neg _ (fun q : Fts5HashEntry => keyMatch q.zKey tok)
        x rest hx2] at h
      obtain ⟨pre, post, h1, h2, h3, h4⟩ := ih h
      refine ⟨x :: pre, post, by rw [h1]; rfl, ?_, h3, ?_⟩
      · intro q hq
        rcases List.mem_cons.mp hq with rfl | hq2
        · exact hx
        · exact h2 q hq2
      · intro e2
        unfold chainSetFirst
        rw [if_neg (by rw [hx]; intro hcon; cases hcon)]
        show x :: chainSetFirst tok e2 rest = x :: (pre ++ e2 :: post)
        rw [h4 e2]
    | true =>
      have hx2 : (fun q : Fts5HashEntry => keyMatch q.zKey tok) x = true := hx
      rw [@List.find?_cons_of_pos _ (fun q : Fts5HashEntry => keyMatch q.zKey tok)
        x rest hx2] at h
      injection h with h
      subst h
      refine ⟨[], rest, rfl, ?_, hx, ?_⟩
      · intro q hq
        cases hq
      · intro e2
        unfold chainSetFirst
        rw [if_pos hx]
        rfl

theorem chainFind_congr_keys (pre post : List Fts5HashEntry) (p e2 : Fts5HashEntry)
    (tok : List Nat) (hp : keyMatch p.zKey tok = false)
    (he2 : keyMatch e2.zKey tok = false) :
    chainFind (pre ++ p :: post) tok = chainFind (pre ++ e2 :: post) tok := by
  unfold chainFind
  rw [List.find?_append, List.find?_append]
  congr 1
  rw [List.find?_cons, List.find?_cons, hp, he2]

theorem entryFold_eq_none (tok : List Nat) (l : List WriteRec) :
    entryFold tok l = none ↔ l = [] := by
  cases l with
  | nil => simp [entryFold]
  | cons r rest => simp [entryFold]

theorem entryFold_snoc (tok : List Nat) (l : List WriteRec) (r : WriteRec)
    (hne : l ≠ []) :
    entryFold tok (l ++ [r])
      = (entryFold tok l).map (fun e => termStep e r.rowid r.col r.pos) := by
  cases l with
  | nil => exact absurd rfl hne
  | cons x rest =>
    show entryFold tok (x :: (rest ++ [r])) = _
    unfold entryFold
    dsimp only
    rw [List.foldl_append]
    rfl

theorem nodupKeys_inj (l : List Fts5HashEntry)
    (h : (l.map (fun e => e.zKey)).Nodup) (a b : Fts5HashEntry)
    (ha : a ∈ l) (hb : b ∈ l) (hk : a.zKey = b.zKey) : a = b :=
  List.inj_on_of_nodup_map h ha hb hk

theorem lookup_iff (h : Fts5Hash) (hinv : TableInv h) (tok : List Nat)
    (ht : termValid tok = true) (e : Fts5HashEntry) :
    hashLookup h tok = some e ↔ e ∈ h.aSlot.flatten ∧ e.zKey = tok := by
  obtain ⟨hn, hlen, hplace, hnd⟩ := hinv
  constructor
  · intro hl
    unfold hashLookup chainFind at hl
    have hmem := List.mem_of_find?_eq_some hl
    have hpred0 := List.find?_some hl
    have hpred : keyMatch e.zKey tok = true := hpred0
    have hi : fts5HashKey h.nSlot tok < h.aSlot.length := by
      rw [hlen]
      exact fts5HashKey_lt _ hn _
    have hflat : e ∈ h.aSlot.flatten := (mem_flatten_getD _ e).mpr ⟨_, hi, hmem⟩
    have hv := (hplace _ hi e hmem).1
    exact ⟨hflat, (keyMatch_iff e.zKey tok hv ht).mp hpred⟩
  · intro ⟨hflat, hkey⟩
    obtain ⟨i, hi, hmem⟩ := (mem_flatten_getD _ e).mp hflat
    have hpi := hplace i hi e hmem
    have hieq : fts5HashKey h.nSlot tok = i := by rw [← hpi.2, hkey]
    unfold hashLookup chainFind
    rw [hieq]
    cases hfind : List.find? (fun p => keyMatch p.zKey tok) (h.aSlot.getD i []) with
    | none =>
      exfalso
      have hnone := List.find?_eq_none.mp hfind e hmem
      apply hnone
      show keyMatch e.zKey tok = true
      rw [hkey]
      exact keyMatch_self tok
    | some e2 =>
      have hmem2 := List.mem_of_find?_eq_some hfind
      have hpred20 := List.find?_some hfind
      have hpred2 : keyMatch e2.zKey tok = true := hpred20
      have hv2 := (hplace i hi e2 hmem2).1
      have hk2 : e2.zKey = tok := (keyMatch_iff _ _ hv2 ht).mp hpred2
      have hflat2 : e2 ∈ h.aSlot.flatten := (mem_flatten_getD _ e2).mpr ⟨i, hi, hmem2⟩
      rw [nodupKeys_inj _ hnd e2 e hflat2 hflat (by rw [hk2, hkey])]

theorem lookup_eq_of_perm (h1 h2 : Fts5Hash) (hinv1 : TableInv h1)
    (hinv2 : TableInv h2) (hperm : h1.aSlot.flatten.Perm h2.aSlot.flatten)
    (tok : List Nat) (ht : termValid tok = true) :
    hashLookup h1 tok = hashLookup h2 tok := by
  cases hl : hashLookup h2 tok with
  | some e =>
    have he := (lookup_iff h2 hinv2 tok ht e).mp hl
    exact (lookup_iff h1 hinv1 tok ht e).mpr ⟨hperm.mem_iff.mpr he.1, he.2⟩
  | none =>
    cases hl1 : hashLookup h1 tok with
    | none => rfl
    | some e =>
      exfalso
      have he := (lookup_iff h1 hinv1 tok ht e).mp hl1
      have := (lookup_iff h2 hinv2 tok ht e).mpr ⟨hperm.mem_iff.mp he.1, he.2⟩
      rw [hl] at this
      cases this

theorem getD_replicate_nil (n i : Nat) :
    (List.replicate n ([] : List Fts5HashEntry)).getD i [] = [] := by
  unfold List.getD
  rcases lt_or_ge i n with h | h
  · rw [List.get?_eq_getElem?, List.getElem?_eq_getElem (by simpa using h),
      List.getElem_replicate]
    rfl
  · rw [List.get?_eq_getElem?, List.getElem?_eq_none (by simpa using h)]
    rfl

theorem slotInsert_getD (acc : List (List Fts5HashEntry)) (n : Nat)
    (e : Fts5HashEntry) (j : Nat) (hj : j < acc.length) :
    (slotInsert acc n e).getD j []
      = if j = fts5HashKey n e.zKey then e :: acc.getD j [] else acc.getD j [] := by
  unfold slotInsert
  by_cases hij : j = fts5HashKey n e.zKey
  · rw [if_pos hij, ← hij]
    exact getD_set_self acc j hj _
  · rw [if_neg hij]
    exact getD_set_ne acc _ j _ (fun hcon => hij hcon.symm)

theorem rehash_placed (n : Nat) (es : List Fts5HashEntry) :
    ∀ acc, acc.length = n →
    (∀ i, i < n → ∀ e ∈ acc.getD i [], fts5HashKey n e.zKey = i) →
    ∀ i, i < n → ∀ e ∈ (es.foldl (fun a e => slotInsert a n e) acc).getD i [],
      fts5HashKey n e.zKey = i := by
  induction es with
  | nil =>
    intro acc hl hpl
    exact hpl
  | cons x es ih =>
    intro acc hl hpl
    rw [List.foldl_cons]
    apply ih (slotInsert acc n x) (by rw [slotInsert_length]; exact hl)
    intro i hi e he
    rw [slotInsert_getD acc n x i (by rw [hl]; exact hi)] at he
    by_cases hij : i = fts5HashKey n x.zKey
    · rw [if_pos hij] at he
      rcases List.mem_cons.mp he with rfl | he2
      · exact hij.symm
      · exact hpl i hi e he2
    · rw [if_neg hij] at he
      exact hpl i hi e he

theorem resize_tableInv (ok : Bool) (h : Fts5Hash) (hinv : TableInv h) :
    TableInv (fts5HashResize ok h).2 := by
  obtain ⟨hn, hlen, hplace, hnd⟩ := hinv
  cases ok with
  | false => exact ⟨hn, hlen, hplace, hnd⟩
  | true =>
    have hperm := (resize_frame true h hn hlen).2.2.2.1
    have hslot : (fts5HashResize true h).2.nSlot = 2 * h.nSlot := rfl
    have haslot : (fts5HashResize true h).2.aSlot
        = h.aSlot.flatten.foldl (fun acc e => slotInsert acc (2 * h.nSlot) e)
          (List.replicate (2 * h.nSlot) []) := rfl
    have hlenr : (fts5HashResize true h).2.aSlot.length = 2 * h.nSlot := by
      rw [haslot, foldl_slotInsert_length]
      exact List.length_replicate _ _
    refine ⟨?_, ?_, ?_, ?_⟩
    · rw [hslot]
      omega
    · rw [hlenr, hslot]
    · intro i hi e he
      constructor
      · have hflat : e ∈ (fts5HashResize true h).2.aSlot.flatten :=
          (mem_flatten_getD _ e).mpr ⟨i, hi, he⟩
        have hold : e ∈ h.aSlot.flatten := hperm.mem_iff.mp hflat
        obtain ⟨j, hj, hjm⟩ := (mem_flatten_getD _ e).mp hold
        exact (hplace j hj e hjm).1
      · rw [hslot]
        rw [haslot] at he
        exact rehash_placed (2 * h.nSlot) h.aSlot.flatten _
          (List.length_replicate _ _)
          (by intro i2 hi2 e2 he2; rw [getD_replicate_nil] at he2; cases he2)
          i (by rw [← hlenr]; exact hi) e he
    · exact ((hperm.map (fun e => e.zKey)).nodup_iff).mpr hnd

theorem filter_snoc (S : List WriteRec) (r : WriteRec) (tok : List Nat) :
    (S ++ [r]).filter (fun x => x.term == tok)
      = S.filter (fun x => x.term == tok)
        ++ if r.term == tok then [r] else [] := by
  rw [List.filter_append]
  congr 1
  cases hpr : (r.term == tok) with
  | false => simp [List.filter, hpr]
  | true => simp [List.filter, hpr]

theorem write_allOk_new_eq (h : Fts5Hash) (r : WriteRec) (hn : 0 < h.nSlot)
    (hlen : h.aSlot.length = h.nSlot) (hFind : hashLookup h r.term = none)
    (h1 : Fts5Hash)
    (hh1 : h1 = (if 2 * h.nEntry ≥ h.nSlot then fts5HashResize allOk.resizeOk h
      else (Rc.OK, h)).2) :
    writeStep h r = { h1 with
        aSlot := h1.aSlot.set (fts5HashKey h1.nSlot r.term)
          (termStep (newEntry r.term r.rowid) r.rowid r.col r.pos
            :: h1.aSlot.getD (fts5HashKey h1.nSlot r.term) []),
        nEntry := h1.nEntry + 1,
        pnByte := h1.pnByte
          + (nData (termStep (newEntry r.term r.rowid) r.rowid r.col r.pos) : Int) } := by
  subst hh1
  unfold writeStep sqlite3Fts5HashWrite
  unfold hashLookup at hFind
  simp only [hFind]
  have hfr : 0 < (if 2 * h.nEntry ≥ h.nSlot then fts5HashResize allOk.resizeOk h
        else (Rc.OK, h)).2.nSlot
      ∧ (if 2 * h.nEntry ≥ h.nSlot then fts5HashResize allOk.resizeOk h
          else (Rc.OK, h)).2.aSlot.length
        = (if 2 * h.nEntry ≥ h.nSlot then fts5HashResize allOk.resizeOk h
          else (Rc.OK, h)).2.nSlot := by
    split
    · obtain ⟨f1, f2, f3, f4, f5, f6⟩ := resize_frame _ h hn hlen
      exact ⟨f6, f5⟩
    · exact ⟨hn, hlen⟩
  have hrc : (if 2 * h.nEntry ≥ h.nSlot then fts5HashResize allOk.resizeOk h
      else (Rc.OK, h)).1 = Rc.OK := by
    split
    · rfl
    · rfl
  set h1 := (if 2 * h.nEntry ≥ h.nSlot then fts5HashResize allOk.resizeOk h
      else (Rc.OK, h)).2 with hh1
  rw [if_neg (by rw [hrc]; intro hcon; cases hcon)]
  rw [show allOk.entryOk = true from rfl, if_pos rfl]
  rw [show allOk.growOk = true from rfl]
  rw [writeTail_true_eq]
  have hkeylt : fts5HashKey h1.nSlot r.term < h1.aSlot.length := by
    rw [hfr.2]
    exact fts5HashKey_lt _ hfr.1 _
  have hgd : ((h1.aSlot.set (fts5HashKey h1.nSlot r.term)
      (newEntry r.term r.rowid :: h1.aSlot.getD (fts5HashKey h1.nSlot r.term) [])).getD
        (fts5HashKey h1.nSlot r.term) [])
      = newEntry r.term r.rowid :: h1.aSlot.getD (fts5HashKey h1.nSlot r.term) [] :=
    getD_set_self _ _ hkeylt _
  simp only
  rw [hgd]
  rw [chainSetFirst_head_match r.term _ _ _ (by
    show keyMatch (newEntry r.term r.rowid).zKey r.term = true
    exact keyMatch_self r.term)]
  rw [List.set_set]
  congr 1
  ring

theorem chainFind_skip_self (pre post : List Fts5HashEntry) (e2 : Fts5HashEntry)
    (tok : List Nat) (hpre : ∀ q ∈ pre, keyMatch q.zKey tok = false)
    (he2 : keyMatch e2.zKey tok = true) :
    chainFind (pre ++ e2 :: post) tok = some e2 := by
  unfold chainFind
  rw [List.find?_append]
  have h1 : List.find? (fun p => keyMatch p.zKey tok) pre = none :=
    List.find?_eq_none.mpr (fun x hx => by
      show ¬ keyMatch x.zKey tok = true
      rw [hpre x hx]
      intro hcon
      cases hcon)
  rw [h1, @List.find?_cons_of_pos _ (fun q : Fts5HashEntry => keyMatch q.zKey tok)
    e2 post he2]
  rfl

theorem chainFind_skip_head (e2 : Fts5HashEntry) (chain : List Fts5HashEntry)
    (tok : List Nat) (he2 : keyMatch e2.zKey tok = false) :
    chainFind (e2 :: chain) tok = chainFind chain tok := by
  unfold chainFind
  rw [@List.find?_cons_of_neg _ (fun q : Fts5HashEntry => keyMatch q.zKey tok)
    e2 chain (by
      intro hcon
      have hcon2 : keyMatch e2.zKey tok = true := hcon
      rw [he2] at hcon2
      cases hcon2)]

theorem keyMatch_false_of_ne (k tok : List Nat) (hk : termValid k = true)
    (ht : termValid tok = true) (hne : k ≠ tok) : keyMatch k tok = false := by
  cases hkm : keyMatch k tok with
  | false => rfl
  | true => exact absurd ((keyMatch_iff k tok hk ht).mp hkm) hne

theorem resize_branch_facts (h : Fts5Hash) (hinv : TableInv h) (h1 : Fts5Hash)
    (hh1 : h1 = (if 2 * h.nEntry ≥ h.nSlot then fts5HashResize allOk.resizeOk h
      else (Rc.OK, h)).2) :
    TableInv h1 ∧ h1.aSlot.flatten.Perm h.aSlot.flatten
      ∧ (∀ tok, termValid tok = true → hashLookup h1 tok = hashLookup h tok) := by
  subst hh1
  by_cases hc : 2 * h.nEntry ≥ h.nSlot
  · rw [if_pos hc]
    have hi1 : TableInv (fts5HashResize allOk.resizeOk h).2 := resize_tableInv _ h hinv
    have hperm := (resize_frame allOk.resizeOk h hinv.1 hinv.2.1).2.2.2.1
    exact ⟨hi1, hperm, fun tok ht => lookup_eq_of_perm _ h hi1 hinv hperm tok ht⟩
  · rw [if_neg hc]
    exact ⟨hinv, List.Perm.refl _, fun tok ht => rfl⟩

theorem refines_nil (n : Nat) (hn : 0 < n) : Refines [] (fts5HashNewN n) := by
  have hrep : (fts5HashNewN n).aSlot = List.replicate n [] := rfl
  refine ⟨⟨hn, by rw [hrep]; exact List.length_replicate _ _, ?_, ?_⟩, ?_, ?_⟩
  · intro i hi e he
    rw [hrep, getD_replicate_nil] at he
    cases he
  · rw [hrep]
    simp
  · intro tok ht
    show chainFind ((fts5HashNewN n).aSlot.getD _ []) tok = entryFold tok _
    rw [hrep, getD_replicate_nil]
    rfl
  · intro e he
    rw [hrep] at he
    simp at he

theorem writeStep_refines_found (S : List WriteRec) (h : Fts5Hash) (r : WriteRec)
    (hinv : TableInv h)
    (hlook : ∀ tok, termValid tok = true →
      hashLookup h tok = entryFold tok (S.filter (fun x => x.term == tok)))
    (hcov : ∀ e ∈ h.aSlot.flatten, ∃ x ∈ S, x.term = e.zKey)
    (htv : termValid r.term = true) (p : Fts5HashEntry)
    (hFind : hashLookup h r.term = some p) :
    Refines (S ++ [r]) (writeStep h r) := by
  obtain ⟨hn, hlen, hplace, hnd⟩ := hinv
  have hpf := (lookup_iff h ⟨hn, hlen, hplace, hnd⟩ r.term htv p).mp hFind
  have heq := write_allOk_found h r p hFind
  have hi : fts5HashKey h.nSlot r.term < h.aSlot.length := by
    rw [hlen]
    exact fts5HashKey_lt _ hn _
  obtain ⟨pre, post, hdec, hpre, hpm, hset⟩ := chainFind_decomp
    (h.aSlot.getD (fts5HashKey h.nSlot r.term) []) r.term p hFind
  obtain ⟨A, B, hflatdec, hsetf⟩ :=
    flatten_set_decomp h.aSlot (fts5HashKey h.nSlot r.term) hi
  have hkey2 : (termStep p r.rowid r.col r.pos).zKey = r.term := by
    rw [termStep_zKey, hpf.2]
  have haS : (writeStep h r).aSlot
      = h.aSlot.set (fts5HashKey h.nSlot r.term)
          (pre ++ termStep p r.rowid r.col r.pos :: post) := by
    rw [heq]
    show h.aSlot.set _ (chainSetFirst r.term (termStep p r.rowid r.col r.pos)
      (h.aSlot.getD (fts5HashKey h.nSlot r.term) [])) = _
    rw [hset]
  have hnS : (writeStep h r).nSlot = h.nSlot := by rw [heq]
  have hflat2 : (writeStep h r).aSlot.flatten
      = A ++ (pre ++ termStep p r.rowid r.col r.pos :: post) ++ B := by
    rw [haS]
    exact hsetf _
  have hflath : h.aSlot.flatten = A ++ (pre ++ p :: post) ++ B := by
    rw [hflatdec, ← hdec]
  have hkeys : (writeStep h r).aSlot.flatten.map (fun e => e.zKey)
      = h.aSlot.flatten.map (fun e => e.zKey) := by
    rw [hflat2, hflath]
    simp only [List.map_append, List.map_cons]
    rw [hkey2, hpf.2]
  have hlen2 : (writeStep h r).aSlot.length = (writeStep h r).nSlot := by
    rw [haS, hnS, List.length_set, hlen]
  have hinv2 : TableInv (writeStep h r) := by
    refine ⟨by rw [hnS]; exact hn, hlen2, ?_, ?_⟩
    · intro j hj e he
      rw [haS] at he
      rw [haS, List.length_set] at hj
      by_cases hji : j = fts5HashKey h.nSlot r.term
      · rw [hji, getD_set_self _ _ hi _] at he
        rcases List.mem_append.mp he with hepre | herest
        · have hechain : e ∈ h.aSlot.getD j [] := by
            rw [hji, hdec]
            exact List.mem_append_left _ hepre
          have hq := hplace j hj e hechain
          exact ⟨hq.1, by rw [hnS]; exact hq.2⟩
        · rcases List.mem_cons.mp herest with rfl | hepost
          · refine ⟨by rw [hkey2]; exact htv, ?_⟩
            rw [hnS, hkey2, hji]
          · have hechain : e ∈ h.aSlot.getD j [] := by
              rw [hji, hdec]
              exact List.mem_append_right _ (List.mem_cons_of_mem _ hepost)
            have hq := hplace j hj e hechain
            exact ⟨hq.1, by rw [hnS]; exact hq.2⟩
      · rw [getD_set_ne _ _ _ _ (fun hc => hji hc.symm)] at he
        have hq := hplace j hj e he
        exact ⟨hq.1, by rw [hnS]; exact hq.2⟩
    · rw [hkeys]
      exact hnd
  refine ⟨hinv2, ?_, ?_⟩
  · intro tok ht
    by_cases htok : tok = r.term
    · subst htok
      have hL : hashLookup (writeStep h r) r.term
          = some (termStep p r.rowid r.col r.pos) := by
        unfold hashLookup
        rw [hnS, haS, getD_set_self _ _ hi _]
        exact chainFind_skip_self pre post _ r.term hpre
          (by rw [hkey2]; exact keyMatch_self r.term)
      rw [hL, filter_snoc]
      have hfs : entryFold r.term (S.filter (fun x => x.term == r.term))
          = some p := by
        rw [← hlook r.term ht]
        exact hFind
      have hne2 : S.filter (fun x => x.term == r.term) ≠ [] := by
        intro hcon
        rw [hcon] at hfs
        cases hfs
      rw [if_pos (beq_self_eq_true r.term)]
      rw [entryFold_snoc _ _ r hne2, hfs]
      rfl
    · have hL : hashLookup (writeStep h r) tok = hashLookup h tok := by
        unfold hashLookup
        rw [hnS, haS]
        by_cases hji : fts5HashKey h.nSlot tok = fts5HashKey h.nSlot r.term
        · rw [hji, getD_set_self _ _ hi _, hdec]
          have hpfalse : keyMatch p.zKey tok = false := by
            apply keyMatch_false_of_ne
            · rw [hpf.2]
              exact htv
            · exact ht
            · rw [hpf.2]
              exact fun hc => htok hc.symm
          have he2false : keyMatch (termStep p r.rowid r.col r.pos).zKey tok
              = false := by
            rw [hkey2]
            apply keyMatch_false_of_ne r.term tok htv ht
            exact fun hc => htok hc.symm
          exact (chainFind_congr_keys pre post p _ tok hpfalse he2false).symm
        · rw [getD_set_ne _ _ _ _ (fun hc => hji hc.symm)]
      rw [hL, filter_snoc]
      have hbf : (r.term == tok) = false :=
        beq_eq_false_iff_ne.mpr (fun hc => htok hc.symm)
      rw [if_neg (by rw [hbf]; exact fun hcon => nomatch hcon), List.append_nil]
      exact hlook tok ht
  · intro e he
    rw [hflat2] at he
    have hcase : e = termStep p r.rowid r.col r.pos ∨ e ∈ h.aSlot.flatten := by
      rw [hflath]
      simp only [List.mem_append, List.mem_cons] at he ⊢
      tauto
    rcases hcase with rfl | hmem
    · exact ⟨r, by simp, hkey2.symm⟩
    · obtain ⟨x, hx, hxt⟩ := hcov e hmem
      exact ⟨x, by simp [hx], hxt⟩

theorem writeStep_refines_new (S : List WriteRec) (h : Fts5Hash) (r : WriteRec)
    (hinv : TableInv h)
    (hlook : ∀ tok, termValid tok = true →
      hashLookup h tok = entryFold tok (S.filter (fun x => x.term == tok)))
    (hcov : ∀ e ∈ h.aSlot.flatten, ∃ x ∈ S, x.term = e.zKey)
    (htv : termValid r.term = true)
    (hFind : hashLookup h r.term = none) :
    Refines (S ++ [r]) (writeStep h r) := by
  obtain ⟨hinv1, hperm1, hlook1⟩ := resize_branch_facts h hinv
    ((if 2 * h.nEntry ≥ h.nSlot then fts5HashResize allOk.resizeOk h
      else (Rc.OK, h)).2) rfl
  obtain ⟨hn1, hlen1, hplace1, hnd1⟩ := hinv1
  have heq := write_allOk_new_eq h r hinv.1 hinv.2.1 hFind
    ((if 2 * h.nEntry ≥ h.nSlot then fts5HashResize allOk.resizeOk h
      else (Rc.OK, h)).2) rfl
  set h1 := (if 2 * h.nEntry ≥ h.nSlot then fts5HashResize allOk.resizeOk h
      else (Rc.OK, h)).2 with hh1
  have hi1 : fts5HashKey h1.nSlot r.term < h1.aSlot.length := by
    rw [hlen1]
    exact fts5HashKey_lt _ hn1 _
  obtain ⟨A, B, hflatdec, hsetf⟩ :=
    flatten_set_decomp h1.aSlot (fts5HashKey h1.nSlot r.term) hi1
  have hkey2 : (termStep (newEntry r.term r.rowid) r.rowid r.col r.pos).zKey
      = r.term := by
    rw [termStep_zKey]
    rfl
  have haS : (writeStep h r).aSlot
      = h1.aSlot.set (fts5HashKey h1.nSlot r.term)
          (termStep (newEntry r.term r.rowid) r.rowid r.col r.pos
            :: h1.aSlot.getD (fts5HashKey h1.nSlot r.term) []) := by
    rw [heq]
  have hnS : (writeStep h r).nSlot = h1.nSlot := by rw [heq]
  have hflat2 : (writeStep h r).aSlot.flatten
      = A ++ (termStep (newEntry r.term r.rowid) r.rowid r.col r.pos
          :: h1.aSlot.getD (fts5HashKey h1.nSlot r.term) []) ++ B := by
    rw [haS]
    exact hsetf _
  have hpermc : (writeStep h r).aSlot.flatten.Perm
      (termStep (newEntry r.term r.rowid) r.rowid r.col r.pos
        :: h1.aSlot.flatten) := by
    rw [hflat2, hflatdec]
    have hassoc : A ++ (termStep (newEntry r.term r.rowid) r.rowid r.col r.pos
          :: h1.aSlot.getD (fts5HashKey h1.nSlot r.term) []) ++ B
        = A ++ termStep (newEntry r.term r.rowid) r.rowid r.col r.pos
          :: (h1.aSlot.getD (fts5HashKey h1.nSlot r.term) [] ++ B) := by
      simp [List.append_assoc]
    rw [hassoc]
    have hassoc2 : A ++ h1.aSlot.getD (fts5HashKey h1.nSlot r.term) [] ++ B
        = A ++ (h1.aSlot.getD (fts5HashKey h1.nSlot r.term) [] ++ B) := by
      simp [List.append_assoc]
    rw [hassoc2]
    exact List.perm_middle
  have hnotin : ∀ e ∈ h1.aSlot.flatten, e.zKey ≠ r.term := by
    intro e hee hcon
    have hl2 := (lookup_iff h1 ⟨hn1, hlen1, hplace1, hnd1⟩ r.term htv e).mpr ⟨hee, hcon⟩
    rw [hlook1 r.term htv, hFind] at hl2
    cases hl2
  have hinv2 : TableInv (writeStep h r) := by
    refine ⟨by rw [hnS]; exact hn1, ?_, ?_, ?_⟩
    · rw [haS, hnS, List.length_set, hlen1]
    · intro j hj e he
      rw [haS] at he
      rw [haS, List.length_set] at hj
      by_cases hji : j = fts5HashKey h1.nSlot r.term
      · rw [hji, getD_set_self _ _ hi1 _] at he
        rcases List.mem_cons.mp he with rfl | herest
        · refine ⟨by rw [hkey2]; exact htv, ?_⟩
          rw [hnS, hkey2, hji]
        · have hq := hplace1 j hj e (by rw [hji]; exact herest)
          exact ⟨hq.1, by rw [hnS]; exact hq.2⟩
      · rw [getD_set_ne _ _ _ _ (fun hc => hji hc.symm)] at he
        have hq := hplace1 j hj e he
        exact ⟨hq.1, by rw [hnS]; exact hq.2⟩
    · have hmap := hpermc.map (fun e => e.zKey)
      apply hmap.nodup_iff.mpr
      rw [List.map_cons]
      apply List.nodup_cons.mpr
      refine ⟨?_, hnd1⟩
      intro hcon
      obtain ⟨e, hee, hkk⟩ := List.mem_map.mp hcon
      exact hnotin e hee (by rw [hkk, hkey2])
  refine ⟨hinv2, ?_, ?_⟩
  · intro tok ht
    by_cases htok : tok = r.term
    · subst htok
      have hL : hashLookup (writeStep h r) r.term
          = some (termStep (newEntry r.term r.rowid) r.rowid r.col r.pos) := by
        unfold hashLookup
        rw [hnS, haS, getD_set_self _ _ hi1 _]
        unfold chainFind
        rw [@List.find?_cons_of_pos _ (fun q : Fts5HashEntry => keyMatch q.zKey r.term)
          _ _ (by show keyMatch _ r.term = true; rw [hkey2]; exact keyMatch_self r.term)]
      rw [hL, filter_snoc]
      have hfs : entryFold r.term (S.filter (fun x => x.term == r.term)) = none := by
        rw [← hlook r.term ht]
        exact hFind
      have hfe : S.filter (fun x => x.term == r.term) = [] :=
        (entryFold_eq_none _ _).mp hfs
      rw [hfe, if_pos (beq_self_eq_true r.term), List.nil_append]
      rfl
    · have hL : hashLookup (writeStep h r) tok = hashLookup h1 tok := by
        unfold hashLookup
        rw [hnS, haS]
        by_cases hji : fts5HashKey h1.nSlot tok = fts5HashKey h1.nSlot r.term
        · rw [hji, getD_set_self _ _ hi1 _]
          have hkf : keyMatch (termStep (newEntry r.term r.rowid)
              r.rowid r.col r.pos).zKey tok = false := by
            rw [hkey2]
            exact keyMatch_false_of_ne r.term tok htv ht (fun hc => htok hc.symm)
          rw [chainFind_skip_head _ _ tok hkf, ← hji]
        · rw [getD_set_ne _ _ _ _ (fun hc => hji hc.symm)]
      rw [hL, hlook1 tok ht, filter_snoc]
      have hbf : (r.term == tok) = false :=
        beq_eq_false_iff_ne.mpr (fun hc => htok hc.symm)
      rw [if_neg (by rw [hbf]; exact fun hcon => nomatch hcon), List.append_nil]
      exact hlook tok ht
  · intro e he
    have hmem := hpermc.mem_iff.mp he
    rcases List.mem_cons.mp hmem with rfl | hmem1
    · exact ⟨r, by simp, hkey2.symm⟩
    · obtain ⟨x, hx, hxt⟩ := hcov e (hperm1.mem_iff.mp hmem1)
      exact ⟨x, by simp [hx], hxt⟩

theorem writeStep_refines (S : List WriteRec) (h : Fts5Hash) (r : WriteRec)
    (href : Refines S h) (htv : termValid r.term = true) :
    Refines (S ++ [r]) (writeStep h r) := by
  obtain ⟨hinv, hlook, hcov⟩ := href
  cases hFind : hashLookup h r.term with
  | some p => exact writeStep_refines_found S h r hinv hlook hcov htv p hFind
  | none => exact writeStep_refines_new S h r hinv hlook hcov htv hFind

theorem runWrites_refines (S2 : List WriteRec) :
    ∀ (S : List WriteRec) (h : Fts5Hash), Refines S h →
    (∀ r ∈ S2, termValid r.term = true) →
    Refines (S ++ S2) (runWrites h S2) := by
  induction S2 with
  | nil =>
    intro S h href _
    simpa using href
  | cons r rest ih =>
    intro S h href hv
    have h2 := writeStep_refines S h r href (hv r (by simp))
    have h3 := ih (S ++ [r]) (writeStep h r) h2 (fun x hx => hv x (by simp [hx]))
    have hsh : (S ++ [r]) ++ rest = S ++ r :: rest := by simp
    rw [hsh] at h3
    exact h3

theorem refines_runWrites (S : List WriteRec) (n : Nat) (hn : 0 < n)
    (hv : ∀ r ∈ S, termValid r.term = true) :
    Refines S (runWrites (fts5HashNewN n) S) := by
  have h := runWrites_refines S [] (fts5HashNewN n) (refines_nil n hn) hv
  simpa using h

/-! ### Machine-width round trips used by the decoders -/

theorem toU64_lt (x : Int) : toU64 x < 2 ^ 64 := by
  unfold toU64
  omega

theorem toU64_small (x : Int) (h0 : 0 ≤ x) (h1 : x < 2 ^ 64) :
    ((toU64 x : Nat) : Int) = x := by
  unfold toU64
  omega

theorem toI64_toU64_small (x : Int) (h0 : -(2 ^ 63) ≤ x) (h1 : x < 2 ^ 63) :
    toI64 (toU64 x) = x := by
  unfold toI64 toU64
  split <;> omega

theorem toU64_cast (n : Nat) (h : n < 2 ^ 64) : toU64 ((n : Nat) : Int) = n := by
  unfold toU64
  omega

theorem decodePlAux_succ (fuel : Nat) (C P : Int) (b : Nat) (bs : List Nat) :
    decodePlAux (fuel + 1) C P (b :: bs)
      = (let dv := sqlite3GetVarint (b :: bs)
         let bs1 := (b :: bs).drop dv.2
         if dv.1 = 1 then
           let cv := sqlite3GetVarint bs1
           decodePlAux fuel (cv.1 : Int) 0 (bs1.drop cv.2)
         else if 2 ≤ dv.1 then
           (decodePlAux fuel C (P + (dv.1 : Int) - 2) bs1).map
             (fun l => (C, P + (dv.1 : Int) - 2) :: l)
         else none) := rfl

theorem decodePlAux_enc : ∀ (fuel : Nat) (pl : PosList) (C P : Int),
    0 ≤ P → plOk C P pl = true → (encPoslist C P pl).length ≤ fuel →
    decodePlAux fuel C P (encPoslist C P pl) = some pl := by
  intro fuel
  induction fuel with
  | zero =>
    intro pl C P h0P hok hlen
    cases pl with
    | nil => rfl
    | cons x rest =>
      exfalso
      obtain ⟨c, p⟩ := x
      unfold encPoslist at hlen
      by_cases hc : c = C
      · rw [if_pos hc] at hlen
        have hp1 := putVarint_length_pos (toU64 (p - P + 2))
        simp only [List.length_append] at hlen
        omega
      · rw [if_neg hc] at hlen
        simp only [List.length_append, List.length_cons, List.length_nil] at hlen
        omega
  | succ fuel ih =>
    intro pl C P h0P hok hlen
    cases pl with
    | nil => rfl
    | cons x rest =>
      obtain ⟨c, p⟩ := x
      unfold plOk at hok
      by_cases hc : c = C
      · rw [if_pos hc] at hok
        simp only [Bool.and_eq_true, decide_eq_true_eq] at hok
        obtain ⟨⟨⟨h0p, hplt⟩, hPp⟩, hrest⟩ := hok
        have henc : encPoslist C P ((c, p) :: rest)
            = sqlite3PutVarint (toU64 (p - P + 2)) ++ encPoslist c p rest := by
          show (if c = C then sqlite3PutVarint (toU64 (p - P + 2)) ++ encPoslist c p rest
            else [1] ++ sqlite3PutVarint (toU64 c) ++ sqlite3PutVarint (toU64 (p + 2))
              ++ encPoslist c p rest) = _
          rw [if_pos hc]
        rw [henc] at hlen ⊢
        have hvlt : toU64 (p - P + 2) < 2 ^ 64 := toU64_lt _
        have hval : ((toU64 (p - P + 2) : Nat) : Int) = p - P + 2 :=
          toU64_small _ (by omega) (by omega)
        cases hpv : sqlite3PutVarint (toU64 (p - P + 2)) with
        | nil =>
          have hp1 := putVarint_length_pos (toU64 (p - P + 2))
          rw [hpv] at hp1
          cases hp1
        | cons b0 bs0 =>
          rw [List.cons_append, decodePlAux_succ]
          have hgv : sqlite3GetVarint (b0 :: (bs0 ++ encPoslist c p rest))
              = (toU64 (p - P + 2), (sqlite3PutVarint (toU64 (p - P + 2))).length) := by
            rw [← List.cons_append, ← hpv]
            exact getVarint_put _ _ hvlt
          simp only [hgv]
          have hne1 : ¬ toU64 (p - P + 2) = 1 := by
            unfold toU64
            omega
          have hge2 : 2 ≤ toU64 (p - P + 2) := by
            unfold toU64
            omega
          rw [if_neg hne1, if_pos hge2]
          have hdrop : (b0 :: (bs0 ++ encPoslist c p rest)).drop
              (sqlite3PutVarint (toU64 (p - P + 2))).length = encPoslist c p rest := by
            rw [← List.cons_append, ← hpv]
            exact List.drop_left _ _
          rw [hdrop]
          have hPexp : P + ((toU64 (p - P + 2) : Nat) : Int) - 2 = p := by
            rw [hval]
            ring
          rw [hPexp]
          have hlen2 : (encPoslist c p rest).length ≤ fuel := by
            have hp1 := putVarint_length_pos (toU64 (p - P + 2))
            simp only [List.length_append] at hlen
            omega
          rw [hc] at hrest hlen2 ⊢
          rw [ih rest C p h0p hrest hlen2]
          rfl
      · rw [if_neg hc] at hok
        simp only [Bool.and_eq_true, decide_eq_true_eq] at hok
        obtain ⟨⟨⟨h0p, hplt⟩, h0c, hclt⟩, hrest⟩ := hok
        have henc : encPoslist C P ((c, p) :: rest)
            = [1] ++ sqlite3PutVarint (toU64 c) ++ sqlite3PutVarint (toU64 (p + 2))
              ++ encPoslist c p rest := by
          show (if c = C then sqlite3PutVarint (toU64 (p - P + 2)) ++ encPoslist c p rest
            else [1] ++ sqlite3PutVarint (toU64 c) ++ sqlite3PutVarint (toU64 (p + 2))
              ++ encPoslist c p rest) = _
          rw [if_neg hc]
        rw [henc] at hlen ⊢
        have hlist : [1] ++ sqlite3PutVarint (toU64 c) ++ sqlite3PutVarint (toU64 (p + 2))
              ++ encPoslist c p rest
            = 1 :: (sqlite3PutVarint (toU64 c)
                ++ (sqlite3PutVarint (toU64 (p + 2)) ++ encPoslist c p rest)) := by
          simp [List.append_assoc]
        rw [hlist, decodePlAux_succ]
        have hput1 : sqlite3PutVarint 1 = [1] := putVarint_one 1 (by norm_num)
        have hgv : sqlite3GetVarint (1 :: (sqlite3PutVarint (toU64 c)
              ++ (sqlite3PutVarint (toU64 (p + 2)) ++ encPoslist c p rest)))
            = (1, 1) := by
          have hx := getVarint_put 1 (sqlite3PutVarint (toU64 c)
              ++ (sqlite3PutVarint (toU64 (p + 2)) ++ encPoslist c p rest)) (by norm_num)
          rw [hput1] at hx
          exact hx
        simp only [hgv]
        rw [if_pos trivial]
        have hdrop1 : (1 :: (sqlite3PutVarint (toU64 c)
              ++ (sqlite3PutVarint (toU64 (p + 2)) ++ encPoslist c p rest))).drop 1
            = sqlite3PutVarint (toU64 c)
              ++ (sqlite3PutVarint (toU64 (p + 2)) ++ encPoslist c p rest) := rfl
        rw [hdrop1]
        have hgv2 : sqlite3GetVarint (sqlite3PutVarint (toU64 c)
              ++ (sqlite3PutVarint (toU64 (p + 2)) ++ encPoslist c p rest))
            = (toU64 c, (sqlite3PutVarint (toU64 c)).length) :=
          getVarint_put _ _ (toU64_lt _)
        simp only [hgv2]
        have hdrop2 : (sqlite3PutVarint (toU64 c)
              ++ (sqlite3PutVarint (toU64 (p + 2)) ++ encPoslist c p rest)).drop
              (sqlite3PutVarint (toU64 c)).length
            = sqlite3PutVarint (toU64 (p + 2)) ++ encPoslist c p rest :=
          List.drop_left _ _
        rw [hdrop2]
        have hcval : ((toU64 c : Nat) : Int) = c :=
          toU64_small _ h0c (by omega)
        rw [hcval]
        have hencc : encPoslist c 0 ((c, p) :: rest)
            = sqlite3PutVarint (toU64 (p + 2)) ++ encPoslist c p rest := by
          show (if c = c then sqlite3PutVarint (toU64 (p - 0 + 2)) ++ encPoslist c p rest
            else [1] ++ sqlite3PutVarint (toU64 c) ++ sqlite3PutVarint (toU64 (p + 2))
              ++ encPoslist c p rest) = _
          rw [if_pos (Eq.refl c)]
          have hpp : p - 0 + 2 = p + 2 := by ring
          rw [hpp]
        rw [← hencc]
        apply ih ((c, p) :: rest) c 0 (le_refl 0)
        · show (decide (0 ≤ p) && decide (p < 2 ^ 31) &&
              (if c = c then decide ((0 : Int) ≤ p) else decide (0 ≤ c) && decide (c < 2 ^ 31)) &&
              plOk c p rest) = true
          rw [if_pos (Eq.refl c)]
          simp only [Bool.and_eq_true, decide_eq_true_eq]
          exact ⟨⟨⟨h0p, hplt⟩, h0p⟩, hrest⟩
        · have hc1 := putVarint_length_pos (toU64 c)
          have henclen : (encPoslist c 0 ((c, p) :: rest)).length
              = (sqlite3PutVarint (toU64 (p + 2))).length
                + (encPoslist c p rest).length := by
            rw [hencc]
            simp [List.length_append]
          rw [henclen]
          simp only [List.length_append, List.length_cons, List.length_nil] at hlen
          omega

theorem decodePoslist_enc (pl : PosList) (hok : plOk 0 0 pl = true) :
    decodePoslist (encPoslist 0 0 pl) = some pl :=
  decodePlAux_enc _ pl 0 0 (le_refl 0) hok (le_refl _)

theorem plOk_snoc : ∀ (pl : PosList) (C0 P0 c p : Int),
    plOk C0 P0 pl = true →
    0 ≤ p → p < 2 ^ 31 →
    (c = (plCursor C0 P0 pl).1 → (plCursor C0 P0 pl).2 ≤ p) →
    (¬ c = (plCursor C0 P0 pl).1 → 0 ≤ c ∧ c < 2 ^ 31) →
    plOk C0 P0 (pl ++ [(c, p)]) = true := by
  intro pl
  induction pl with
  | nil =>
    intro C0 P0 c p hok h0p hplt hsame hdiff
    show (decide (0 ≤ p) && decide (p < 2 ^ 31) &&
        (if c = C0 then decide (P0 ≤ p) else decide (0 ≤ c) && decide (c < 2 ^ 31)) &&
        plOk c p []) = true
    by_cases hc : c = C0
    · rw [if_pos hc]
      simp only [Bool.and_eq_true, decide_eq_true_eq]
      exact ⟨⟨⟨h0p, hplt⟩, hsame hc⟩, rfl⟩
    · rw [if_neg hc]
      simp only [Bool.and_eq_true, decide_eq_true_eq]
      exact ⟨⟨⟨h0p, hplt⟩, (hdiff hc).1, (hdiff hc).2⟩, rfl⟩
  | cons x rest ih =>
    intro C0 P0 c p hok h0p hplt hsame hdiff
    obtain ⟨cx, px⟩ := x
    have hok2 : (decide (0 ≤ px) && decide (px < 2 ^ 31) &&
        (if cx = C0 then decide (P0 ≤ px) else decide (0 ≤ cx) && decide (cx < 2 ^ 31)) &&
        plOk cx px rest) = true := hok
    simp only [Bool.and_eq_true] at hok2
    obtain ⟨⟨⟨ha, hb⟩, hcnd⟩, hrest⟩ := hok2
    show (decide (0 ≤ px) && decide (px < 2 ^ 31) &&
        (if cx = C0 then decide (P0 ≤ px) else decide (0 ≤ cx) && decide (cx < 2 ^ 31)) &&
        plOk cx px (rest ++ [(c, p)])) = true
    simp only [Bool.and_eq_true]
    refine ⟨⟨⟨ha, hb⟩, hcnd⟩, ?_⟩
    exact ih cx px c p hrest h0p hplt hsame hdiff

theorem encPoslist_len_le : ∀ (pl : PosList) (C P : Int),
    (encPoslist C P pl).length ≤ 19 * pl.length := by
  intro pl
  induction pl with
  | nil =>
    intro C P
    simp [encPoslist]
  | cons x rest ih =>
    intro C P
    obtain ⟨c, p⟩ := x
    show (if c = C then sqlite3PutVarint (toU64 (p - P + 2)) ++ encPoslist c p rest
        else [1] ++ sqlite3PutVarint (toU64 c) ++ sqlite3PutVarint (toU64 (p + 2))
          ++ encPoslist c p rest).length ≤ 19 * ((c, p) :: rest).length
    by_cases hc : c = C
    · rw [if_pos hc]
      simp only [List.length_append, List.length_cons]
      have h1 := putVarint_length_le (toU64 (p - P + 2))
      have h2 := ih c p
      omega
    · rw [if_neg hc]
      simp only [List.length_append, List.length_cons, List.length_nil]
      have h1 := putVarint_length_le (toU64 c)
      have h2 := putVarint_length_le (toU64 (p + 2))
      have h3 := ih c p
      omega

theorem docStep_fold_closed : ∀ (recs : List WriteRec) (closed : List Doc)
    (R : Int) (pl : PosList),
    recs.foldl docStep (closed, R, pl)
      = (closed ++ (recs.foldl docStep ([], R, pl)).1,
         (recs.foldl docStep ([], R, pl)).2) := by
  intro recs
  induction recs with
  | nil =>
    intro closed R pl
    simp
  | cons r recs ih =>
    intro closed R pl
    rw [List.foldl_cons, List.foldl_cons]
    by_cases hr : r.rowid = R
    · rw [docStep_eq_same _ _ _ _ hr, docStep_eq_same _ _ _ _ hr]
      exact ih closed R _
    · rw [docStep_eq_new _ _ _ _ hr, docStep_eq_new _ _ _ _ hr, List.nil_append]
      rw [ih (closed ++ [(R, pl)]) r.rowid _, ih [(R, pl)] r.rowid _]
      simp [List.append_assoc]

theorem docsOk_cons (prev : Option Int) (R : Int) (pl : PosList) (rest : List Doc) :
    docsOk prev ((R, pl) :: rest)
      = (decide (-(2 ^ 62 : Int) ≤ R) && decide (R < 2 ^ 62) &&
        (match prev with
          | none => true
          | some q => decide (q < R)) &&
        plOk 0 0 pl && decide ((encPoslist 0 0 pl).length < 2 ^ 28) &&
        docsOk (some R) rest) := rfl

theorem termSeq_docsOk : ∀ (recs : List WriteRec) (R : Int) (del : Bool) (C P : Int)
    (pl : PosList) (prev : Option Int),
    termSeqOkFrom R del C P recs = true →
    (del = true → pl = []) →
    (del = false → (C, P) = plCursor 0 0 pl) →
    plOk 0 0 pl = true →
    -(2 ^ 62 : Int) ≤ R → R < 2 ^ 62 →
    (∀ q, prev = some q → q < R) →
    pl.length + recs.length ≤ 2 ^ 23 →
    docsOk prev ((recs.foldl docStep ([], R, pl)).1
      ++ [((recs.foldl docStep ([], R, pl)).2.1,
           (recs.foldl docStep ([], R, pl)).2.2)]) = true := by
  intro recs
  induction recs with
  | nil =>
    intro R del C P pl prev hseq hdel hcur hpl hR1 hR2 hprev hbud
    show docsOk prev ([] ++ [(R, pl)]) = true
    rw [List.nil_append, docsOk_cons]
    simp only [Bool.and_eq_true, decide_eq_true_eq]
    refine ⟨⟨⟨⟨⟨hR1, hR2⟩, ?_⟩, hpl⟩, ?_⟩, rfl⟩
    · cases prev with
      | none => rfl
      | some q => simpa using hprev q rfl
    · have h1 := encPoslist_len_le pl 0 0
      simp only [List.length_nil] at hbud
      omega
  | cons r rest ih =>
    intro R del C P pl prev hseq hdel hcur hpl hR1 hR2 hprev hbud
    have hseq2 : (recBounds r &&
        (if r.rowid = R then
          !del && decide (0 ≤ r.col) && decide (C ≤ r.col) &&
          (if r.col = C then decide (P < r.pos) else true) &&
          termSeqOkFrom R false r.col r.pos rest
        else
          decide (R < r.rowid) &&
          (if 0 ≤ r.col then termSeqOkFrom r.rowid false r.col r.pos rest
           else termSeqOkFrom r.rowid true 0 0 rest))) = true := hseq
    simp only [Bool.and_eq_true] at hseq2
    obtain ⟨hrb, hcond⟩ := hseq2
    have hrb2 := hrb
    simp only [recBounds, Bool.and_eq_true, Bool.or_eq_true, decide_eq_true_eq] at hrb2
    obtain ⟨⟨⟨⟨hrow1, hrow2⟩, hcol2⟩, hpos2⟩, hcp⟩ := hrb2
    by_cases hr : r.rowid = R
    · rw [if_pos hr] at hcond
      simp only [Bool.and_eq_true, Bool.not_eq_true', decide_eq_true_eq] at hcond
      obtain ⟨⟨⟨⟨hdelf, hcolnn⟩, hCc⟩, hPlt⟩, hrest⟩ := hcond
      rw [List.foldl_cons, docStep_eq_same _ _ _ _ hr, if_pos hcolnn]
      have hcur2 := hcur hdelf
      have hC : (plCursor 0 0 pl).1 = C := by rw [← hcur2]
      have hP : (plCursor 0 0 pl).2 = P := by rw [← hcur2]
      refine ih R false r.col r.pos (pl ++ [(r.col, r.pos)]) prev hrest
        (by intro hcon; cases hcon)
        (by intro hx; rw [plCursor_snoc])
        ?_ hR1 hR2 hprev ?_
      · apply plOk_snoc pl 0 0 r.col r.pos hpl
          (by rcases hcp with h | h <;> omega) hpos2
        · intro hcc
          rw [hC] at hcc
          rw [hP]
          rw [if_pos hcc] at hPlt
          simp only [decide_eq_true_eq] at hPlt
          omega
        · intro hcc
          exact ⟨hcolnn, hcol2⟩
      · simp only [List.length_append, List.length_cons, List.length_nil] at hbud ⊢
        omega
    · rw [if_neg hr] at hcond
      simp only [Bool.and_eq_true, decide_eq_true_eq] at hcond
      obtain ⟨hRlt, hcond2⟩ := hcond
      by_cases hcol : (0 : Int) ≤ r.col
      · rw [if_pos hcol] at hcond2
        rw [List.foldl_cons, docStep_eq_new _ _ _ _ hr, List.nil_append, if_pos hcol]
        rw [docStep_fold_closed rest [(R, pl)] r.rowid [(r.col, r.pos)]]
        show docsOk prev ((R, pl)
            :: ((rest.foldl docStep ([], r.rowid, [(r.col, r.pos)])).1
              ++ [((rest.foldl docStep ([], r.rowid, [(r.col, r.pos)])).2.1,
                   (rest.foldl docStep ([], r.rowid, [(r.col, r.pos)])).2.2)])) = true
        rw [docsOk_cons]
        simp only [Bool.and_eq_true, decide_eq_true_eq]
        refine ⟨⟨⟨⟨⟨hR1, hR2⟩, ?_⟩, hpl⟩, ?_⟩, ?_⟩
        · cases prev with
          | none => rfl
          | some q => simpa using hprev q rfl
        · have h1 := encPoslist_len_le pl 0 0
          simp only [List.length_cons] at hbud
          omega
        · refine ih r.rowid false r.col r.pos [(r.col, r.pos)] (some R) hcond2
            (by intro hcon; cases hcon)
            (by intro hx; rfl)
            ?_ hrow1 hrow2
            (by intro q hq; injection hq with hq2; rw [← hq2]; exact hRlt)
            ?_
          · show (decide (0 ≤ r.pos) && decide (r.pos < 2 ^ 31) &&
                (if r.col = 0 then decide ((0 : Int) ≤ r.pos)
                 else decide (0 ≤ r.col) && decide (r.col < 2 ^ 31)) &&
                plOk r.col r.pos []) = true
            have h0pos : 0 ≤ r.pos := by rcases hcp with h | h <;> omega
            by_cases hc0 : r.col = 0
            · rw [if_pos hc0]
              simp only [Bool.and_eq_true, decide_eq_true_eq]
              exact ⟨⟨⟨h0pos, hpos2⟩, h0pos⟩, rfl⟩
            · rw [if_neg hc0]
              simp only [Bool.and_eq_true, decide_eq_true_eq]
              exact ⟨⟨⟨h0pos, hpos2⟩, hcol, hcol2⟩, rfl⟩
          · simp only [List.length_cons, List.length_nil] at hbud ⊢
            omega
      · rw [if_neg hcol] at hcond2
        rw [List.foldl_cons, docStep_eq_new _ _ _ _ hr, List.nil_append, if_neg hcol]
        rw [docStep_fold_closed rest [(R, pl)] r.rowid []]
        show docsOk prev ((R, pl)
            :: ((rest.foldl docStep ([], r.rowid, ([] : PosList))).1
              ++ [((rest.foldl docStep ([], r.rowid, ([] : PosList))).2.1,
                   (rest.foldl docStep ([], r.rowid, ([] : PosList))).2.2)])) = true
        rw [docsOk_cons]
        simp only [Bool.and_eq_true, decide_eq_true_eq]
        refine ⟨⟨⟨⟨⟨hR1, hR2⟩, ?_⟩, hpl⟩, ?_⟩, ?_⟩
        · cases prev with
          | none => rfl
          | some q => simpa using hprev q rfl
        · have h1 := encPoslist_len_le pl 0 0
          simp only [List.length_cons] at hbud
          omega
        · refine ih r.rowid true 0 0 [] (some R) hcond2
            (by intro hx; rfl)
            (by intro hcon; cases hcon)
            rfl hrow1 hrow2
            (by intro q hq; injection hq with hq2; rw [← hq2]; exact hRlt)
            ?_
          simp only [List.length_cons, List.length_nil] at hbud ⊢
          omega

theorem termSeqOk_docsOk (recs : List WriteRec) (hok : termSeqOk recs = true)
    (hlen : recs.length ≤ 2 ^ 23) :
    docsOk none (docsOf recs) = true := by
  cases recs with
  | nil => rfl
  | cons r rest =>
    have hok2 : (recBounds r &&
        (if 0 ≤ r.col then termSeqOkFrom r.rowid false r.col r.pos rest
         else termSeqOkFrom r.rowid true 0 0 rest)) = true := hok
    simp only [Bool.and_eq_true] at hok2
    obtain ⟨hrb, hcond⟩ := hok2
    have hrb2 := hrb
    simp only [recBounds, Bool.and_eq_true, Bool.or_eq_true, decide_eq_true_eq] at hrb2
    obtain ⟨⟨⟨⟨hrow1, hrow2⟩, hcol2⟩, hpos2⟩, hcp⟩ := hrb2
    have hlen2 : rest.length + 1 ≤ 2 ^ 23 := by
      simpa using hlen
    by_cases hcol : (0 : Int) ≤ r.col
    · rw [if_pos hcol] at hcond
      show docsOk none ((rest.foldl docStep
          ([], r.rowid, if 0 ≤ r.col then [(r.col, r.pos)] else [])).1
        ++ [((rest.foldl docStep
          ([], r.rowid, if 0 ≤ r.col then [(r.col, r.pos)] else [])).2.1,
             (rest.foldl docStep
          ([], r.rowid, if 0 ≤ r.col then [(r.col, r.pos)] else [])).2.2)]) = true
      rw [if_pos hcol]
      have h0pos : 0 ≤ r.pos := by rcases hcp with h | h <;> omega
      refine termSeq_docsOk rest r.rowid false r.col r.pos [(r.col, r.pos)] none hcond
        (by intro hcon; cases hcon)
        (by intro hx; rfl)
        ?_ hrow1 hrow2
        (by intro q hq; cases hq)
        (by simp only [List.length_cons, List.length_nil]; omega)
      show (decide (0 ≤ r.pos) && decide (r.pos < 2 ^ 31) &&
          (if r.col = 0 then decide ((0 : Int) ≤ r.pos)
           else decide (0 ≤ r.col) && decide (r.col < 2 ^ 31)) &&
          plOk r.col r.pos []) = true
      by_cases hc0 : r.col = 0
      · rw [if_pos hc0]
        simp only [Bool.and_eq_true, decide_eq_true_eq]
        exact ⟨⟨⟨h0pos, hpos2⟩, h0pos⟩, rfl⟩
      · rw [if_neg hc0]
        simp only [Bool.and_eq_true, decide_eq_true_eq]
        exact ⟨⟨⟨h0pos, hpos2⟩, hcol, hcol2⟩, rfl⟩
    · rw [if_neg hcol] at hcond
      show docsOk none ((rest.foldl docStep
          ([], r.rowid, if 0 ≤ r.col then [(r.col, r.pos)] else [])).1
        ++ [((rest.foldl docStep
          ([], r.rowid, if 0 ≤ r.col then [(r.col, r.pos)] else [])).2.1,
             (rest.foldl docStep
          ([], r.rowid, if 0 ≤ r.col then [(r.col, r.pos)] else [])).2.2)]) = true
      rw [if_neg hcol]
      refine termSeq_docsOk rest r.rowid true 0 0 [] none hcond
        (by intro hx; rfl)
        (by intro hcon; cases hcon)
        rfl hrow1 hrow2
        (by intro q hq; cases hq)
        (by simp only [List.length_nil]; omega)

theorem patchedData_of_matches (tok : List Nat) (st : List Doc × Int × PosList)
    (e : Fts5HashEntry) (hm : EntryMatches tok st e) :
    patchedData e = encDocs none (st.1 ++ [(st.2.1, st.2.2)]) := by
  obtain ⟨closed, R, pl⟩ := st
  obtain ⟨hk, hR, hCP, hD, hSz⟩ := hm
  dsimp only at hD hSz ⊢
  unfold patchedData
  have hlenD : e.entryData.length - e.iSzPoslist - 4 = (encPoslist 0 0 pl).length := by
    rw [hD, hSz]
    simp only [List.length_append, List.length_cons, List.length_nil]
    omega
  rw [hlenD, hD, hSz]
  rw [show (encDocs none closed).length
        + (sqlite3PutVarint (openDelta closed R)).length
      = (encDocs none closed ++ sqlite3PutVarint (openDelta closed R)).length by simp]
  rw [writeBytesAt_exact _ _ _ _ (by simp [fts5Put4ByteVarint])]
  rw [encDocs_snoc]

theorem query_runWrites (S : List WriteRec) (n : Nat) (hn : 0 < n)
    (hv : ∀ r ∈ S, termValid r.term = true) (tok : List Nat)
    (ht : termValid tok = true)
    (hne : S.filter (fun x => x.term == tok) ≠ []) :
    sqlite3Fts5HashQuery (runWrites (fts5HashNewN n) S) tok
      = some (encDocs none (docsOf (S.filter (fun x => x.term == tok)))) := by
  have href := refines_runWrites S n hn hv
  have hq : sqlite3Fts5HashQuery (runWrites (fts5HashNewN n) S) tok
      = (hashLookup (runWrites (fts5HashNewN n) S) tok).map patchedData := rfl
  rw [hq, href.2.1 tok ht]
  cases hfe : S.filter (fun x => x.term == tok) with
  | nil => exact absurd hfe hne
  | cons r rest =>
    have hm := entryFold_matches tok r rest
    show some (patchedData (rest.foldl (fun e x => termStep e x.rowid x.col x.pos)
        (termStep (newEntry tok r.rowid) r.rowid r.col r.pos))) = _
    rw [patchedData_of_matches tok _ _ hm]
    rfl

theorem get4_append (v : Nat) (rest : List Nat) :
    fts5Get4ByteVarint (fts5Put4ByteVarint v ++ rest)
      = fts5Get4ByteVarint (fts5Put4ByteVarint v) := by
  unfold fts5Get4ByteVarint fts5Put4ByteVarint
  simp only [List.cons_append, List.nil_append, List.getD_cons_zero, List.getD_cons_succ]

theorem decodeDlAux_succ (fuel : Nat) (prev : Option Int) (b : Nat) (bs : List Nat) :
    decodeDlAux (fuel + 1) prev (b :: bs)
      = (let dv := sqlite3GetVarint (b :: bs)
         let R := match prev with
           | none => toI64 dv.1
           | some q => q + (dv.1 : Int)
         let bs1 := (b :: bs).drop dv.2
         let g4 := fts5Get4ByteVarint bs1
         if 4 + g4.1 ≤ bs1.length then
           match decodePoslist ((bs1.drop 4).take g4.1) with
           | none => none
           | some pl =>
             (decodeDlAux fuel (some R) ((bs1.drop 4).drop g4.1)).map
               (fun ds => (R, pl) :: ds)
         else none) := rfl

theorem decodeDlAux_enc : ∀ (fuel : Nat) (docs : List Doc) (prev : Option Int),
    docsOk prev docs = true →
    (∀ q, prev = some q → -(2 ^ 62 : Int) ≤ q ∧ q < 2 ^ 62) →
    (encDocs prev docs).length ≤ fuel →
    decodeDlAux fuel prev (encDocs prev docs) = some docs := by
  intro fuel
  induction fuel with
  | zero =>
    intro docs prev hok hq hlen
    cases docs with
    | nil => rfl
    | cons d rest =>
      exfalso
      obtain ⟨R, pl⟩ := d
      have henc : encDocs prev ((R, pl) :: rest)
          = sqlite3PutVarint (encBlockDelta prev R)
            ++ fts5Put4ByteVarint (encPoslist 0 0 pl).length
            ++ encPoslist 0 0 pl
            ++ encDocs (some R) rest := rfl
      rw [henc] at hlen
      have hp1 := putVarint_length_pos (encBlockDelta prev R)
      simp only [List.length_append] at hlen
      omega
  | succ fuel ih =>
    intro docs prev hok hq hlen
    cases docs with
    | nil => rfl
    | cons d rest =>
      obtain ⟨R, pl⟩ := d
      rw [docsOk_cons] at hok
      simp only [Bool.and_eq_true, decide_eq_true_eq] at hok
      obtain ⟨⟨⟨⟨⟨hR1, hR2⟩, hpm⟩, hpl⟩, hsz⟩, hrest⟩ := hok
      cases prev with
      | none =>
        have henc : encDocs none ((R, pl) :: rest)
            = sqlite3PutVarint (encBlockDelta none R)
              ++ (fts5Put4ByteVarint (encPoslist 0 0 pl).length
                ++ (encPoslist 0 0 pl ++ encDocs (some R) rest)) := by
          show sqlite3PutVarint (encBlockDelta none R)
              ++ fts5Put4ByteVarint (encPoslist 0 0 pl).length
              ++ encPoslist 0 0 pl
              ++ encDocs (some R) rest = _
          simp [List.append_assoc]
        rw [henc] at hlen ⊢
        have hdlt : encBlockDelta none R < 2 ^ 64 := toU64_lt _
        cases hpv : sqlite3PutVarint (encBlockDelta none R) with
        | nil =>
          have hp1 := putVarint_length_pos (encBlockDelta none R)
          rw [hpv] at hp1
          cases hp1
        | cons b0 bs0 =>
          rw [List.cons_append, decodeDlAux_succ]
          have hgv : sqlite3GetVarint (b0 :: (bs0
                ++ (fts5Put4ByteVarint (encPoslist 0 0 pl).length
                  ++ (encPoslist 0 0 pl ++ encDocs (some R) rest))))
              = (encBlockDelta none R,
                 (sqlite3PutVarint (encBlockDelta none R)).length) := by
            rw [← List.cons_append, ← hpv]
            exact getVarint_put _ _ hdlt
          simp only [hgv]
          have hdrop : (b0 :: (bs0
                ++ (fts5Put4ByteVarint (encPoslist 0 0 pl).length
                  ++ (encPoslist 0 0 pl ++ encDocs (some R) rest)))).drop
                (sqlite3PutVarint (encBlockDelta none R)).length
              = fts5Put4ByteVarint (encPoslist 0 0 pl).length
                ++ (encPoslist 0 0 pl ++ encDocs (some R) rest) := by
            rw [← List.cons_append, ← hpv]
            exact List.drop_left _ _
          rw [hdrop]
          have hRR : toI64 (encBlockDelta none R) = R := by
            show toI64 (toU64 R) = R
            exact toI64_toU64_small R (by omega) (by omega)
          rw [hRR]
          rw [get4_append, put4_get4 _ hsz]
          have hlen4 : (fts5Put4ByteVarint (encPoslist 0 0 pl).length).length = 4 := by
            simp [fts5Put4ByteVarint]
          have hblen : (fts5Put4ByteVarint (encPoslist 0 0 pl).length
                ++ (encPoslist 0 0 pl ++ encDocs (some R) rest)).length
              = 4 + ((encPoslist 0 0 pl).length + (encDocs (some R) rest).length) := by
            simp only [List.length_append, hlen4]
          rw [if_pos (by rw [hblen]; omega)]
          have hdrop4 : (fts5Put4ByteVarint (encPoslist 0 0 pl).length
                ++ (encPoslist 0 0 pl ++ encDocs (some R) rest)).drop 4
              = encPoslist 0 0 pl ++ encDocs (some R) rest := by
            rw [show (4 : Nat) = (fts5Put4ByteVarint (encPoslist 0 0 pl).length).length
              from hlen4.symm]
            exact List.drop_left _ _
          rw [hdrop4, List.take_left, List.drop_left]
          rw [decodePoslist_enc pl hpl]
          have hlenr : (encDocs (some R) rest).length ≤ fuel := by
            have hp1 := putVarint_length_pos (encBlockDelta none R)
            rw [hpv] at hp1
            simp only [List.length_append, List.length_cons] at hlen
            omega
          rw [ih rest (some R) hrest
            (by intro q2 hq2; injection hq2 with hq3; rw [← hq3]; exact ⟨hR1, hR2⟩) hlenr]
          rfl
      | some q =>
        have henc : encDocs (some q) ((R, pl) :: rest)
            = sqlite3PutVarint (encBlockDelta (some q) R)
              ++ (fts5Put4ByteVarint (encPoslist 0 0 pl).length
                ++ (encPoslist 0 0 pl ++ encDocs (some R) rest)) := by
          show sqlite3PutVarint (encBlockDelta (some q) R)
              ++ fts5Put4ByteVarint (encPoslist 0 0 pl).length
              ++ encPoslist 0 0 pl
              ++ encDocs (some R) rest = _
          simp [List.append_assoc]
        rw [henc] at hlen ⊢
        have hdlt : encBlockDelta (some q) R < 2 ^ 64 := toU64_lt _
        have hqb := hq q rfl
        obtain ⟨hq1, hq2⟩ := hqb
        have hpm2 : q < R := by simpa using hpm
        cases hpv : sqlite3PutVarint (encBlockDelta (some q) R) with
        | nil =>
          have hp1 := putVarint_length_pos (encBlockDelta (some q) R)
          rw [hpv] at hp1
          cases hp1
        | cons b0 bs0 =>
          rw [List.cons_append, decodeDlAux_succ]
          have hgv : sqlite3GetVarint (b0 :: (bs0
                ++ (fts5Put4ByteVarint (encPoslist 0 0 pl).length
                  ++ (encPoslist 0 0 pl ++ encDocs (some R) rest))))
              = (encBlockDelta (some q) R,
                 (sqlite3PutVarint (encBlockDelta (some q) R)).length) := by
            rw [← List.cons_append, ← hpv]
            exact getVarint_put _ _ hdlt
          simp only [hgv]
          have hdrop : (b0 :: (bs0
                ++ (fts5Put4ByteVarint (encPoslist 0 0 pl).length
                  ++ (encPoslist 0 0 pl ++ encDocs (some R) rest)))).drop
                (sqlite3PutVarint (encBlockDelta (some q) R)).length
              = fts5Put4ByteVarint (encPoslist 0 0 pl).length
                ++ (encPoslist 0 0 pl ++ encDocs (some R) rest) := by
            rw [← List.cons_append, ← hpv]
            exact List.drop_left _ _
          rw [hdrop]
          have hRR : q + ((encBlockDelta (some q) R : Nat) : Int) = R := by
            show q + ((toU64 (R - q) : Nat) : Int) = R
            rw [toU64_small (R - q) (by omega) (by omega)]
            ring
          rw [hRR]
          rw [get4_append, put4_get4 _ hsz]
          have hlen4 : (fts5Put4ByteVarint (encPoslist 0 0 pl).length).length = 4 := by
            simp [fts5Put4ByteVarint]
          have hblen : (fts5Put4ByteVarint (encPoslist 0 0 pl).length
                ++ (encPoslist 0 0 pl ++ encDocs (some R) rest)).length
              = 4 + ((encPoslist 0 0 pl).length + (encDocs (some R) rest).length) := by
            simp only [List.length_append, hlen4]
          rw [if_pos (by rw [hblen]; omega)]
          have hdrop4 : (fts5Put4ByteVarint (encPoslist 0 0 pl).length
                ++ (encPoslist 0 0 pl ++ encDocs (some R) rest)).drop 4
              = encPoslist 0 0 pl ++ encDocs (some R) rest := by
            rw [show (4 : Nat) = (fts5Put4ByteVarint (encPoslist 0 0 pl).length).length
              from hlen4.symm]
            exact List.drop_left _ _
          rw [hdrop4, List.take_left, List.drop_left]
          rw [decodePoslist_enc pl hpl]
          have hlenr : (encDocs (some R) rest).length ≤ fuel := by
            have hp1 := putVarint_length_pos (encBlockDelta (some q) R)
            rw [hpv] at hp1
            simp only [List.length_append, List.length_cons] at hlen
            omega
          rw [ih rest (some R) hrest
            (by intro q2 hq2; injection hq2 with hq3; rw [← hq3]; exact ⟨hR1, hR2⟩) hlenr]
          rfl

theorem decodeDoclist_enc (docs : List Doc) (hok : docsOk none docs = true) :
    decodeDoclist (encDocs none docs) = some docs :=
  decodeDlAux_enc _ docs none hok (by intro q hq; cases hq) (le_refl _)

/-- C3 (amended): every doclist handed out by point-query on a table built
from a write sequence of well-formed terms is exactly the reference
encoding encDocs of the per-rowid document grouping: a concatenation of
per-document blocks, each laid out as the rowid-delta varint, then the
4-byte poslist-size varint, then the position-list bytes, with the first
block's delta the absolute rowid (the size field precedes the poslist
bytes, not the reverse as claimed). -/
theorem claim_C3_amended (S : List WriteRec) (n : Nat) (hn : 0 < n)
    (hv : ∀ r ∈ S, termValid r.term = true) (tok : List Nat)
    (hw : tok ∈ S.map (fun r => r.term)) :
    sqlite3Fts5HashQuery (runWrites (fts5HashNewN n) S) tok
      = some (encDocs none (docsOf (S.filter (fun r => r.term == tok)))) := by
  obtain ⟨r0, hr0, hr0t⟩ := List.mem_map.mp hw
  have ht : termValid tok = true := by
    rw [← hr0t]
    exact hv r0 hr0
  have hfne : S.filter (fun r => r.term == tok) ≠ [] := by
    intro hcon
    have hmem : r0 ∈ S.filter (fun r => r.term == tok) := by
      apply List.mem_filter.mpr
      refine ⟨hr0, ?_⟩
      simp [hr0t]
    rw [hcon] at hmem
    cases hmem
  exact query_runWrites S n hn hv tok ht hfne

theorem claim_C3_amended_witness :
    (0 < 4 ∧ (∀ r ∈ [({ term := [97], rowid := 5, col := 0, pos := 3 } : WriteRec)],
        termValid r.term = true)
      ∧ [97] ∈ [({ term := [97], rowid := 5, col := 0, pos := 3 } : WriteRec)].map
          (fun r => r.term))
    ∧ sqlite3Fts5HashQuery
        (runWrites (fts5HashNewN 4)
          [({ term := [97], rowid := 5, col := 0, pos := 3 } : WriteRec)]) [97]
      = some (encDocs none (docsOf
          ([({ term := [97], rowid := 5, col := 0, pos := 3 } : WriteRec)].filter
            (fun r => r.term == [97])))) :=
  ⟨⟨by decide, by decide, by decide⟩,
    claim_C3_amended [{ term := [97], rowid := 5, col := 0, pos := 3 }] 4
      (by decide) (by decide) [97] (by decide)⟩

/-- C1 (amended): for every write sequence satisfying the per-term
monotonicity discipline of termSeqOk (and small enough for the 4-byte size
fields, at most 2 to the 23 records), the doclist returned by point-query
for each written term decodes, via the inverse of the section 4.2 rules,
to the per-rowid document grouping docsOf of the term's subsequence:
consecutive equal-rowid records form one document (a deletion marker
yields an empty poslist), rather than one block per record as the claim's
reading would give for deletions. -/
theorem claim_C1_amended (S : List WriteRec) (n : Nat) (hn : 0 < n)
    (hv : validSeq S = true) (hlen : S.length ≤ 2 ^ 23) (tok : List Nat)
    (hw : tok ∈ S.map (fun r => r.term)) :
    ∃ bs, sqlite3Fts5HashQuery (runWrites (fts5HashNewN n) S) tok = some bs
      ∧ decodeDoclist bs = some (docsOf (S.filter (fun r => r.term == tok))) := by
  have hv2 : (S.all (fun r => termValid r.term) &&
      (S.map (fun r => r.term)).all
        (fun t => termSeqOk (S.filter (fun r => r.term == t)))) = true := hv
  simp only [Bool.and_eq_true] at hv2
  obtain ⟨hall, hseq⟩ := hv2
  have hv1 : ∀ r ∈ S, termValid r.term = true := by
    intro r hr
    exact List.all_eq_true.mp hall r hr
  obtain ⟨r0, hr0, hr0t⟩ := List.mem_map.mp hw
  have ht : termValid tok = true := by
    rw [← hr0t]
    exact hv1 r0 hr0
  have hts : termSeqOk (S.filter (fun r => r.term == tok)) = true :=
    List.all_eq_true.mp hseq tok hw
  have hfne : S.filter (fun r => r.term == tok) ≠ [] := by
    intro hcon
    have hmem : r0 ∈ S.filter (fun r => r.term == tok) := by
      apply List.mem_filter.mpr
      refine ⟨hr0, ?_⟩
      simp [hr0t]
    rw [hcon] at hmem
    cases hmem
  have hflen : (S.filter (fun r => r.term == tok)).length ≤ 2 ^ 23 :=
    le_trans (List.length_filter_le _ _) hlen
  refine ⟨encDocs none (docsOf (S.filter (fun r => r.term == tok))), ?_, ?_⟩
  · exact query_runWrites S n hn hv1 tok ht hfne
  · exact decodeDoclist_enc _ (termSeqOk_docsOk _ hts hflen)

theorem claim_C1_amended_witness :
    (0 < 4
      ∧ validSeq [({ term := [116], rowid := 5, col := -1, pos := 0 } : WriteRec),
          { term := [116], rowid := 7, col := 0, pos := 2 }] = true
      ∧ [116] ∈ [({ term := [116], rowid := 5, col := -1, pos := 0 } : WriteRec),
          { term := [116], rowid := 7, col := 0, pos := 2 }].map (fun r => r.term))
    ∧ ∃ bs, sqlite3Fts5HashQuery
        (runWrites (fts5HashNewN 4)
          [({ term := [116], rowid := 5, col := -1, pos := 0 } : WriteRec),
           { term := [116], rowid := 7, col := 0, pos := 2 }]) [116] = some bs
      ∧ decodeDoclist bs
        = some (docsOf
            ([({ term := [116], rowid := 5, col := -1, pos := 0 } : WriteRec),
              { term := [116], rowid := 7, col := 0, pos := 2 }].filter
              (fun r => r.term == [116]))) :=
  ⟨⟨by decide, by decide, by decide⟩,
    claim_C1_amended
      [{ term := [116], rowid := 5, col := -1, pos := 0 },
       { term := [116], rowid := 7, col := 0, pos := 2 }] 4
      (by decide) (by decide) (by decide) [116] (by decide)⟩

/-! ### The merge comparator and plain lexicographic order -/

theorem lexLtB_irrefl : ∀ a : List Nat, lexLtB a a = false := by
  intro a
  induction a with
  | nil => rfl
  | cons x xs ih =>
    show (if x = x then lexLtB xs xs else decide (x < x)) = false
    rw [if_pos rfl, ih]

theorem lexLtB_asymm : ∀ a b : List Nat, lexLtB a b = true → lexLtB b a = false := by
  intro a
  induction a with
  | nil =>
    intro b hab
    cases b with
    | nil => cases hab
    | cons y ys => rfl
  | cons x xs ih =>
    intro b hab
    cases b with
    | nil => cases hab
    | cons y ys =>
      show (if y = x then lexLtB ys xs else decide (y < x)) = false
      have hab2 : (if x = y then lexLtB xs ys else decide (x < y)) = true := hab
      by_cases hxy : x = y
      · rw [if_pos hxy] at hab2
        rw [if_pos hxy.symm, ih ys hab2]
      · rw [if_neg hxy] at hab2
        rw [if_neg (fun hc => hxy hc.symm)]
        simp only [decide_eq_true_eq] at hab2
        simp only [decide_eq_false_iff_not]
        omega

theorem lexLtB_total : ∀ a b : List Nat, lexLtB a b = false → lexLtB b a = false →
    a = b := by
  intro a
  induction a with
  | nil =>
    intro b hab hba
    cases b with
    | nil => rfl
    | cons y ys => cases hab
  | cons x xs ih =>
    intro b hab hba
    cases b with
    | nil => cases hba
    | cons y ys =>
      have hab2 : (if x = y then lexLtB xs ys else decide (x < y)) = false := hab
      have hba2 : (if y = x then lexLtB ys xs else decide (y < x)) = false := hba
      by_cases hxy : x = y
      · rw [if_pos hxy] at hab2
        rw [if_pos hxy.symm] at hba2
        rw [hxy, ih ys hab2 hba2]
      · rw [if_neg hxy] at hab2
        rw [if_neg (fun hc => hxy hc.symm)] at hba2
        simp only [decide_eq_false_iff_not] at hab2 hba2
        omega

theorem lexLtB_trans : ∀ a b c : List Nat, lexLtB a b = true → lexLtB b c = true →
    lexLtB a c = true := by
  intro a
  induction a with
  | nil =>
    intro b c hab hbc
    cases b with
    | nil => cases hab
    | cons y ys =>
      cases c with
      | nil => cases hbc
      | cons z zs => rfl
  | cons x xs ih =>
    intro b c hab hbc
    cases b with
    | nil => cases hab
    | cons y ys =>
      cases c with
      | nil => cases hbc
      | cons z zs =>
        have hab2 : (if x = y then lexLtB xs ys else decide (x < y)) = true := hab
        have hbc2 : (if y = z then lexLtB ys zs else decide (y < z)) = true := hbc
        show (if x = z then lexLtB xs zs else decide (x < z)) = true
        by_cases hxy : x = y
        · rw [if_pos hxy] at hab2
          by_cases hyz : y = z
          · rw [if_pos hyz] at hbc2
            rw [if_pos (hxy.trans hyz)]
            exact ih ys zs hab2 hbc2
          · rw [if_neg hyz] at hbc2
            simp only [decide_eq_true_eq] at hbc2
            rw [if_neg (by omega), decide_eq_true_eq]
            omega
        · rw [if_neg hxy] at hab2
          simp only [decide_eq_true_eq] at hab2
          by_cases hyz : y = z
          · rw [if_neg (by omega), decide_eq_true_eq]
            omega
          · rw [if_neg hyz] at hbc2
            simp only [decide_eq_true_eq] at hbc2
            rw [if_neg (by omega), decide_eq_true_eq]
            omega

theorem padGt_lexLt : ∀ a b : List Nat, (∀ x ∈ a, 0 < x) → (∀ x ∈ b, 0 < x) →
    padGtBytes (a ++ [0]) (b ++ [0]) = lexLtB b a := by
  intro a
  induction a with
  | nil =>
    intro b ha hb
    cases b with
    | nil => rfl
    | cons y ys =>
      show (if 0 = y then padGtBytes [] (ys ++ [0]) else decide (y < 0)) = false
      have hy := hb y (by simp)
      rw [if_neg (by omega)]
      simp only [decide_eq_false_iff_not]
      omega
  | cons x xs ih =>
    intro b ha hb
    cases b with
    | nil =>
      show (if x = 0 then padGtBytes (xs ++ [0]) [] else decide (0 < x)) = true
      have hx := ha x (by simp)
      rw [if_neg (by omega)]
      simp only [decide_eq_true_eq]
      omega
    | cons y ys =>
      show (if x = y then padGtBytes (xs ++ [0]) (ys ++ [0]) else decide (y < x))
          = (if y = x then lexLtB ys xs else decide (y < x))
      by_cases hxy : x = y
      · rw [if_pos hxy, if_pos hxy.symm]
        exact ih ys (fun z hz => ha z (by simp [hz])) (fun z hz => hb z (by simp [hz]))
      · rw [if_neg hxy, if_neg (fun hc => hxy hc.symm)]

theorem entryLt_lexLt (a b : Fts5HashEntry) (ha : ∀ x ∈ a.zKey, 0 < x)
    (hb : ∀ x ∈ b.zKey, 0 < x) :
    (entryLt a b ↔ lexLtB a.zKey b.zKey = true) := by
  unfold entryLt entryKeyGt
  rw [padGt_lexLt b.zKey a.zKey hb ha]

theorem entryLt_trans_valid (a b c : Fts5HashEntry)
    (ha : ∀ x ∈ a.zKey, 0 < x) (hb : ∀ x ∈ b.zKey, 0 < x) (hc : ∀ x ∈ c.zKey, 0 < x)
    (h1 : entryLt a b) (h2 : entryLt b c) : entryLt a c := by
  rw [entryLt_lexLt a b ha hb] at h1
  rw [entryLt_lexLt b c hb hc] at h2
  rw [entryLt_lexLt a c ha hc]
  exact lexLtB_trans _ _ _ h1 h2

theorem entryLt_of_not_gt (e1 e2 : Fts5HashEntry)
    (h1 : ∀ x ∈ e1.zKey, 0 < x) (h2 : ∀ x ∈ e2.zKey, 0 < x)
    (hne : e1.zKey ≠ e2.zKey) (hg : ¬ entryKeyGt e1 e2 = true) : entryLt e1 e2 := by
  rw [entryLt_lexLt e1 e2 h1 h2]
  have hfalse : lexLtB e2.zKey e1.zKey = false := by
    cases hx : lexLtB e2.zKey e1.zKey with
    | false => rfl
    | true =>
      exfalso
      apply hg
      show padGtBytes (e1.zKey ++ [0]) (e2.zKey ++ [0]) = true
      rw [padGt_lexLt _ _ h1 h2, hx]
  cases hx2 : lexLtB e1.zKey e2.zKey with
  | false => exact absurd (lexLtB_total _ _ hx2 hfalse) hne
  | true => rfl

theorem entryLt_asymm_valid (a b : Fts5HashEntry)
    (ha : ∀ x ∈ a.zKey, 0 < x) (hb : ∀ x ∈ b.zKey, 0 < x)
    (h1 : entryLt a b) : ¬ entryLt b a := by
  rw [entryLt_lexLt a b ha hb] at h1
  rw [entryLt_lexLt b a hb ha]
  intro h2
  rw [lexLtB_asymm _ _ h1] at h2
  cases h2

theorem mergeGo_perm : ∀ (fuel : Nat) (l1 l2 : List Fts5HashEntry),
    (mergeGo fuel l1 l2).Perm (l1 ++ l2) := by
  intro fuel
  induction fuel with
  | zero =>
    intro l1 l2
    cases l1 with
    | nil => exact List.Perm.refl l2
    | cons e1 t1 =>
      cases l2 with
      | nil => simp [mergeGo]
      | cons e2 t2 => exact List.Perm.refl _
  | succ fuel ih =>
    intro l1 l2
    cases l1 with
    | nil => exact List.Perm.refl l2
    | cons e1 t1 =>
      cases l2 with
      | nil => simp [mergeGo]
      | cons e2 t2 =>
        show (if entryKeyGt e1 e2 then e2 :: mergeGo fuel (e1 :: t1) t2
              else e1 :: mergeGo fuel t1 (e2 :: t2)).Perm ((e1 :: t1) ++ e2 :: t2)
        by_cases hg : entryKeyGt e1 e2 = true
        · rw [if_pos hg]
          exact ((ih (e1 :: t1) t2).cons e2).trans List.perm_middle.symm
        · rw [if_neg hg]
          exact (ih t1 (e2 :: t2)).cons e1

theorem mergeGo_sorted : ∀ (fuel : Nat) (l1 l2 : List Fts5HashEntry),
    l1.length + l2.length ≤ fuel →
    l1.Pairwise entryLt → l2.Pairwise entryLt →
    (∀ e ∈ l1 ++ l2, ∀ x ∈ e.zKey, 0 < x) →
    ((l1 ++ l2).map (fun e => e.zKey)).Nodup →
    (mergeGo fuel l1 l2).Pairwise entryLt := by
  intro fuel
  induction fuel with
  | zero =>
    intro l1 l2 hlen h1 h2 hval hnd
    cases l1 with
    | nil => exact h2
    | cons e1 t1 =>
      cases l2 with
      | nil => exact h1
      | cons e2 t2 =>
        exfalso
        simp at hlen
  | succ fuel ih =>
    intro l1 l2 hlen h1 h2 hval hnd
    cases l1 with
    | nil => exact h2
    | cons e1 t1 =>
      cases l2 with
      | nil => exact h1
      | cons e2 t2 =>
        show (if entryKeyGt e1 e2 then e2 :: mergeGo fuel (e1 :: t1) t2
              else e1 :: mergeGo fuel t1 (e2 :: t2)).Pairwise entryLt
        have hv1 : ∀ x ∈ e1.zKey, 0 < x := hval e1 (by simp)
        have hv2 : ∀ x ∈ e2.zKey, 0 < x := hval e2 (by simp)
        obtain ⟨he1t1, ht1⟩ := List.pairwise_cons.mp h1
        obtain ⟨he2t2, ht2⟩ := List.pairwise_cons.mp h2
        by_cases hg : entryKeyGt e1 e2 = true
        · rw [if_pos hg]
          apply List.Pairwise.cons
          · intro y hy
            have hy2 := (mergeGo_perm fuel (e1 :: t1) t2).mem_iff.mp hy
            have hvy : ∀ x ∈ y.zKey, 0 < x := by
              apply hval
              rcases List.mem_append.mp hy2 with hyl | hyr
              · exact List.mem_append_left _ hyl
              · exact List.mem_append_right _ (List.mem_cons_of_mem _ hyr)
            rcases List.mem_append.mp hy2 with hyl | hyr
            · rcases List.mem_cons.mp hyl with rfl | hyt1
              · exact hg
              · exact entryLt_trans_valid e2 e1 y hv2 hv1 hvy hg (he1t1 y hyt1)
            · exact he2t2 y hyr
          · apply ih (e1 :: t1) t2
            · simp only [List.length_cons] at hlen ⊢
              omega
            · exact h1
            · exact ht2
            · intro e he
              apply hval
              rcases List.mem_append.mp he with hel | her
              · exact List.mem_append_left _ hel
              · exact List.mem_append_right _ (List.mem_cons_of_mem _ her)
            · have hsub : List.Sublist ((e1 :: t1) ++ t2) ((e1 :: t1) ++ e2 :: t2) :=
                List.Sublist.append_left (List.sublist_cons_self _ t2) _
              exact hnd.sublist (hsub.map _)
        · rw [if_neg hg]
          have hne12 : e1.zKey ≠ e2.zKey := by
            intro hcon
            have hnd2 : ¬ e1.zKey ∈ ((t1 ++ e2 :: t2).map (fun e => e.zKey)) := by
              have hshape : ((e1 :: t1) ++ e2 :: t2).map (fun e => e.zKey)
                  = e1.zKey :: ((t1 ++ e2 :: t2).map (fun e => e.zKey)) := by
                simp
              rw [hshape] at hnd
              exact (List.nodup_cons.mp hnd).1
            apply hnd2
            apply List.mem_map.mpr
            exact ⟨e2, by simp, hcon.symm⟩
          have he12 : entryLt e1 e2 := entryLt_of_not_gt e1 e2 hv1 hv2 hne12 hg
          apply List.Pairwise.cons
          · intro y hy
            have hy2 := (mergeGo_perm fuel t1 (e2 :: t2)).mem_iff.mp hy
            have hvy : ∀ x ∈ y.zKey, 0 < x := by
              apply hval
              rcases List.mem_append.mp hy2 with hyl | hyr
              · exact List.mem_append_left _ (List.mem_cons_of_mem _ hyl)
              · exact List.mem_append_right _ hyr
            rcases List.mem_append.mp hy2 with hyl | hyr
            · exact he1t1 y hyl
            · rcases List.mem_cons.mp hyr with rfl | hyt2
              · exact he12
              · exact entryLt_trans_valid e1 e2 y hv1 hv2 hvy he12 (he2t2 y hyt2)
          · apply ih t1 (e2 :: t2)
            · simp only [List.length_cons] at hlen ⊢
              omega
            · exact ht1
            · exact h2
            · intro e he
              apply hval
              rcases List.mem_append.mp he with hel | her
              · exact List.mem_append_left _ (List.mem_cons_of_mem _ hel)
              · exact List.mem_append_right _ her
            · have hsub : List.Sublist (t1 ++ e2 :: t2) ((e1 :: t1) ++ e2 :: t2) := by
                show List.Sublist (t1 ++ e2 :: t2) (e1 :: (t1 ++ e2 :: t2))
                exact List.sublist_cons_self _ _
              exact hnd.sublist (hsub.map _)

theorem fts5HashEntryMerge_perm (l1 l2 : List Fts5HashEntry) :
    (fts5HashEntryMerge l1 l2).Perm (l1 ++ l2) :=
  mergeGo_perm _ l1 l2

theorem fts5HashEntryMerge_sorted (l1 l2 : List Fts5HashEntry)
    (h1 : l1.Pairwise entryLt) (h2 : l2.Pairwise entryLt)
    (hval : ∀ e ∈ l1 ++ l2, ∀ x ∈ e.zKey, 0 < x)
    (hnd : ((l1 ++ l2).map (fun e => e.zKey)).Nodup) :
    (fts5HashEntryMerge l1 l2).Pairwise entryLt :=
  mergeGo_sorted _ l1 l2 (by simp) h1 h2 hval hnd

theorem slotPush_facts : ∀ (ap : List (List Fts5HashEntry)) (e : List Fts5HashEntry),
    (∀ s ∈ ap, s.Pairwise entryLt) → e.Pairwise entryLt →
    (∀ q ∈ e ++ ap.flatten, ∀ x ∈ q.zKey, 0 < x) →
    ((e ++ ap.flatten).map (fun q => q.zKey)).Nodup →
    (∀ s ∈ slotPush ap e, s.Pairwise entryLt)
    ∧ ((slotPush ap e).flatten).Perm (e ++ ap.flatten) := by
  intro ap
  induction ap with
  | nil =>
    intro e hs he hval hnd
    refine ⟨?_, by simp [slotPush]⟩
    intro s hsm
    rcases List.mem_cons.mp hsm with rfl | hx
    · exact he
    · cases hx
  | cons slot rest ih =>
    intro e hs he hval hnd
    cases slot with
    | nil =>
      refine ⟨?_, by simp [slotPush]⟩
      intro s hsm
      rcases List.mem_cons.mp hsm with rfl | hx
      · exact he
      · exact hs s (List.mem_cons_of_mem _ hx)
    | cons x xs =>
      have hslot : (x :: xs).Pairwise entryLt := hs (x :: xs) (by simp)
      have hflat : (((x :: xs) :: rest).flatten) = (x :: xs) ++ rest.flatten := rfl
      have hvalm : ∀ q ∈ e ++ (x :: xs), ∀ y ∈ q.zKey, 0 < y := by
        intro q hq
        apply hval
        rcases List.mem_append.mp hq with h | h
        · exact List.mem_append_left _ h
        · apply List.mem_append_right
          rw [hflat]
          exact List.mem_append_left _ h
      have hndm : ((e ++ (x :: xs)).map (fun q => q.zKey)).Nodup := by
        apply hnd.sublist
        apply List.Sublist.map
        rw [hflat, ← List.append_assoc]
        exact List.sublist_append_left _ _
      have hmsorted : (fts5HashEntryMerge e (x :: xs)).Pairwise entryLt :=
        fts5HashEntryMerge_sorted e (x :: xs) he hslot hvalm hndm
      have hmperm : (fts5HashEntryMerge e (x :: xs)).Perm (e ++ (x :: xs)) :=
        fts5HashEntryMerge_perm e (x :: xs)
      have hbigperm : (fts5HashEntryMerge e (x :: xs) ++ rest.flatten).Perm
          (e ++ ((x :: xs) :: rest).flatten) := by
        rw [hflat, ← List.append_assoc]
        exact hmperm.append_right _
      have hvalr : ∀ q ∈ fts5HashEntryMerge e (x :: xs) ++ rest.flatten,
          ∀ y ∈ q.zKey, 0 < y := by
        intro q hq
        exact hval q (hbigperm.mem_iff.mp hq)
      have hndr : ((fts5HashEntryMerge e (x :: xs) ++ rest.flatten).map
          (fun q => q.zKey)).Nodup :=
        ((hbigperm.map _).nodup_iff).mpr hnd
      obtain ⟨hrs, hrp⟩ := ih (fts5HashEntryMerge e (x :: xs))
        (fun s hsm => hs s (List.mem_cons_of_mem _ hsm)) hmsorted hvalr hndr
      constructor
      · intro s hsm
        rcases List.mem_cons.mp hsm with rfl | hx
        · exact List.Pairwise.nil
        · exact hrs s hx
      · show (([] : List Fts5HashEntry)
            ++ (slotPush rest (fts5HashEntryMerge e (x :: xs))).flatten).Perm _
        rw [List.nil_append]
        exact hrp.trans hbigperm

theorem foldl_slotPush_facts : ∀ (pool : List Fts5HashEntry)
    (ap : List (List Fts5HashEntry)),
    (∀ s ∈ ap, s.Pairwise entryLt) →
    (∀ q ∈ pool ++ ap.flatten, ∀ x ∈ q.zKey, 0 < x) →
    ((pool ++ ap.flatten).map (fun q => q.zKey)).Nodup →
    (∀ s ∈ pool.foldl (fun a q => slotPush a [q]) ap, s.Pairwise entryLt)
    ∧ ((pool.foldl (fun a q => slotPush a [q]) ap).flatten).Perm
        (pool ++ ap.flatten) := by
  intro pool
  induction pool with
  | nil =>
    intro ap hs hval hnd
    exact ⟨hs, by simp⟩
  | cons e pool ih =>
    intro ap hs hval hnd
    rw [List.foldl_cons]
    have hperm0 : (([e] ++ ap.flatten) : List Fts5HashEntry).Perm
        (e :: ap.flatten) := by simp
    have hval0 : ∀ q ∈ ([e] : List Fts5HashEntry) ++ ap.flatten, ∀ x ∈ q.zKey, 0 < x := by
      intro q hq
      apply hval
      rcases List.mem_append.mp hq with h | h
      · rcases List.mem_cons.mp h with rfl | hx
        · exact List.mem_append_left _ (by simp)
        · cases hx
      · exact List.mem_append_right _ h
    have hnd0 : ((([e] : List Fts5HashEntry) ++ ap.flatten).map
        (fun q => q.zKey)).Nodup := by
      apply hnd.sublist
      apply List.Sublist.map
      show List.Sublist (e :: ap.flatten) (e :: (pool ++ ap.flatten))
      exact (List.sublist_append_right pool ap.flatten).cons₂ e
    obtain ⟨hps, hpp⟩ := slotPush_facts ap [e] hs (List.pairwise_singleton _ _)
      hval0 hnd0
    have hstepperm : ((slotPush ap [e]).flatten).Perm (e :: ap.flatten) := hpp.trans hperm0
    have hval1 : ∀ q ∈ pool ++ (slotPush ap [e]).flatten, ∀ x ∈ q.zKey, 0 < x := by
      intro q hq
      apply hval
      rcases List.mem_append.mp hq with h | h
      · exact List.mem_append_left _ (List.mem_cons_of_mem _ h)
      · have := hstepperm.mem_iff.mp h
        rcases List.mem_cons.mp this with rfl | hx
        · exact List.mem_append_left _ (by simp)
        · exact List.mem_append_right _ hx
    have hbig : (pool ++ (slotPush ap [e]).flatten).Perm
        ((e :: pool) ++ ap.flatten) := by
      have h1 := hstepperm.append_left pool
      have h2 : (pool ++ (e :: ap.flatten)).Perm (e :: (pool ++ ap.flatten)) :=
        List.perm_middle
      exact h1.trans h2
    have hnd1 : ((pool ++ (slotPush ap [e]).flatten).map (fun q => q.zKey)).Nodup :=
      ((hbig.map _).nodup_iff).mpr hnd
    obtain ⟨hfs, hfp⟩ := ih (slotPush ap [e]) hps hval1 hnd1
    exact ⟨hfs, hfp.trans hbig⟩

theorem foldl_merge_facts : ∀ (slots : List (List Fts5HashEntry))
    (acc : List Fts5HashEntry),
    acc.Pairwise entryLt →
    (∀ s ∈ slots, s.Pairwise entryLt) →
    (∀ q ∈ acc ++ slots.flatten, ∀ x ∈ q.zKey, 0 < x) →
    ((acc ++ slots.flatten).map (fun q => q.zKey)).Nodup →
    (slots.foldl (fun a l => fts5HashEntryMerge a l) acc).Pairwise entryLt
    ∧ (slots.foldl (fun a l => fts5HashEntryMerge a l) acc).Perm
        (acc ++ slots.flatten) := by
  intro slots
  induction slots with
  | nil =>
    intro acc hacc hs hval hnd
    exact ⟨hacc, by simp⟩
  | cons slot rest ih =>
    intro acc hacc hs hval hnd
    rw [List.foldl_cons]
    have hflat : ((slot :: rest).flatten) = slot ++ rest.flatten := rfl
    have hvalm : ∀ q ∈ acc ++ slot, ∀ x ∈ q.zKey, 0 < x := by
      intro q hq
      apply hval
      rcases List.mem_append.mp hq with h | h
      · exact List.mem_append_left _ h
      · apply List.mem_append_right
        rw [hflat]
        exact List.mem_append_left _ h
    have hndm : ((acc ++ slot).map (fun q => q.zKey)).Nodup := by
      apply hnd.sublist
      apply List.Sublist.map
      rw [hflat, ← List.append_assoc]
      exact List.sublist_append_left _ _
    have hmsorted : (fts5HashEntryMerge acc slot).Pairwise entryLt :=
      fts5HashEntryMerge_sorted acc slot hacc (hs slot (by simp)) hvalm hndm
    have hmperm := fts5HashEntryMerge_perm acc slot
    have hbigperm : (fts5HashEntryMerge acc slot ++ rest.flatten).Perm
        (acc ++ (slot :: rest).flatten) := by
      rw [hflat, ← List.append_assoc]
      exact hmperm.append_right _
    have hvalr : ∀ q ∈ fts5HashEntryMerge acc slot ++ rest.flatten,
        ∀ x ∈ q.zKey, 0 < x := by
      intro q hq
      exact hval q (hbigperm.mem_iff.mp hq)
    have hndr : ((fts5HashEntryMerge acc slot ++ rest.flatten).map
        (fun q => q.zKey)).Nodup :=
      ((hbigperm.map _).nodup_iff).mpr hnd
    obtain ⟨hrs, hrp⟩ := ih (fts5HashEntryMerge acc slot) hmsorted
      (fun s hsm => hs s (List.mem_cons_of_mem _ hsm)) hvalr hndr
    exact ⟨hrs, hrp.trans hbigperm⟩

theorem sortEntries_facts (pTerm : Option (List Nat)) (entries : List Fts5HashEntry)
    (hval : ∀ e ∈ entries, ∀ x ∈ e.zKey, 0 < x)
    (hnd : (entries.map (fun e => e.zKey)).Nodup) :
    (sortEntries pTerm entries).Pairwise entryLt
    ∧ (sortEntries pTerm entries).Perm
        (entries.filter (fun e => fts5TermMatch pTerm e.zKey)) := by
  have hfsub : List.Sublist (entries.filter (fun e => fts5TermMatch pTerm e.zKey))
      entries := List.filter_sublist _
  have hvalp : ∀ q ∈ entries.filter (fun e => fts5TermMatch pTerm e.zKey)
      ++ ([] : List (List Fts5HashEntry)).flatten, ∀ x ∈ q.zKey, 0 < x := by
    intro q hq
    simp only [List.flatten_nil, List.append_nil] at hq
    exact hval q (hfsub.mem hq)
  have hndp : ((entries.filter (fun e => fts5TermMatch pTerm e.zKey)
      ++ ([] : List (List Fts5HashEntry)).flatten).map (fun q => q.zKey)).Nodup := by
    simp only [List.flatten_nil, List.append_nil]
    exact hnd.sublist (hfsub.map _)
  obtain ⟨hslots, hperm⟩ := foldl_slotPush_facts
    (entries.filter (fun e => fts5TermMatch pTerm e.zKey)) []
    (by intro s hsm; cases hsm) hvalp hndp
  simp only [List.flatten_nil, List.append_nil] at hperm
  have hvalf : ∀ q ∈ ([] : List Fts5HashEntry)
      ++ ((entries.filter (fun e => fts5TermMatch pTerm e.zKey)).foldl
        (fun a q => slotPush a [q]) []).flatten, ∀ x ∈ q.zKey, 0 < x := by
    intro q hq
    rw [List.nil_append] at hq
    exact hval q (hfsub.mem (hperm.mem_iff.mp hq))
  have hndf : ((([] : List Fts5HashEntry)
      ++ ((entries.filter (fun e => fts5TermMatch pTerm e.zKey)).foldl
        (fun a q => slotPush a [q]) []).flatten).map (fun q => q.zKey)).Nodup := by
    rw [List.nil_append]
    exact ((hperm.map _).nodup_iff).mpr (hnd.sublist (hfsub.map _))
  obtain ⟨hsorted, hpf⟩ := foldl_merge_facts
    ((entries.filter (fun e => fts5TermMatch pTerm e.zKey)).foldl
      (fun a q => slotPush a [q]) []) [] List.Pairwise.nil hslots hvalf hndf
  refine ⟨hsorted, ?_⟩
  refine hpf.trans ?_
  rw [List.nil_append]
  exact hperm

theorem sorted_perm_eq : ∀ (l1 l2 : List Fts5HashEntry),
    l1.Perm l2 → l1.Pairwise entryLt → l2.Pairwise entryLt →
    (∀ e ∈ l1, ∀ x ∈ e.zKey, 0 < x) → l1 = l2 := by
  intro l1
  induction l1 with
  | nil =>
    intro l2 hp _ _ _
    exact (hp.symm.eq_nil).symm
  | cons a t1 ih =>
    intro l2 hp h1 h2 hval
    cases l2 with
    | nil => cases hp.eq_nil
    | cons b t2 =>
      by_cases hab : a = b
      · subst hab
        rw [ih t2 hp.cons_inv (List.pairwise_cons.mp h1).2 (List.pairwise_cons.mp h2).2
          (fun e he => hval e (List.mem_cons_of_mem _ he))]
      · exfalso
        have hamem : a ∈ b :: t2 := hp.mem_iff.mp (by simp)
        have hbmem : b ∈ a :: t1 := hp.mem_iff.mpr (by simp)
        have hat2 : a ∈ t2 := by
          rcases List.mem_cons.mp hamem with h | h
          · exact absurd h hab
          · exact h
        have hbt1 : b ∈ t1 := by
          rcases List.mem_cons.mp hbmem with h | h
          · exact absurd h.symm hab
          · exact h
        have h1ab : entryLt a b := (List.pairwise_cons.mp h1).1 b hbt1
        have h2ba : entryLt b a := (List.pairwise_cons.mp h2).1 a hat2
        have hva : ∀ x ∈ a.zKey, 0 < x := hval a (by simp)
        have hvb : ∀ x ∈ b.zKey, 0 < x := hval b (List.mem_cons_of_mem _ hbt1)
        exact entryLt_asymm_valid a b hva hvb h1ab h2ba

theorem termMatch_isPrefix (q k : List Nat) (hq : ∀ x ∈ q, 0 < x) :
    (fts5TermMatch (some q) k = true ↔ List.IsPrefix q k) := by
  show ((k ++ [0]).take q.length == q) = true ↔ _
  rw [beq_iff_eq]
  constructor
  · intro h
    rcases le_or_lt q.length k.length with hle | hgt
    · rw [List.take_append_of_le_length hle] at h
      rw [← h]
      exact List.take_prefix _ _
    · have htk : (k ++ [0]).take q.length = k ++ [0] :=
        List.take_of_length_le (by simp; omega)
      rw [htk] at h
      exfalso
      have h0 : (0 : Nat) ∈ q := by
        rw [← h]
        simp
      have := hq 0 h0
      omega
  · intro h
    rw [List.take_append_of_le_length h.length_le]
    exact (List.prefix_iff_eq_take.mp h).symm

theorem traceTerms_append (l1 l2 : List IterEvent) :
    traceTerms (l1 ++ l2) = traceTerms l1 ++ traceTerms l2 := by
  induction l1 with
  | nil => rfl
  | cons e rest ih =>
    cases e with
    | termKey t =>
      show t :: traceTerms (rest ++ l2) = t :: traceTerms rest ++ traceTerms l2
      rw [ih]
      rfl
    | doc r b =>
      show traceTerms (rest ++ l2) = traceTerms rest ++ traceTerms l2
      exact ih
    | termDone =>
      show traceTerms (rest ++ l2) = traceTerms rest ++ traceTerms l2
      exact ih

theorem traceTerms_iterLoop : ∀ (fuel : Nat) (R : Int) (bs : List Nat),
    traceTerms (iterLoop fuel R bs) = [] := by
  intro fuel
  induction fuel with
  | zero =>
    intro R bs
    cases bs <;> rfl
  | succ f ih =>
    intro R bs
    cases bs with
    | nil => rfl
    | cons b bs2 =>
      show traceTerms (IterEvent.doc _ _ :: iterLoop f _ _) = []
      exact ih _ _

theorem traceTerms_entryEvents (e : Fts5HashEntry) :
    traceTerms (entryEvents e) = [e.zKey] := by
  show e.zKey :: traceTerms (iterLoop (patchedData e).length 0 (patchedData e)
      ++ [IterEvent.termDone]) = [e.zKey]
  rw [traceTerms_append, traceTerms_iterLoop]
  rfl

theorem traceTerms_flat : ∀ (l : List Fts5HashEntry),
    traceTerms ((l.map entryEvents).flatten) = l.map (fun e => e.zKey) := by
  intro l
  induction l with
  | nil => rfl
  | cons e rest ih =>
    show traceTerms (entryEvents e ++ (rest.map entryEvents).flatten) = _
    rw [traceTerms_append, traceTerms_entryEvents, ih]
    rfl

/-- C2: on a table built from a write sequence of well-formed terms, the
keys enumerated by a prefix scan (scan-init followed by successive
scan-next/scan-entry calls walks pScan front to back) are strictly
ascending in unsigned-byte lexicographic order, and they are exactly the
written terms whose first bytes equal the requested prefix; the terms
announced by iterate are the same ordered key sequence (iterate sorts with
no prefix). -/
theorem claim_C2 (S : List WriteRec) (n : Nat) (hn : 0 < n)
    (hv : ∀ r ∈ S, termValid r.term = true) (P : Option (List Nat))
    (hP : ∀ t, P = some t → ∀ x ∈ t, 0 < x) :
    List.Pairwise (fun a b => lexLtB a b = true)
      ((sqlite3Fts5HashScanInit true (runWrites (fts5HashNewN n) S) P).pScan.map
        (fun e => e.zKey))
    ∧ (∀ t, t ∈ (sqlite3Fts5HashScanInit true (runWrites (fts5HashNewN n) S) P).pScan.map
            (fun e => e.zKey)
          ↔ ((∃ r ∈ S, r.term = t) ∧ ∀ q, P = some q → List.IsPrefix q t))
    ∧ traceTerms (sqlite3Fts5HashIterate true (runWrites (fts5HashNewN n) S)).2.1
      = (sqlite3Fts5HashScanInit true (runWrites (fts5HashNewN n) S) none).pScan.map
          (fun e => e.zKey) := by
  have href := refines_runWrites S n hn hv
  have hvalk : ∀ e ∈ (runWrites (fts5HashNewN n) S).aSlot.flatten,
      ∀ x ∈ e.zKey, 0 < x := by
    intro e he
    obtain ⟨i, hi, him⟩ := (mem_flatten_getD _ e).mp he
    exact termValid_pos _ (href.1.2.2.1 i hi e him).1
  obtain ⟨hsorted, hperm⟩ := sortEntries_facts P
    (runWrites (fts5HashNewN n) S).aSlot.flatten hvalk href.1.2.2.2
  have hvs : ∀ e ∈ sortEntries P (runWrites (fts5HashNewN n) S).aSlot.flatten,
      ∀ x ∈ e.zKey, 0 < x := by
    intro e he
    exact hvalk e ((List.filter_sublist _).mem (hperm.mem_iff.mp he))
  refine ⟨?_, ?_, ?_⟩
  · show ((sortEntries P (runWrites (fts5HashNewN n) S).aSlot.flatten).map
        (fun e => e.zKey)).Pairwise (fun a b => lexLtB a b = true)
    apply List.pairwise_map.mpr
    apply hsorted.imp_of_mem
    intro a b ha hb hr
    exact (entryLt_lexLt a b (hvs a ha) (hvs b hb)).mp hr
  · intro t
    show t ∈ (sortEntries P (runWrites (fts5HashNewN n) S).aSlot.flatten).map
        (fun e => e.zKey) ↔ _
    constructor
    · intro hmem
      obtain ⟨e, hes, hek⟩ := List.mem_map.mp hmem
      have hepool := hperm.mem_iff.mp hes
      obtain ⟨hefl, hematch⟩ := List.mem_filter.mp hepool
      constructor
      · obtain ⟨r, hr, hrt⟩ := href.2.2 e hefl
        exact ⟨r, hr, by rw [hrt, hek]⟩
      · intro q hPq
        subst hPq
        rw [← hek]
        exact (termMatch_isPrefix q e.zKey (hP q rfl)).mp hematch
    · intro hcase
      obtain ⟨⟨r, hr, hrt⟩, hpre⟩ := hcase
      have hvt : termValid t = true := by
        rw [← hrt]
        exact hv r hr
      have hfne : S.filter (fun x => x.term == t) ≠ [] := by
        intro hcon
        have hmem : r ∈ S.filter (fun x => x.term == t) := by
          apply List.mem_filter.mpr
          refine ⟨hr, ?_⟩
          simp [hrt]
        rw [hcon] at hmem
        cases hmem
      have hlk : ∃ e, hashLookup (runWrites (fts5HashNewN n) S) t = some e := by
        rw [href.2.1 t hvt]
        cases hfe : S.filter (fun x => x.term == t) with
        | nil => exact absurd hfe hfne
        | cons r0 rest0 => exact ⟨_, rfl⟩
      obtain ⟨e, he⟩ := hlk
      have hef := (lookup_iff _ href.1 t hvt e).mp he
      have hmatch : fts5TermMatch P e.zKey = true := by
        cases P with
        | none => rfl
        | some q =>
          apply (termMatch_isPrefix q e.zKey (hP q rfl)).mpr
          rw [hef.2]
          exact hpre q rfl
      apply List.mem_map.mpr
      exact ⟨e, hperm.mem_iff.mpr (List.mem_filter.mpr ⟨hef.1, hmatch⟩), hef.2⟩
  · show traceTerms (((sortEntries none
        (runWrites (fts5HashNewN n) S).aSlot.flatten).map entryEvents).flatten) = _
    rw [traceTerms_flat]
    rfl

theorem claim_C2_witness :
    (0 < 4
      ∧ (∀ r ∈ [({ term := [98], rowid := 1, col := 0, pos := 0 } : WriteRec),
          { term := [97], rowid := 2, col := 0, pos := 0 }], termValid r.term = true)
      ∧ (∀ t, (some [97] : Option (List Nat)) = some t → ∀ x ∈ t, 0 < x))
    ∧ (List.Pairwise (fun a b => lexLtB a b = true)
        ((sqlite3Fts5HashScanInit true
          (runWrites (fts5HashNewN 4)
            [({ term := [98], rowid := 1, col := 0, pos := 0 } : WriteRec),
             { term := [97], rowid := 2, col := 0, pos := 0 }]) (some [97])).pScan.map
          (fun e => e.zKey))
      ∧ (∀ t, t ∈ (sqlite3Fts5HashScanInit true
            (runWrites (fts5HashNewN 4)
              [({ term := [98], rowid := 1, col := 0, pos := 0 } : WriteRec),
               { term := [97], rowid := 2, col := 0, pos := 0 }]) (some [97])).pScan.map
              (fun e => e.zKey)
          ↔ ((∃ r ∈ [({ term := [98], rowid := 1, col := 0, pos := 0 } : WriteRec),
               { term := [97], rowid := 2, col := 0, pos := 0 }], r.term = t)
             ∧ ∀ q, (some [97] : Option (List Nat)) = some q → List.IsPrefix q t))
      ∧ traceTerms (sqlite3Fts5HashIterate true
          (runWrites (fts5HashNewN 4)
            [({ term := [98], rowid := 1, col := 0, pos := 0 } : WriteRec),
             { term := [97], rowid := 2, col := 0, pos := 0 }])).2.1
        = (sqlite3Fts5HashScanInit true
            (runWrites (fts5HashNewN 4)
              [({ term := [98], rowid := 1, col := 0, pos := 0 } : WriteRec),
               { term := [97], rowid := 2, col := 0, pos := 0 }]) none).pScan.map
            (fun e => e.zKey)) :=
  ⟨⟨by decide, by decide,
    by intro t ht x hx; injection ht with h2; rw [← h2] at hx; simp at hx; omega⟩,
    claim_C2 [{ term := [98], rowid := 1, col := 0, pos := 0 },
              { term := [97], rowid := 2, col := 0, pos := 0 }] 4
      (by decide) (by decide) (some [97])
      (by intro t ht x hx; injection ht with h2; rw [← h2] at hx; simp at hx; omega)⟩

theorem flatten_perm_of_refines (S : List WriteRec) (h1 h2 : Fts5Hash)
    (hr1 : Refines S h1) (hr2 : Refines S h2) :
    h1.aSlot.flatten.Perm h2.aSlot.flatten := by
  have hval1 : ∀ e ∈ h1.aSlot.flatten, termValid e.zKey = true := by
    intro e he
    obtain ⟨i, hi, him⟩ := (mem_flatten_getD _ e).mp he
    exact (hr1.1.2.2.1 i hi e him).1
  have hval2 : ∀ e ∈ h2.aSlot.flatten, termValid e.zKey = true := by
    intro e he
    obtain ⟨i, hi, him⟩ := (mem_flatten_getD _ e).mp he
    exact (hr2.1.2.2.1 i hi e him).1
  have hsub12 : h1.aSlot.flatten ⊆ h2.aSlot.flatten := by
    intro e he
    have hvk := hval1 e he
    have hl1 : hashLookup h1 e.zKey = some e :=
      (lookup_iff h1 hr1.1 _ hvk e).mpr ⟨he, rfl⟩
    have hl2 : hashLookup h2 e.zKey = some e := by
      rw [hr2.2.1 _ hvk, ← hr1.2.1 _ hvk]
      exact hl1
    exact ((lookup_iff h2 hr2.1 _ hvk e).mp hl2).1
  have hsub21 : h2.aSlot.flatten ⊆ h1.aSlot.flatten := by
    intro e he
    have hvk := hval2 e he
    have hl2 : hashLookup h2 e.zKey = some e :=
      (lookup_iff h2 hr2.1 _ hvk e).mpr ⟨he, rfl⟩
    have hl1 : hashLookup h1 e.zKey = some e := by
      rw [hr1.2.1 _ hvk, ← hr2.2.1 _ hvk]
      exact hl2
    exact ((lookup_iff h1 hr1.1 _ hvk e).mp hl1).1
  exact (List.subperm_of_subset (hr1.1.2.2.2.of_map _) hsub12).antisymm
    (List.subperm_of_subset (hr2.1.2.2.2.of_map _) hsub21)

/-- C9: no observable output depends on the slot count: for every write
sequence of well-formed terms, two accumulators differing only in their
initial slot count return identical doclists from point-query for every
well-formed token, identical sorted scan lists for every prefix, and
identical iterate callback traces. -/
theorem claim_C9 (S : List WriteRec) (n1 n2 : Nat) (hn1 : 0 < n1) (hn2 : 0 < n2)
    (hv : ∀ r ∈ S, termValid r.term = true) :
    (∀ tok, termValid tok = true →
      sqlite3Fts5HashQuery (runWrites (fts5HashNewN n1) S) tok
        = sqlite3Fts5HashQuery (runWrites (fts5HashNewN n2) S) tok)
    ∧ (∀ P, (sqlite3Fts5HashScanInit true (runWrites (fts5HashNewN n1) S) P).pScan
        = (sqlite3Fts5HashScanInit true (runWrites (fts5HashNewN n2) S) P).pScan)
    ∧ (sqlite3Fts5HashIterate true (runWrites (fts5HashNewN n1) S)).2.1
        = (sqlite3Fts5HashIterate true (runWrites (fts5HashNewN n2) S)).2.1 := by
  have hr1 := refines_runWrites S n1 hn1 hv
  have hr2 := refines_runWrites S n2 hn2 hv
  have hfp := flatten_perm_of_refines S _ _ hr1 hr2
  have hvalk1 : ∀ e ∈ (runWrites (fts5HashNewN n1) S).aSlot.flatten,
      ∀ x ∈ e.zKey, 0 < x := by
    intro e he
    obtain ⟨i, hi, him⟩ := (mem_flatten_getD _ e).mp he
    exact termValid_pos _ (hr1.1.2.2.1 i hi e him).1
  have hvalk2 : ∀ e ∈ (runWrites (fts5HashNewN n2) S).aSlot.flatten,
      ∀ x ∈ e.zKey, 0 < x := by
    intro e he
    obtain ⟨i, hi, him⟩ := (mem_flatten_getD _ e).mp he
    exact termValid_pos _ (hr2.1.2.2.1 i hi e him).1
  have hsortEq : ∀ P, sortEntries P (runWrites (fts5HashNewN n1) S).aSlot.flatten
      = sortEntries P (runWrites (fts5HashNewN n2) S).aSlot.flatten := by
    intro P
    obtain ⟨hs1, hp1⟩ := sortEntries_facts P _ hvalk1 hr1.1.2.2.2
    obtain ⟨hs2, hp2⟩ := sortEntries_facts P _ hvalk2 hr2.1.2.2.2
    apply sorted_perm_eq _ _ (hp1.trans (((hfp.filter _).trans hp2.symm))) hs1 hs2
    intro e he
    exact hvalk1 e ((List.filter_sublist _).mem (hp1.mem_iff.mp he))
  refine ⟨?_, ?_, ?_⟩
  · intro tok ht
    show (hashLookup _ tok).map patchedData = (hashLookup _ tok).map patchedData
    rw [hr1.2.1 tok ht, hr2.2.1 tok ht]
  · intro P
    show sortEntries P _ = sortEntries P _
    exact hsortEq P
  · show ((sortEntries none (runWrites (fts5HashNewN n1) S).aSlot.flatten).map
        entryEvents).flatten
      = ((sortEntries none (runWrites (fts5HashNewN n2) S).aSlot.flatten).map
        entryEvents).flatten
    rw [hsortEq none]

theorem claim_C9_witness :
    (0 < 1024 ∧ 0 < 4
      ∧ (∀ r ∈ [({ term := [97], rowid := 5, col := 0, pos := 3 } : WriteRec)],
          termValid r.term = true))
    ∧ ((∀ tok, termValid tok = true →
        sqlite3Fts5HashQuery (runWrites (fts5HashNewN 1024)
          [({ term := [97], rowid := 5, col := 0, pos := 3 } : WriteRec)]) tok
          = sqlite3Fts5HashQuery (runWrites (fts5HashNewN 4)
            [({ term := [97], rowid := 5, col := 0, pos := 3 } : WriteRec)]) tok)
      ∧ (∀ P, (sqlite3Fts5HashScanInit true (runWrites (fts5HashNewN 1024)
          [({ term := [97], rowid := 5, col := 0, pos := 3 } : WriteRec)]) P).pScan
          = (sqlite3Fts5HashScanInit true (runWrites (fts5HashNewN 4)
            [({ term := [97], rowid := 5, col := 0, pos := 3 } : WriteRec)]) P).pScan)
      ∧ (sqlite3Fts5HashIterate true (runWrites (fts5HashNewN 1024)
          [({ term := [97], rowid := 5, col := 0, pos := 3 } : WriteRec)])).2.1
          = (sqlite3Fts5HashIterate true (runWrites (fts5HashNewN 4)
            [({ term := [97], rowid := 5, col := 0, pos := 3 } : WriteRec)])).2.1) :=
  ⟨⟨by decide, by decide, by decide⟩,
    claim_C9 [{ term := [97], rowid := 5, col := 0, pos := 3 }] 1024 4
      (by decide) (by decide) (by decide)⟩

theorem iterLoop_succ (fuel : Nat) (iRowid : Int) (b : Nat) (bs : List Nat) :
    iterLoop (fuel + 1) iRowid (b :: bs)
      = (let dv := sqlite3GetVarint (b :: bs)
         let r := toI64 (toU64 (iRowid + (dv.1 : Int)))
         let bs1 := (b :: bs).drop dv.2
         let g4 := fts5Get4ByteVarint bs1
         IterEvent.doc r ((bs1.drop (4 - g4.2)).take (g4.2 + g4.1))
           :: iterLoop fuel r (bs1.drop (4 + g4.1))) := rfl

theorem iterLoop_enc : ∀ (fuel : Nat) (docs : List Doc) (prev : Option Int) (q : Int),
    docsOk prev docs = true →
    (prev = none → q = 0) →
    (∀ x, prev = some x → q = x ∧ -(2 ^ 62 : Int) ≤ x ∧ x < 2 ^ 62) →
    (encDocs prev docs).length ≤ fuel →
    iterLoop fuel q (encDocs prev docs)
      = docs.map (fun d => IterEvent.doc d.1
          (sqlite3PutVarint (encPoslist 0 0 d.2).length ++ encPoslist 0 0 d.2)) := by
  intro fuel
  induction fuel with
  | zero =>
    intro docs prev q hok h0 hsx hlen
    cases docs with
    | nil => rfl
    | cons d rest =>
      exfalso
      obtain ⟨R, pl⟩ := d
      have henc : encDocs prev ((R, pl) :: rest)
          = sqlite3PutVarint (encBlockDelta prev R)
            ++ fts5Put4ByteVarint (encPoslist 0 0 pl).length
            ++ encPoslist 0 0 pl
            ++ encDocs (some R) rest := rfl
      rw [henc] at hlen
      have hp1 := putVarint_length_pos (encBlockDelta prev R)
      simp only [List.length_append] at hlen
      omega
  | succ fuel ih =>
    intro docs prev q hok h0 hsx hlen
    cases docs with
    | nil => rfl
    | cons d rest =>
      obtain ⟨R, pl⟩ := d
      rw [docsOk_cons] at hok
      simp only [Bool.and_eq_true, decide_eq_true_eq] at hok
      obtain ⟨⟨⟨⟨⟨hR1, hR2⟩, hpm⟩, hpl⟩, hsz⟩, hrest⟩ := hok
      have hq64 : toU64 (q + ((encBlockDelta prev R : Nat) : Int)) = toU64 R := by
        cases prev with
        | none =>
          rw [h0 rfl]
          show toU64 (0 + ((toU64 R : Nat) : Int)) = toU64 R
          rw [Int.zero_add]
          have hlt := toU64_lt R
          unfold toU64 at hlt ⊢
          omega
        | some x =>
          obtain ⟨hqx, hx1, hx2⟩ := hsx x rfl
          have hlt : x < R := by simpa using hpm
          show toU64 (q + ((toU64 (R - x) : Nat) : Int)) = toU64 R
          rw [hqx, toU64_small (R - x) (by omega) (by omega)]
          have hxr : x + (R - x) = R := by ring
          rw [hxr]
      have hr : toI64 (toU64 (q + ((encBlockDelta prev R : Nat) : Int))) = R := by
        rw [hq64]
        exact toI64_toU64_small R (by omega) (by omega)
      have henc : encDocs prev ((R, pl) :: rest)
          = sqlite3PutVarint (encBlockDelta prev R)
            ++ (fts5Put4ByteVarint (encPoslist 0 0 pl).length
              ++ (encPoslist 0 0 pl ++ encDocs (some R) rest)) := by
        show sqlite3PutVarint (encBlockDelta prev R)
            ++ fts5Put4ByteVarint (encPoslist 0 0 pl).length
            ++ encPoslist 0 0 pl
            ++ encDocs (some R) rest = _
        simp [List.append_assoc]
      rw [henc] at hlen ⊢
      cases hpv : sqlite3PutVarint (encBlockDelta prev R) with
      | nil =>
        have hp1 := putVarint_length_pos (encBlockDelta prev R)
        rw [hpv] at hp1
        cases hp1
      | cons b0 bs0 =>
        rw [List.cons_append, iterLoop_succ]
        have hgv : sqlite3GetVarint (b0 :: (bs0
              ++ (fts5Put4ByteVarint (encPoslist 0 0 pl).length
                ++ (encPoslist 0 0 pl ++ encDocs (some R) rest))))
            = (encBlockDelta prev R,
               (sqlite3PutVarint (encBlockDelta prev R)).length) := by
          rw [← List.cons_append, ← hpv]
          exact getVarint_put _ _ (by cases prev <;> exact toU64_lt _)
        simp only [hgv]
        have hdrop : (b0 :: (bs0
              ++ (fts5Put4ByteVarint (encPoslist 0 0 pl).length
                ++ (encPoslist 0 0 pl ++ encDocs (some R) rest)))).drop
              (sqlite3PutVarint (encBlockDelta prev R)).length
            = fts5Put4ByteVarint (encPoslist 0 0 pl).length
              ++ (encPoslist 0 0 pl ++ encDocs (some R) rest) := by
          rw [← List.cons_append, ← hpv]
          exact List.drop_left _ _
        rw [hdrop, hr]
        rw [get4_append, put4_get4 _ hsz]
        have hnlen : (if (encPoslist 0 0 pl).length < 2 ^ 7 then 1
              else if (encPoslist 0 0 pl).length < 2 ^ 14 then 2
              else if (encPoslist 0 0 pl).length < 2 ^ 21 then 3 else 4)
            = (sqlite3PutVarint (encPoslist 0 0 pl).length).length :=
          (putVarint_length_cases _ hsz).symm
        rw [hnlen]
        have hlen4 : (fts5Put4ByteVarint (encPoslist 0 0 pl).length).length = 4 := by
          simp [fts5Put4ByteVarint]
        have hvle : (sqlite3PutVarint (encPoslist 0 0 pl).length).length ≤ 4 := by
          have := putVarint_length_cases _ hsz
          rw [this]
          split_ifs <;> omega
        have hdropn : (fts5Put4ByteVarint (encPoslist 0 0 pl).length
              ++ (encPoslist 0 0 pl ++ encDocs (some R) rest)).drop
              (4 - (sqlite3PutVarint (encPoslist 0 0 pl).length).length)
            = sqlite3PutVarint (encPoslist 0 0 pl).length
              ++ (encPoslist 0 0 pl ++ encDocs (some R) rest) := by
          rw [List.drop_append_of_le_length (by rw [hlen4]; omega)]
          rw [put4_suffix _ hsz]
        rw [hdropn]
        have htake : (sqlite3PutVarint (encPoslist 0 0 pl).length
              ++ (encPoslist 0 0 pl ++ encDocs (some R) rest)).take
              ((sqlite3PutVarint (encPoslist 0 0 pl).length).length
                + (encPoslist 0 0 pl).length)
            = sqlite3PutVarint (encPoslist 0 0 pl).length ++ encPoslist 0 0 pl := by
          rw [show sqlite3PutVarint (encPoslist 0 0 pl).length
              ++ (encPoslist 0 0 pl ++ encDocs (some R) rest)
            = (sqlite3PutVarint (encPoslist 0 0 pl).length ++ encPoslist 0 0 pl)
              ++ encDocs (some R) rest by simp [List.append_assoc]]
          rw [show (sqlite3PutVarint (encPoslist 0 0 pl).length).length
              + (encPoslist 0 0 pl).length
            = (sqlite3PutVarint (encPoslist 0 0 pl).length
              ++ encPoslist 0 0 pl).length by simp [List.length_append]]
          exact List.take_left _ _
        rw [htake]
        have hdroprest : (fts5Put4ByteVarint (encPoslist 0 0 pl).length
              ++ (encPoslist 0 0 pl ++ encDocs (some R) rest)).drop
              (4 + (encPoslist 0 0 pl).length)
            = encDocs (some R) rest := by
          rw [show fts5Put4ByteVarint (encPoslist 0 0 pl).length
              ++ (encPoslist 0 0 pl ++ encDocs (some R) rest)
            = (fts5Put4ByteVarint (encPoslist 0 0 pl).length ++ encPoslist 0 0 pl)
              ++ encDocs (some R) rest by simp [List.append_assoc]]
          rw [show 4 + (encPoslist 0 0 pl).length
            = (fts5Put4ByteVarint (encPoslist 0 0 pl).length
              ++ encPoslist 0 0 pl).length by simp [List.length_append, hlen4]]
          exact List.drop_left _ _
        rw [hdroprest]
        have hlenr : (encDocs (some R) rest).length ≤ fuel := by
          have hp1 := putVarint_length_pos (encBlockDelta prev R)
          rw [hpv] at hp1
          simp only [List.length_append, List.length_cons] at hlen
          omega
        rw [ih rest (some R) R hrest
          (by intro hcon; cases hcon)
          (by intro x hx; injection hx with hx2; rw [← hx2]; exact ⟨rfl, hR1, hR2⟩)
          hlenr]
        rfl

/-- C4 (amended): during iterate, every byte range passed to the xEntry
callback is the poslist-size varint in its NATURAL length of one to four
bytes (the trailing bytes of the stored fixed-width 4-byte field, which by
claim C10 coincide with the generic varint encoding of the size), followed
by the poslist bytes: a framed pair whose size prefix occupies between one
and four bytes, not always exactly four as claimed. -/
theorem claim_C4_amended (S : List WriteRec) (n : Nat) (hn : 0 < n)
    (hv : validSeq S = true) (hlen : S.length ≤ 2 ^ 23) (rr : Int) (bs : List Nat)
    (hmem : IterEvent.doc rr bs
      ∈ (sqlite3Fts5HashIterate true (runWrites (fts5HashNewN n) S)).2.1) :
    ∃ ps : List Nat, bs = sqlite3PutVarint ps.length ++ ps := by
  have hv2 : (S.all (fun r => termValid r.term) &&
      (S.map (fun r => r.term)).all
        (fun t => termSeqOk (S.filter (fun r => r.term == t)))) = true := hv
  simp only [Bool.and_eq_true] at hv2
  obtain ⟨hall, hseq⟩ := hv2
  have hv1 : ∀ r ∈ S, termValid r.term = true := by
    intro r hr
    exact List.all_eq_true.mp hall r hr
  have href := refines_runWrites S n hn hv1
  have htr : (sqlite3Fts5HashIterate true (runWrites (fts5HashNewN n) S)).2.1
      = ((sortEntries none (runWrites (fts5HashNewN n) S).aSlot.flatten).map
          entryEvents).flatten := rfl
  rw [htr] at hmem
  obtain ⟨evs, hevs, hin⟩ := List.mem_flatten.mp hmem
  obtain ⟨e, hes, hee⟩ := List.mem_map.mp hevs
  have hvalk : ∀ e2 ∈ (runWrites (fts5HashNewN n) S).aSlot.flatten,
      ∀ x ∈ e2.zKey, 0 < x := by
    intro e2 he2
    obtain ⟨i, hi, him⟩ := (mem_flatten_getD _ e2).mp he2
    exact termValid_pos _ (href.1.2.2.1 i hi e2 him).1
  obtain ⟨hsorted, hperm⟩ := sortEntries_facts none _ hvalk href.1.2.2.2
  have hefl : e ∈ (runWrites (fts5HashNewN n) S).aSlot.flatten :=
    (List.filter_sublist _).mem (hperm.mem_iff.mp hes)
  have hvk : termValid e.zKey = true := by
    obtain ⟨i, hi, him⟩ := (mem_flatten_getD _ e).mp hefl
    exact (href.1.2.2.1 i hi e him).1
  have hlk : hashLookup (runWrites (fts5HashNewN n) S) e.zKey = some e :=
    (lookup_iff _ href.1 _ hvk e).mpr ⟨hefl, rfl⟩
  rw [href.2.1 _ hvk] at hlk
  have hwr : e.zKey ∈ S.map (fun r => r.term) := by
    obtain ⟨r, hr, hrt⟩ := href.2.2 e hefl
    exact List.mem_map.mpr ⟨r, hr, hrt⟩
  have hts0 : termSeqOk (S.filter (fun r => r.term == e.zKey)) = true :=
    List.all_eq_true.mp hseq e.zKey hwr
  cases hfe : S.filter (fun x => x.term == e.zKey) with
  | nil =>
    rw [hfe] at hlk
    cases hlk
  | cons r0 restf =>
    rw [hfe] at hlk hts0
    have hlk2 : some (restf.foldl (fun e2 x => termStep e2 x.rowid x.col x.pos)
        (termStep (newEntry e.zKey r0.rowid) r0.rowid r0.col r0.pos)) = some e := hlk
    injection hlk2 with hlk3
    have hm := entryFold_matches e.zKey r0 restf
    rw [hlk3] at hm
    have hpd : patchedData e = encDocs none (docsOf (r0 :: restf)) := by
      rw [patchedData_of_matches e.zKey _ e hm]
      rfl
    have hflen : (r0 :: restf).length ≤ 2 ^ 23 := by
      rw [← hfe]
      exact le_trans (List.length_filter_le _ _) hlen
    have hdocsOk := termSeqOk_docsOk (r0 :: restf) hts0 hflen
    rw [← hee] at hin
    have hin2 : IterEvent.doc rr bs
        ∈ iterLoop (patchedData e).length 0 (patchedData e) := by
      rcases List.mem_cons.mp hin with hc | hc
      · exact IterEvent.noConfusion hc
      · rcases List.mem_append.mp hc with h2 | h2
        · exact h2
        · rcases List.mem_cons.mp h2 with h3 | h3
          · exact IterEvent.noConfusion h3
          · cases h3
    rw [hpd] at hin2
    rw [iterLoop_enc _ (docsOf (r0 :: restf)) none 0 hdocsOk
      (by intro hx; rfl)
      (by intro x hx; cases hx)
      (le_refl _)] at hin2
    obtain ⟨d, hd, hdev⟩ := List.mem_map.mp hin2
    injection hdev with hdev1 hdev2
    exact ⟨encPoslist 0 0 d.2, hdev2.symm⟩

theorem claim_C4_amended_witness :
    (0 < 4
      ∧ validSeq [({ term := [97], rowid := 5, col := 0, pos := 3 } : WriteRec)] = true
      ∧ IterEvent.doc 5 [1, 5]
        ∈ (sqlite3Fts5HashIterate true (runWrites (fts5HashNewN 4)
            [({ term := [97], rowid := 5, col := 0, pos := 3 } : WriteRec)])).2.1)
    ∧ ∃ ps : List Nat, [1, 5] = sqlite3PutVarint ps.length ++ ps :=
  ⟨⟨by decide, by decide, by decide⟩,
    claim_C4_amended [{ term := [97], rowid := 5, col := 0, pos := 3 }] 4
      (by decide) (by decide) (by decide) 5 [1, 5] (by decide)⟩

end Fts5
